import Mathlib

/-!
# Peloton BW-tree index, merge-join executor and executor driver: a shallow embedding

Source files embedded here:

* `src/backend/index/bwtree.cpp` (`BWTree::BWTree`, `BWTree::Insert`)
* `src/backend/executor/merge_join_executor.cpp`
  (`MergeJoinExecutor::DExecute`, `MergeJoinExecutor::Advance`)
* `src/backend/bridge/dml/executor/plan_executor.cpp`
  (`BuildExecutorTree`, `PlanExecutor::AddMaterialization`,
  `PlanExecutor::ExecutePlan`)
* `src/backend/bridge/expr_transformer.cpp` (`ReMapPgFunc`,
  `ExprTransformer::TransformVar`, `ExprTransformer::TransformExpr`,
  `ExprTransformer::TransformOp`, `ExprTransformer::TransformConstant`)

Conventions.

* Page records are immutable once published and a chain is never cyclic, so a
  chain is an inductive value: a delta record carries its `next` record.  The
  mapping table maps a PID to the head record of its chain.
* `compare_exchange_strong(expected, desired)` on a slot compares the slot with
  `expected`.  The walk of `Insert` only ever holds a record reached from the
  head of `map_table_[current_PID]` through `GetDeltaNext`, i.e. a suffix of
  that chain, and a proper suffix of a chain is never equal to the chain, so
  comparing the records is the same test as comparing the pointers.
* The loops of `Insert`, the matching loop of `DExecute` and the self-calls of
  `DExecute` consume one unit of fuel per iteration or call; running out of
  fuel is reported as its own outcome, so "never returns" is the statement
  that this outcome is produced for every amount of fuel.  The loop of
  `Advance` is bounded by the tuple count and needs no fuel.
* `InsertStep` is one iteration of the walk of `Insert`, and `DExecuteStep` one
  call of `DExecute` up to its self-call; `DExecuteWithin` is `DExecute` with
  the nesting of the self-calls and the iterations of the matching loop bounded
  apart.  Lemmas relate each of them to `InsertWalk` and to `DExecute`.
* Reading a row outside its tile and taking `back()` of an empty vector are
  undefined behaviour in the source and are reported as such.
* Executors are mutable objects reached through pointers: they live in a heap,
  the list of the executors allocated so far, and a pointer is an index into it.
* The operators other than the merge join and the transaction manager are not
  among the source files: what the executor tree does when `ExecutePlan` drives
  it is an input of the model, and the calls `ExecutePlan` makes are recorded.
-/

set_option linter.dupNamespace false

namespace peloton
namespace index

/-- Page identifier: an index into the mapping table. -/
abbrev PID := Nat

/-- The page records of the BW-tree.  The two base pages end a chain; every
delta record carries the record it was prepended to.  `InnerNode` keeps the
one member `Insert` reads (`children_`).  These are the seven kinds the
`switch` of `Insert` names, so its `default` case is never reached. -/
inductive Page (K V : Type) where
  | InnerNode (children_ : List (K × PID))
  | LeafNode (data_items_ : List (K × List V)) (low_key_ high_key_ : K)
      (absolute_min_ absolute_max_ : Bool)
  | IndexTermDelta (low_separator_ high_separator_ : K) (side_link_ : PID)
      (absolute_min_ absolute_max_ : Bool) (next : Page K V)
  | SplitDelta (split_key_ : K) (sibling_ : PID) (next : Page K V)
  | RemoveNodeDelta (next : Page K V)
  | NodeMergeDelta (merge_key_ : K) (merged_ : Page K V) (next : Page K V)
  | ModifyDelta (key_ : K) (locations_ : List V) (next : Page K V)
  deriving DecidableEq

/-- The members of `BWTree` that `Insert` and the constructor use. -/
structure BWTree (K V : Type) where
  comparator_ : K → K → Int
  equals_ : K → K → Bool
  root_ : PID
  PID_counter_ : PID
  allow_duplicate_ : Bool
  map_table_ : PID → Option (Page K V)

/-- Assignment `map_table_[pid] = page`. -/
def BWTree.store {K V : Type} (t : BWTree K V) (pid : PID) (page : Page K V) :
    BWTree K V :=
  { t with map_table_ := fun p => if p = pid then some page else t.map_table_ p }

/-- The constructor `BWTree::BWTree(comparator, equals)`: root PID 0 mapped to
an empty inner node, PID counter 1, duplicates allowed. -/
def BWTree.BWTree {K V : Type} (comparator : K → K → Int) (equals : K → K → Bool) :
    BWTree K V :=
  { comparator_ := comparator
    equals_ := equals
    root_ := 0
    PID_counter_ := 1
    allow_duplicate_ := true
    map_table_ := fun p => if p = 0 then some (Page.InnerNode []) else none }

/-- Modelled from the spec: `InstallNewMapping` is declared in `bwtree.h`, which
is not among the source files.  The spec speaks of pages "allocated on insert"
under "tentatively reserved PIDs" and of a PID counter; the page is stored under
the next unused PID, which is returned. -/
def InstallNewMapping {K V : Type} (t : BWTree K V) (page : Page K V) :
    PID × BWTree K V :=
  (t.PID_counter_, { t.store t.PID_counter_ page with PID_counter_ := t.PID_counter_ + 1 })

/-- `map_table_[pid].compare_exchange_strong(expected, desired)`: the flag and
the table afterwards. -/
def compare_exchange_strong {K V : Type} [DecidableEq K] [DecidableEq V]
    (t : BWTree K V) (pid : PID) (expected desired : Page K V) : Bool × BWTree K V :=
  if t.map_table_ pid = some expected then (true, t.store pid desired) else (false, t)

/-- How a call of `Insert` ends. -/
inductive InsertOutcome (K V : Type) where
  /-- The call returned `result`, leaving the tree `tree`. -/
  | returned (result : Bool) (tree : BWTree K V)
  /-- A PID without a page was dereferenced. -/
  | nullPage
  /-- The loops were still running when the fuel ran out. -/
  | outOfFuel

/-- The test of the first branch of `Insert`:
`GetType() == INNER_NODE && children_.size() == 0`. -/
def isEmptyInnerNode {K V : Type} : Page K V → Bool
  | Page.InnerNode children_ => children_.length == 0
  | _ => false

/-- The inner loop `while (attempt_insert)` of `Insert`, one iteration per unit
of fuel, from `current_page` on the chain of `current_PID`. -/
def InsertWalk {K V : Type} [DecidableEq K] [DecidableEq V] (key : K) (data : V) :
    Nat → BWTree K V → PID → Page K V → InsertOutcome K V
  | 0, _, _, _ => InsertOutcome.outOfFuel
  | fuel + 1, t, current_PID, current_page =>
    match current_page with
    | Page.InnerNode _ => InsertWalk key data fuel t current_PID current_page
    | Page.IndexTermDelta low_separator_ high_separator_ side_link_
        absolute_min_ absolute_max_ next =>
      if (absolute_min_ || decide (t.comparator_ key low_separator_ > 0)) &&
          (absolute_max_ || decide (t.comparator_ key high_separator_ ≤ 0)) then
        match t.map_table_ side_link_ with
        | none => InsertOutcome.nullPage
        | some page => InsertWalk key data fuel t side_link_ page
      else
        InsertWalk key data fuel t current_PID next
    | Page.SplitDelta _ _ _ => InsertWalk key data fuel t current_PID current_page
    | Page.RemoveNodeDelta _ => InsertWalk key data fuel t current_PID current_page
    | Page.NodeMergeDelta _ _ _ => InsertWalk key data fuel t current_PID current_page
    | Page.LeafNode _ _ _ _ _ => InsertWalk key data fuel t current_PID current_page
    | Page.ModifyDelta key_ locations_ next =>
      if t.equals_ key key_ then
        -- (inserted, install_new); install_new is only read when inserted holds
        let flags : Bool × Bool :=
          if locations_.length = 0 then (true, true)
          else if !t.allow_duplicate_ then (false, false)
          else
            match locations_.find? (fun _ => false) with
            | some _ => (true, false)
            | none => (true, true)
        if flags.1 && flags.2 then
          let new_modify_delta := Page.ModifyDelta key (locations_ ++ [data]) current_page
          let cas := compare_exchange_strong t current_PID current_page new_modify_delta
          if cas.1 then InsertOutcome.returned true cas.2
          else InsertOutcome.returned flags.1 cas.2
        else InsertOutcome.returned flags.1 t
      else
        InsertWalk key data fuel t current_PID next

/-- The function `BWTree::Insert(key, data)`: the outer loop `while (true)`, one
iteration per unit of fuel. -/
def Insert {K V : Type} [DecidableEq K] [DecidableEq V] (key : K) (data : V) :
    Nat → BWTree K V → InsertOutcome K V
  | 0, _ => InsertOutcome.outOfFuel
  | fuel + 1, t =>
    match t.map_table_ t.root_ with
    | none => InsertOutcome.nullPage
    | some root_page =>
      if isEmptyInnerNode root_page then
        let leaf_base_page := Page.LeafNode [(key, [data])] key key true true
        let installed := InstallNewMapping t leaf_base_page
        let index_term_page :=
          Page.IndexTermDelta key key installed.1 true true root_page
        let cas := compare_exchange_strong installed.2 installed.2.root_ root_page
          index_term_page
        if cas.1 then InsertOutcome.returned true cas.2
        else Insert key data fuel cas.2
      else
        InsertWalk key data fuel t t.root_ root_page

/-- Modelled from the spec: `Search` is not among the source files.  "For any
key K, the set of live values is determined by the topmost ModifyDelta (or base
leaf entry) matching K on the search path": the value list that one chain holds
for `key`, the other delta records being passed over. -/
def chainValues {K V : Type} (equals : K → K → Bool) (key : K) : Page K V → List V
  | Page.InnerNode _ => []
  | Page.LeafNode data_items_ _ _ _ _ =>
    match data_items_.find? (fun item => equals key item.1) with
    | some item => item.2
    | none => []
  | Page.IndexTermDelta _ _ _ _ _ next => chainValues equals key next
  | Page.SplitDelta _ _ next => chainValues equals key next
  | Page.RemoveNodeDelta next => chainValues equals key next
  | Page.NodeMergeDelta _ _ next => chainValues equals key next
  | Page.ModifyDelta key_ locations_ next =>
    if equals key key_ then locations_ else chainValues equals key next

/-- The comparator of the integer keys used in the examples. -/
def intComparator (a b : Int) : Int := if a < b then -1 else if a > b then 1 else 0

/-- The equality checker of the integer keys used in the examples. -/
def intEquals (a b : Int) : Bool := decide (a = b)

/-- The leaf holding the single record `(5, [10])`. -/
def leafFive : Page Int Nat := Page.LeafNode [(5, [10])] 5 5 true true

/-- A tree whose root routes every key to PID 1, the chain of PID 1 being
`ModifyDelta(7, [30]) → ModifyDelta(5, [10]) → leaf`. -/
def staleChainTree : BWTree Int Nat :=
  { comparator_ := intComparator
    equals_ := intEquals
    root_ := 0
    PID_counter_ := 2
    allow_duplicate_ := true
    map_table_ := fun p =>
      if p = 0 then some (Page.IndexTermDelta 5 5 1 true true (Page.InnerNode []))
      else if p = 1 then
        some (Page.ModifyDelta 7 [30] (Page.ModifyDelta 5 [10] leafFive))
      else none }

/-- A tree whose root routes every key to PID 1, the chain of PID 1 being
`ModifyDelta(5, [10]) → leaf`. -/
def modifiedTree : BWTree Int Nat :=
  { comparator_ := intComparator
    equals_ := intEquals
    root_ := 0
    PID_counter_ := 2
    allow_duplicate_ := true
    map_table_ := fun p =>
      if p = 0 then some (Page.IndexTermDelta 5 5 1 true true (Page.InnerNode []))
      else if p = 1 then some (Page.ModifyDelta 5 [10] leafFive)
      else none }

/-- The accessor `GetDeltaNext()`: the record a delta record was prepended to;
a base page has none. -/
def Page.GetDeltaNext {K V : Type} : Page K V → Option (Page K V)
  | Page.InnerNode _ => none
  | Page.LeafNode _ _ _ _ _ => none
  | Page.IndexTermDelta _ _ _ _ _ next => some next
  | Page.SplitDelta _ _ next => some next
  | Page.RemoveNodeDelta next => some next
  | Page.NodeMergeDelta _ _ next => some next
  | Page.ModifyDelta _ _ next => some next

/-- A tree whose root chain is an index term delta for the keys in `(10, 20]`
with child PID 1, prepended to a ModifyDelta for key 5; PID 1 holds a
ModifyDelta for key 15. -/
def routedTree : BWTree Int Nat :=
  { comparator_ := intComparator
    equals_ := intEquals
    root_ := 0
    PID_counter_ := 2
    allow_duplicate_ := true
    map_table_ := fun p =>
      if p = 0 then
        some (Page.IndexTermDelta 10 20 1 false false
          (Page.ModifyDelta 5 [10] (Page.InnerNode [])))
      else if p = 1 then some (Page.ModifyDelta 15 [30] leafFive)
      else none }

/-- Where one iteration of the loop `while (attempt_insert)` leaves `Insert`. -/
inductive WalkStep (K V : Type) where
  /-- The loop goes round again with this `current_PID` and `current_page`. -/
  | goOn (current_PID : PID) (current_page : Page K V)
  /-- The iteration left `Insert` with this outcome. -/
  | ended (outcome : InsertOutcome K V)

/-- One iteration of the loop `while (attempt_insert)` of `Insert`: the body of
`InsertWalk`, the next iteration being left to the caller. -/
def InsertStep {K V : Type} [DecidableEq K] [DecidableEq V] (key : K) (data : V)
    (t : BWTree K V) (current_PID : PID) (current_page : Page K V) : WalkStep K V :=
  match current_page with
  | Page.InnerNode _ => WalkStep.goOn current_PID current_page
  | Page.IndexTermDelta low_separator_ high_separator_ side_link_
      absolute_min_ absolute_max_ next =>
    if (absolute_min_ || decide (t.comparator_ key low_separator_ > 0)) &&
        (absolute_max_ || decide (t.comparator_ key high_separator_ ≤ 0)) then
      match t.map_table_ side_link_ with
      | none => WalkStep.ended InsertOutcome.nullPage
      | some page => WalkStep.goOn side_link_ page
    else
      WalkStep.goOn current_PID next
  | Page.SplitDelta _ _ _ => WalkStep.goOn current_PID current_page
  | Page.RemoveNodeDelta _ => WalkStep.goOn current_PID current_page
  | Page.NodeMergeDelta _ _ _ => WalkStep.goOn current_PID current_page
  | Page.LeafNode _ _ _ _ _ => WalkStep.goOn current_PID current_page
  | Page.ModifyDelta key_ locations_ next =>
    if t.equals_ key key_ then
      let flags : Bool × Bool :=
        if locations_.length = 0 then (true, true)
        else if !t.allow_duplicate_ then (false, false)
        else
          match locations_.find? (fun _ => false) with
          | some _ => (true, false)
          | none => (true, true)
      if flags.1 && flags.2 then
        let new_modify_delta := Page.ModifyDelta key (locations_ ++ [data]) current_page
        let cas := compare_exchange_strong t current_PID current_page new_modify_delta
        if cas.1 then WalkStep.ended (InsertOutcome.returned true cas.2)
        else WalkStep.ended (InsertOutcome.returned flags.1 cas.2)
      else WalkStep.ended (InsertOutcome.returned flags.1 t)
    else
      WalkStep.goOn current_PID next

/-- The `current_PID` and `current_page` of `Insert` after `steps` iterations of
the loop `while (attempt_insert)` started at the given ones; none when `Insert`
was left before. -/
def InsertPosition {K V : Type} [DecidableEq K] [DecidableEq V] (key : K) (data : V)
    (t : BWTree K V) : Nat → PID → Page K V → Option (PID × Page K V)
  | 0, current_PID, current_page => some (current_PID, current_page)
  | steps + 1, current_PID, current_page =>
    match InsertStep key data t current_PID current_page with
    | WalkStep.goOn next_PID next_page => InsertPosition key data t steps next_PID next_page
    | WalkStep.ended _ => none

end index

namespace executor

/-- How a modelled call ends. -/
inductive Outcome (α : Type) where
  /-- The call returned `value`. -/
  | ok (value : α)
  /-- The call read a row outside its tile or took `back()` of an empty vector. -/
  | undefinedBehaviour
  /-- The call was still running when the fuel ran out. -/
  | outOfFuel

/-- A logical tile as the join sees it: its rows in order; `GetTupleCount()` is
the length and `ContainerTuple(tile, row)` is the row at that index. -/
abbrev LogicalTile (T : Type) := List T

/-- The two operations on `Value` the join uses. -/
structure ValueOps (V : Type) where
  Compare : V → V → Int
  IsFalse : V → Bool

/-- A join clause: `left_` and `right_`, each an expression evaluated as
`Evaluate(tuple1, tuple2, nullptr)`. -/
structure JoinClause (T V : Type) where
  left_ : T → T → V
  right_ : T → T → V

/-- The output tile handed to `SetOutput`: the two source tiles and the rows
added by `pos_lists_builder.AddRow(left_row, right_row)`, in order. -/
structure OutputTile (T : Type) where
  left_tile : LogicalTile T
  right_tile : LogicalTile T
  position_lists : List (Nat × Nat)

/-- The state of a `MergeJoinExecutor`.  A child is the list of tiles it has yet
to deliver: its `Execute()` returns false on the empty list and otherwise
delivers the first tile.  `left_result_tiles_` and `right_result_tiles_` are the
buffers filled by `BufferLeftTile` and `BufferRightTile`; the matched rows are
what `RecordMatchedLeftRow` and `RecordMatchedRightRow` were called with. -/
structure MergeJoinExecutor (T V : Type) where
  join_clauses_ : List (JoinClause T V)
  predicate_ : Option (T → T → V)
  children_0 : List (LogicalTile T)
  children_1 : List (LogicalTile T)
  left_result_tiles_ : List (LogicalTile T)
  right_result_tiles_ : List (LogicalTile T)
  left_start_row : Nat
  left_end_row : Nat
  right_start_row : Nat
  right_end_row : Nat
  left_child_done_ : Bool
  right_child_done_ : Bool
  matched_left_rows_ : List (Nat × Nat)
  matched_right_rows_ : List (Nat × Nat)
  output_ : Option (OutputTile T)

/-- The inner `for` loop of `Advance`: whether some clause compares the two rows
as different (`this_value.Compare(next_value) != 0`). -/
def rowsDiffer {T V : Type} (vo : ValueOps V) (join_clauses_ : List (JoinClause T V))
    (is_left : Bool) (this_tuple next_tuple : T) : Bool :=
  join_clauses_.any fun clause =>
    let expr := if is_left then clause.left_ else clause.right_
    decide (vo.Compare (expr this_tuple this_tuple) (expr next_tuple next_tuple) ≠ 0)

/-- The `while (end_row < tuple_count)` loop of `Advance`.  `end_row` grows by
one per iteration, so `remaining` (at least `tuple_count - end_row`) bounds the
iterations and reaching 0 is the loop exit.  Both indices are below
`tuple_count` where the rows are read. -/
def AdvanceScan {T V : Type} (vo : ValueOps V) (join_clauses_ : List (JoinClause T V))
    (tile : LogicalTile T) (is_left : Bool) : Nat → Nat → Nat → Nat
  | 0, _, end_row => end_row
  | remaining + 1, this_row, end_row =>
    if end_row < tile.length then
      match tile[this_row]?, tile[end_row]? with
      | some this_tuple, some next_tuple =>
        if rowsDiffer vo join_clauses_ is_left this_tuple next_tuple then end_row
        else AdvanceScan vo join_clauses_ tile is_left remaining (end_row + 1) (end_row + 1)
      | _, _ => end_row
    else end_row

/-- The function `MergeJoinExecutor::Advance(tile, start_row, is_left)`. -/
def Advance {T V : Type} (vo : ValueOps V) (join_clauses_ : List (JoinClause T V))
    (tile : LogicalTile T) (start_row : Nat) (is_left : Bool) : Nat :=
  if start_row ≥ tile.length then start_row
  else AdvanceScan vo join_clauses_ tile is_left tile.length start_row (start_row + 1)

/-- The statements `left_start_row = left_end_row; left_end_row = Advance(left_tile,
left_start_row, true);`. -/
def advanceLeft {T V : Type} (vo : ValueOps V) (left_tile : LogicalTile T)
    (ex : MergeJoinExecutor T V) : MergeJoinExecutor T V :=
  { ex with
    left_start_row := ex.left_end_row
    left_end_row := Advance vo ex.join_clauses_ left_tile ex.left_end_row true }

/-- The statements `right_start_row = right_end_row; right_end_row =
Advance(right_tile, right_start_row, false);`. -/
def advanceRight {T V : Type} (vo : ValueOps V) (right_tile : LogicalTile T)
    (ex : MergeJoinExecutor T V) : MergeJoinExecutor T V :=
  { ex with
    right_start_row := ex.right_end_row
    right_end_row := Advance vo ex.join_clauses_ right_tile ex.right_end_row false }

/-- The clause loop of the matching loop: the comparison of the first clause
whose two values differ, and 0 when every clause compares equal. -/
def compareClauses {T V : Type} (vo : ValueOps V) :
    List (JoinClause T V) → T → T → Int
  | [], _, _ => 0
  | clause :: rest, left_tuple, right_tuple =>
    let comparison := vo.Compare (clause.left_ left_tuple right_tuple)
      (clause.right_ left_tuple right_tuple)
    if comparison < 0 then comparison
    else if comparison > 0 then comparison
    else compareClauses vo rest left_tuple right_tuple

/-- The row pairs of the Cartesian product of two row ranges, in the order of the
two nested `for` loops. -/
def cartesianRows (left_start left_end right_start right_end : Nat) : List (Nat × Nat) :=
  (List.range' left_start (left_end - left_start)).flatMap fun left_tile_row_itr =>
    (List.range' right_start (right_end - right_start)).map fun right_tile_row_itr =>
      (left_tile_row_itr, right_tile_row_itr)

/-- The body of the matching loop `while (left_end_row > left_start_row &&
right_end_row > right_start_row)`: the executor and the rows of the position
lists builder after one iteration. -/
def matchIteration {T V : Type} (vo : ValueOps V) (left_tile right_tile : LogicalTile T)
    (ex : MergeJoinExecutor T V) (pos_lists : List (Nat × Nat)) :
    Outcome (MergeJoinExecutor T V × List (Nat × Nat)) :=
  match left_tile[ex.left_start_row]?, right_tile[ex.right_start_row]? with
  | some left_tuple, some right_tuple =>
    let comparison := compareClauses vo ex.join_clauses_ left_tuple right_tuple
    if comparison < 0 then Outcome.ok (advanceLeft vo left_tile ex, pos_lists)
    else if comparison > 0 then Outcome.ok (advanceRight vo right_tile ex, pos_lists)
    else
      let ex1 :=
        match ex.predicate_ with
        | some predicate =>
          if vo.IsFalse (predicate left_tuple right_tuple) then
            advanceRight vo right_tile (advanceLeft vo left_tile ex)
          else ex
        | none => ex
      let rows := cartesianRows ex1.left_start_row ex1.left_end_row
        ex1.right_start_row ex1.right_end_row
      let ex2 := { ex1 with
        matched_left_rows_ := ex1.matched_left_rows_ ++
          rows.map fun row => (ex1.left_result_tiles_.length - 1, row.1)
        matched_right_rows_ := ex1.matched_right_rows_ ++
          rows.map fun row => (ex1.right_result_tiles_.length - 1, row.2) }
      Outcome.ok (advanceRight vo right_tile (advanceLeft vo left_tile ex2), pos_lists ++ rows)
  | _, _ => Outcome.undefinedBehaviour

/-- The matching loop, one iteration per unit of fuel. -/
def matchLoop {T V : Type} (vo : ValueOps V) (left_tile right_tile : LogicalTile T) :
    Nat → MergeJoinExecutor T V → List (Nat × Nat) →
      Outcome (MergeJoinExecutor T V × List (Nat × Nat))
  | 0, _, _ => Outcome.outOfFuel
  | fuel + 1, ex, pos_lists =>
    if ex.left_end_row > ex.left_start_row ∧ ex.right_end_row > ex.right_start_row then
      match matchIteration vo left_tile right_tile ex pos_lists with
      | Outcome.ok next => matchLoop vo left_tile right_tile fuel next.1 next.2
      | Outcome.undefinedBehaviour => Outcome.undefinedBehaviour
      | Outcome.outOfFuel => Outcome.outOfFuel
    else Outcome.ok (ex, pos_lists)

/-- What a tile pick-up step of `DExecute` leads to. -/
inductive Picked (T V : Type) where
  /-- The child returned false: the side is marked done and `DExecute` is
  called again. -/
  | tryAgain (ex : MergeJoinExecutor T V)
  /-- The step is over (a tile was buffered, or no tile was asked for). -/
  | proceed (ex : MergeJoinExecutor T V)

/-- The step "Try to get next tile from RIGHT child" of `DExecute`. -/
def pickRightTile {T V : Type} (vo : ValueOps V) (ex : MergeJoinExecutor T V) :
    Picked T V :=
  if (ex.right_child_done_ == false && ex.right_start_row == ex.right_end_row) ||
      ex.left_child_done_ == true then
    match ex.children_1 with
    | [] => Picked.tryAgain { ex with right_child_done_ := true }
    | right_tile :: rest =>
      Picked.proceed { ex with
        children_1 := rest
        right_result_tiles_ := ex.right_result_tiles_ ++ [right_tile]
        right_start_row := 0
        right_end_row := Advance vo ex.join_clauses_ right_tile 0 false }
  else Picked.proceed ex

/-- The step "Try to get next tile from LEFT child" of `DExecute`. -/
def pickLeftTile {T V : Type} (vo : ValueOps V) (ex : MergeJoinExecutor T V) :
    Picked T V :=
  if (ex.left_child_done_ == false && ex.left_start_row == ex.left_end_row) ||
      ex.right_child_done_ == true then
    match ex.children_0 with
    | [] => Picked.tryAgain { ex with left_child_done_ := true }
    | left_tile :: rest =>
      Picked.proceed { ex with
        children_0 := rest
        left_result_tiles_ := ex.left_result_tiles_ ++ [left_tile]
        left_start_row := 0
        left_end_row := Advance vo ex.join_clauses_ left_tile 0 true }
  else Picked.proceed ex

/-- The function `MergeJoinExecutor::DExecute()`, one call (and one iteration of
the matching loop) per unit of fuel.  `BuildOuterJoinOutput`, a member of the
base class, is a parameter. -/
def DExecute {T V : Type} (vo : ValueOps V)
    (BuildOuterJoinOutput : MergeJoinExecutor T V → Bool × MergeJoinExecutor T V) :
    Nat → MergeJoinExecutor T V → Outcome (Bool × MergeJoinExecutor T V)
  | 0, _ => Outcome.outOfFuel
  | fuel + 1, ex =>
    if ex.right_child_done_ && ex.left_child_done_ then
      Outcome.ok (BuildOuterJoinOutput ex)
    else
      match pickRightTile vo ex with
      | Picked.tryAgain ex1 => DExecute vo BuildOuterJoinOutput fuel ex1
      | Picked.proceed ex1 =>
        match pickLeftTile vo ex1 with
        | Picked.tryAgain ex2 => DExecute vo BuildOuterJoinOutput fuel ex2
        | Picked.proceed ex2 =>
          match ex2.left_result_tiles_.getLast?, ex2.right_result_tiles_.getLast? with
          | some left_tile, some right_tile =>
            match matchLoop vo left_tile right_tile fuel ex2 [] with
            | Outcome.ok (ex3, pos_lists) =>
              if pos_lists.length > 0 then
                Outcome.ok (true, { ex3 with
                  output_ := some
                    { left_tile := left_tile
                      right_tile := right_tile
                      position_lists := pos_lists } })
              else
                match DExecute vo BuildOuterJoinOutput fuel ex3 with
                | Outcome.ok result => Outcome.ok (true, result.2)
                | Outcome.undefinedBehaviour => Outcome.undefinedBehaviour
                | Outcome.outOfFuel => Outcome.outOfFuel
            | Outcome.undefinedBehaviour => Outcome.undefinedBehaviour
            | Outcome.outOfFuel => Outcome.outOfFuel
          | _, _ => Outcome.undefinedBehaviour

/-- Modelled from the spec: `AbstractJoinExecutor::BuildOuterJoinOutput` is not
among the source files.  For an inner join there is no padding ("empty for
inner"): no output is set and the result is false. -/
def innerJoinOutput {T V : Type} (ex : MergeJoinExecutor T V) :
    Bool × MergeJoinExecutor T V :=
  (false, ex)

/-- Modelled from the spec: `AbstractExecutor::GetOutput` is not among the source
files.  It "transfers ownership of the most recently produced tile": the tile,
if any, and the executor without it. -/
def GetOutput {T V : Type} (ex : MergeJoinExecutor T V) :
    Option (OutputTile T) × MergeJoinExecutor T V :=
  (ex.output_, { ex with output_ := none })

/-- The rows of a tile taken with `GetOutput`, none for a missing tile. -/
def tileRows {T : Type} : Option (OutputTile T) → List (Nat × Nat)
  | some tile => tile.position_lists
  | none => []

/-- The row pairs a consumer receives over all calls: it calls `DExecute` until
false is returned (at most `calls` times) and takes the output after every call
that returned true. -/
def emittedRows {T V : Type} (vo : ValueOps V)
    (BuildOuterJoinOutput : MergeJoinExecutor T V → Bool × MergeJoinExecutor T V)
    (fuel : Nat) : Nat → MergeJoinExecutor T V → Outcome (List (Nat × Nat))
  | 0, _ => Outcome.outOfFuel
  | calls + 1, ex =>
    match DExecute vo BuildOuterJoinOutput fuel ex with
    | Outcome.ok (true, ex1) =>
      match emittedRows vo BuildOuterJoinOutput fuel calls (GetOutput ex1).2 with
      | Outcome.ok rows => Outcome.ok (tileRows (GetOutput ex1).1 ++ rows)
      | Outcome.undefinedBehaviour => Outcome.undefinedBehaviour
      | Outcome.outOfFuel => Outcome.outOfFuel
    | Outcome.ok (false, _) => Outcome.ok []
    | Outcome.undefinedBehaviour => Outcome.undefinedBehaviour
    | Outcome.outOfFuel => Outcome.outOfFuel

/-- Integer values used in the examples: three-way comparison, and 0 as the
false value. -/
def intOps : ValueOps Int :=
  { Compare := fun a b => if a < b then -1 else if a > b then 1 else 0
    IsFalse := fun v => decide (v = 0) }

/-- The clause of the examples: a row is its join key, the left expression
reads the left tuple and the right expression the right tuple. -/
def keyClause : JoinClause Int Int :=
  { left_ := fun left_tuple _ => left_tuple
    right_ := fun _ right_tuple => right_tuple }

/-- A merge join before its first `DExecute`, over the given tiles of the left
and the right child.  Nothing is buffered, both runs are the empty range
`[0, 0)` and no child is done, so that the first call asks each child for a
tile (the member initialisers are in the headers, which are not among the
source files). -/
def freshJoin {T V : Type} (join_clauses : List (JoinClause T V))
    (predicate : Option (T → T → V)) (left_tiles right_tiles : List (LogicalTile T)) :
    MergeJoinExecutor T V :=
  { join_clauses_ := join_clauses
    predicate_ := predicate
    children_0 := left_tiles
    children_1 := right_tiles
    left_result_tiles_ := []
    right_result_tiles_ := []
    left_start_row := 0
    left_end_row := 0
    right_start_row := 0
    right_end_row := 0
    left_child_done_ := false
    right_child_done_ := false
    matched_left_rows_ := []
    matched_right_rows_ := []
    output_ := none }

/-- The join of the example `[1, 2]` against `[1, 2]` under a predicate that is
false on every pair, at the start of the matching loop: both tiles buffered,
both runs `[0, 1)`. -/
def rejectingJoin : MergeJoinExecutor Int Int :=
  { freshJoin [keyClause] (some fun _ _ => 0) [] [] with
    left_result_tiles_ := [[1, 2]]
    right_result_tiles_ := [[1, 2]]
    left_end_row := 1
    right_end_row := 1 }

/-- The join of the example `[1]` against `[2]` at the start of the matching
loop: both tiles buffered, both runs `[0, 1)`. -/
def skewedJoin : MergeJoinExecutor Int Int :=
  { freshJoin [keyClause] none [] [] with
    left_result_tiles_ := [[1]]
    right_result_tiles_ := [[2]]
    left_end_row := 1
    right_end_row := 1 }

/-- The run `[start_row, end_row)` lies inside the tile when it is not empty. -/
def RunInside {T : Type} (tile : LogicalTile T) (start_row end_row : Nat) : Prop :=
  start_row ≤ end_row ∧ (start_row < end_row → end_row ≤ tile.length)

/-- What the matching loop leaves untouched: the children, the buffered tiles,
the done flags, the clauses, the predicate and the output. -/
def SameStreams {T V : Type} (ex ex1 : MergeJoinExecutor T V) : Prop :=
  ex1.join_clauses_ = ex.join_clauses_ ∧ ex1.predicate_ = ex.predicate_ ∧
    ex1.children_0 = ex.children_0 ∧ ex1.children_1 = ex.children_1 ∧
    ex1.left_result_tiles_ = ex.left_result_tiles_ ∧
    ex1.right_result_tiles_ = ex.right_result_tiles_ ∧
    ex1.left_child_done_ = ex.left_child_done_ ∧
    ex1.right_child_done_ = ex.right_child_done_ ∧ ex1.output_ = ex.output_

/-- The state of the runs between two calls of `DExecute`: no run has its end
before its start, and a child is done or a run is empty (the matching loop has
run to its end, or has not started yet). -/
def BetweenCalls {T V : Type} (ex : MergeJoinExecutor T V) : Prop :=
  ex.left_start_row ≤ ex.left_end_row ∧ ex.right_start_row ≤ ex.right_end_row ∧
    (ex.left_child_done_ = true ∨ ex.right_child_done_ = true ∨
      ex.left_start_row = ex.left_end_row ∨ ex.right_start_row = ex.right_end_row)

/-- The tiles the children have yet to deliver, plus one for each child not yet
marked done. -/
def pendingPulls {T V : Type} (ex : MergeJoinExecutor T V) : Nat :=
  ex.children_0.length + ex.children_1.length +
    (if ex.left_child_done_ then 0 else 1) + (if ex.right_child_done_ then 0 else 1)

/-- The tuple count of the most recently buffered tile, 0 when there is none. -/
def lastTupleCount {T : Type} (tiles : List (LogicalTile T)) : Nat :=
  match tiles.getLast? with
  | some tile => tile.length
  | none => 0

/-- The rows the matching loop may still go over: those of the tiles yet to be
delivered and of the two most recently buffered tiles. -/
def pendingRows {T V : Type} (ex : MergeJoinExecutor T V) : Nat :=
  (ex.children_0.map List.length).sum + lastTupleCount ex.left_result_tiles_ +
    ((ex.children_1.map List.length).sum + lastTupleCount ex.right_result_tiles_)

/-- The join once its first call has buffered the one tile of each child: both
children have nothing left to deliver, and the runs are those `Advance` finds
from row 0. -/
def loadedJoin {T V : Type} (vo : ValueOps V) (join_clauses : List (JoinClause T V))
    (predicate : Option (T → T → V)) (left_tile right_tile : LogicalTile T) :
    MergeJoinExecutor T V :=
  { freshJoin join_clauses predicate [] [] with
    left_result_tiles_ := [left_tile]
    right_result_tiles_ := [right_tile]
    left_end_row := Advance vo join_clauses left_tile 0 true
    right_end_row := Advance vo join_clauses right_tile 0 false }

/-- What one call of `DExecute` comes to before it calls itself or returns. -/
inductive CallStep (T V : Type) where
  /-- The call ends in `return DExecute();` with the executor in this state. -/
  | again (ex : MergeJoinExecutor T V)
  /-- The call ends in `DExecute(); return true;` with the executor in this
  state. -/
  | againThenTrue (ex : MergeJoinExecutor T V)
  /-- The call ends without calling itself. -/
  | ended (outcome : Outcome (Bool × MergeJoinExecutor T V))

/-- One call of `DExecute` up to its self-call or its return, the matching loop
being given `iterations` units of fuel: the body of `DExecute`, the self-call
being left to the caller. -/
def DExecuteStep {T V : Type} (vo : ValueOps V)
    (BuildOuterJoinOutput : MergeJoinExecutor T V → Bool × MergeJoinExecutor T V)
    (iterations : Nat) (ex : MergeJoinExecutor T V) : CallStep T V :=
  if ex.right_child_done_ && ex.left_child_done_ then
    CallStep.ended (Outcome.ok (BuildOuterJoinOutput ex))
  else
    match pickRightTile vo ex with
    | Picked.tryAgain ex1 => CallStep.again ex1
    | Picked.proceed ex1 =>
      match pickLeftTile vo ex1 with
      | Picked.tryAgain ex2 => CallStep.again ex2
      | Picked.proceed ex2 =>
        match ex2.left_result_tiles_.getLast?, ex2.right_result_tiles_.getLast? with
        | some left_tile, some right_tile =>
          match matchLoop vo left_tile right_tile iterations ex2 [] with
          | Outcome.ok (ex3, pos_lists) =>
            if pos_lists.length > 0 then
              CallStep.ended (Outcome.ok (true, { ex3 with
                output_ := some
                  { left_tile := left_tile
                    right_tile := right_tile
                    position_lists := pos_lists } }))
            else CallStep.againThenTrue ex3
          | Outcome.undefinedBehaviour => CallStep.ended Outcome.undefinedBehaviour
          | Outcome.outOfFuel => CallStep.ended Outcome.outOfFuel
        | _, _ => CallStep.ended Outcome.undefinedBehaviour

/-- The function `MergeJoinExecutor::DExecute()` with its two resources told
apart: the self-calls may nest `depth` deep, and the matching loop of every call
may make `iterations` iterations. -/
def DExecuteWithin {T V : Type} (vo : ValueOps V)
    (BuildOuterJoinOutput : MergeJoinExecutor T V → Bool × MergeJoinExecutor T V)
    (iterations : Nat) : Nat → MergeJoinExecutor T V → Outcome (Bool × MergeJoinExecutor T V)
  | 0, _ => Outcome.outOfFuel
  | depth + 1, ex =>
    match DExecuteStep vo BuildOuterJoinOutput iterations ex with
    | CallStep.again ex1 => DExecuteWithin vo BuildOuterJoinOutput iterations depth ex1
    | CallStep.againThenTrue ex1 =>
      match DExecuteWithin vo BuildOuterJoinOutput iterations depth ex1 with
      | Outcome.ok result => Outcome.ok (true, result.2)
      | Outcome.undefinedBehaviour => Outcome.undefinedBehaviour
      | Outcome.outOfFuel => Outcome.outOfFuel
    | CallStep.ended outcome => outcome

/-- The most recently buffered tile of a side, the empty tile when none is
buffered. -/
def lastTile {T : Type} (tiles : List (LogicalTile T)) : LogicalTile T :=
  match tiles.getLast? with
  | some tile => tile
  | none => []

/-- Each of the two runs lies inside the most recently buffered tile of its side;
it is empty while no tile is buffered. -/
def RunsInside {T V : Type} (ex : MergeJoinExecutor T V) : Prop :=
  RunInside (lastTile ex.left_result_tiles_) ex.left_start_row ex.left_end_row ∧
    RunInside (lastTile ex.right_result_tiles_) ex.right_start_row ex.right_end_row

/-- Each side has buffered a tile, or its child is not done and has a tile yet
to deliver. -/
def Supplied {T V : Type} (ex : MergeJoinExecutor T V) : Prop :=
  (ex.left_result_tiles_ ≠ [] ∨ (ex.children_0 ≠ [] ∧ ex.left_child_done_ = false)) ∧
    (ex.right_result_tiles_ ≠ [] ∨ (ex.children_1 ≠ [] ∧ ex.right_child_done_ = false))

end executor

namespace bridge

/-- Modelled from the spec: the enumeration of plan node kinds is declared in
`types.h`, which is not among the source files.  The kinds are the ones the
spec enumerates ("Invalid, SeqScan, IndexScan, Insert, Delete, Update, Limit,
NestedLoop, MergeJoin, Projection, Materialize"); `other` stands for any further
value of the enumeration (an "unknown kind"). -/
inductive PlanNodeType where
  | PLAN_NODE_TYPE_INVALID
  | PLAN_NODE_TYPE_SEQSCAN
  | PLAN_NODE_TYPE_INDEXSCAN
  | PLAN_NODE_TYPE_INSERT
  | PLAN_NODE_TYPE_DELETE
  | PLAN_NODE_TYPE_UPDATE
  | PLAN_NODE_TYPE_LIMIT
  | PLAN_NODE_TYPE_NESTLOOP
  | PLAN_NODE_TYPE_MERGEJOIN
  | PLAN_NODE_TYPE_PROJECTION
  | PLAN_NODE_TYPE_MATERIALIZE
  | other (value : Nat)
  deriving DecidableEq

/-- A plan node as the driver reads it: `GetPlanNodeType()` and
`GetChildren()`. -/
inductive AbstractPlanNode where
  | mk (plan_node_type : PlanNodeType) (children : List AbstractPlanNode)

/-- The accessor `GetPlanNodeType()`. -/
def AbstractPlanNode.GetPlanNodeType : AbstractPlanNode → PlanNodeType
  | AbstractPlanNode.mk plan_node_type _ => plan_node_type

/-- The accessor `GetChildren()`. -/
def AbstractPlanNode.GetChildren : AbstractPlanNode → List AbstractPlanNode
  | AbstractPlanNode.mk _ children => children

/-- The executor classes the driver instantiates, and `MergeJoinExecutor`, the
class of `merge_join_executor.cpp`. -/
inductive ExecutorClass where
  | SeqScanExecutor
  | IndexScanExecutor
  | InsertExecutor
  | DeleteExecutor
  | UpdateExecutor
  | LimitExecutor
  | NestedLoopJoinExecutor
  | MergeJoinExecutor
  | ProjectionExecutor
  | MaterializationExecutor
  deriving DecidableEq

/-- An executor object: its class, the plan node it was constructed with
(`GetRawNode()`, null for the executor `AddMaterialization` creates) and the
pointers `AddChild` was called with, in order. -/
structure AbstractExecutor where
  class_ : ExecutorClass
  node_ : Option AbstractPlanNode
  children_ : List Nat

/-- The executors allocated so far; a pointer to an executor is its index, and
`new` appends. -/
abbrev ExecutorHeap := List AbstractExecutor

/-- The call `root->AddChild(child)`: the executor at index `root` gets `child`
appended to its children. -/
def AddChild : ExecutorHeap → Nat → Nat → ExecutorHeap
  | [], _, _ => []
  | executor :: rest, 0, child =>
    { executor with children_ := executor.children_ ++ [child] } :: rest
  | executor :: rest, root + 1, child => executor :: AddChild rest root child

/-- The `switch (plan_node_type)` of `BuildExecutorTree`: the class of the
executor created for the node, none where `child_executor` stays null. -/
def executorClassFor : PlanNodeType → Option ExecutorClass
  | PlanNodeType.PLAN_NODE_TYPE_INVALID => none
  | PlanNodeType.PLAN_NODE_TYPE_SEQSCAN => some ExecutorClass.SeqScanExecutor
  | PlanNodeType.PLAN_NODE_TYPE_INDEXSCAN => some ExecutorClass.IndexScanExecutor
  | PlanNodeType.PLAN_NODE_TYPE_INSERT => some ExecutorClass.InsertExecutor
  | PlanNodeType.PLAN_NODE_TYPE_DELETE => some ExecutorClass.DeleteExecutor
  | PlanNodeType.PLAN_NODE_TYPE_UPDATE => some ExecutorClass.UpdateExecutor
  | PlanNodeType.PLAN_NODE_TYPE_LIMIT => some ExecutorClass.LimitExecutor
  | PlanNodeType.PLAN_NODE_TYPE_NESTLOOP => some ExecutorClass.NestedLoopJoinExecutor
  | PlanNodeType.PLAN_NODE_TYPE_PROJECTION => some ExecutorClass.ProjectionExecutor
  | PlanNodeType.PLAN_NODE_TYPE_MATERIALIZE => some ExecutorClass.MaterializationExecutor
  | _ => none

mutual
/-- The body of `BuildExecutorTree(root, plan, planstate, txn)` for a plan node:
the returned pointer and the executors allocated afterwards. -/
def BuildPlanNode (heap : ExecutorHeap) (root : Option Nat) :
    AbstractPlanNode → Option Nat × ExecutorHeap
  | AbstractPlanNode.mk plan_node_type children =>
    match executorClassFor plan_node_type with
    | some executor_class =>
      let child_executor := heap.length
      let heap1 := heap ++
        [{ class_ := executor_class
           node_ := some (AbstractPlanNode.mk plan_node_type children)
           children_ := [] }]
      match root with
      | some root_executor =>
        (some root_executor,
          (BuildPlanChildren (AddChild heap1 root_executor child_executor)
            (some child_executor) children).2)
      | none =>
        (some child_executor, (BuildPlanChildren heap1 (some child_executor) children).2)
    | none => (root, (BuildPlanChildren heap none children).2)
/-- The loop `for (auto child : children) child_executor =
BuildExecutorTree(child_executor, child, planstate, txn);`. -/
def BuildPlanChildren (heap : ExecutorHeap) (child_executor : Option Nat) :
    List AbstractPlanNode → Option Nat × ExecutorHeap
  | [] => (child_executor, heap)
  | child :: rest =>
    BuildPlanChildren (BuildPlanNode heap child_executor child).2
      (BuildPlanNode heap child_executor child).1 rest
end

/-- The function `BuildExecutorTree(root, plan, planstate, txn)`; a null `plan`
returns `root`. -/
def BuildExecutorTree (heap : ExecutorHeap) (root : Option Nat) :
    Option AbstractPlanNode → Option Nat × ExecutorHeap
  | none => (root, heap)
  | some plan => BuildPlanNode heap root plan

/-- The function `PlanExecutor::AddMaterialization(root)`: the new root and the
executors allocated afterwards; none when `root` or its plan node cannot be
dereferenced. -/
def AddMaterialization (heap : ExecutorHeap) :
    Option Nat → Option (Option Nat × ExecutorHeap)
  | none => some (none, heap)
  | some root =>
    match heap[root]? with
    | none => none
    | some executor =>
      match executor.node_ with
      | none => none
      | some node =>
        match node.GetPlanNodeType with
        | PlanNodeType.PLAN_NODE_TYPE_NESTLOOP
        | PlanNodeType.PLAN_NODE_TYPE_SEQSCAN
        | PlanNodeType.PLAN_NODE_TYPE_INDEXSCAN
        | PlanNodeType.PLAN_NODE_TYPE_LIMIT =>
          some (some heap.length,
            heap ++
              [{ class_ := ExecutorClass.MaterializationExecutor
                 node_ := none
                 children_ := [root] }])
        | _ => some (some root, heap)

/-- Modelled from the spec: the enumeration `Result` is declared in `types.h`,
which is not among the source files.  "Result ∈ {Success, Failure}"; `other`
stands for any further value, which the `default:` label of the switch in
`ExecutePlan` covers. -/
inductive Result where
  | RESULT_SUCCESS
  | RESULT_FAILURE
  | other (value : Nat)
  deriving DecidableEq

/-- A transaction as `ExecutePlan` uses it: `GetTransactionId()` and
`GetResult()`. -/
structure Transaction where
  txn_id : Nat
  result_ : Result

/-- The call `txn->SetResult(result)`, when one is made. -/
def Transaction.SetResult (txn : Transaction) : Option Result → Transaction
  | none => txn
  | some result => { txn with result_ := result }

/-- The calls `ExecutePlan` makes on the transaction manager and on the
executor tree, as recorded in the order they are made. -/
inductive Event where
  | StartPGTransaction
  | Init
  | Execute
  | GetOutput
  | CommitTransaction
  | AbortTransaction
  | CleanExecutorTree
  deriving DecidableEq

/-- One call of `Execute()` on the root that returned true: what the following
`GetOutput()` hands over (the tuples of base tile 0 of the tile, none for a null
tile) and the result the operators set on the transaction during the call, if
they set one. -/
structure Pull (Tuple : Type) where
  output : Option (List Tuple)
  set_result : Option Result

/-- What the executor tree does when driven (the operators themselves are not
among the source files): the status of `Init()`, the calls of `Execute()` that
return true, then the call that returns false, each with the result it sets on
the transaction, if any. -/
structure TreeRun (Tuple : Type) where
  init_status : Bool
  init_set_result : Option Result
  pulls : List (Pull Tuple)
  last_set_result : Option Result

/-- The caller's status struct: `m_result` and `m_result_slots`. -/
structure Peloton_Status (Slot : Type) where
  m_result : Result
  m_result_slots : List Slot

/-- How a run of `ExecutePlan` ends: the status struct, the transaction and the
calls made. -/
structure PlanEnd (Slot : Type) where
  pstatus : Peloton_Status Slot
  txn : Transaction
  events : List Event

/-- The loop `for (;;)` of `ExecutePlan`: the transaction, the list `slots` and
the calls after the loop. -/
def pullLoop {Tuple Slot : Type} (GetPostgresTuple : Tuple → Option Slot)
    (last_set_result : Option Result) :
    List (Pull Tuple) → Transaction → List Slot → List Event →
      Transaction × List Slot × List Event
  | [], txn, slots, events =>
    (txn.SetResult last_set_result, slots, events ++ [Event.Execute])
  | pull :: rest, txn, slots, events =>
    match pull.output with
    | none =>
      pullLoop GetPostgresTuple last_set_result rest (txn.SetResult pull.set_result) slots
        (events ++ [Event.Execute, Event.GetOutput])
    | some base_tile =>
      pullLoop GetPostgresTuple last_set_result rest (txn.SetResult pull.set_result)
        (slots ++ base_tile.filterMap GetPostgresTuple)
        (events ++ [Event.Execute, Event.GetOutput])

/-- The label `cleanup:` of `ExecutePlan` and what follows it. -/
def cleanup {Slot : Type} (single_statement_txn init_failure : Bool)
    (pstatus : Peloton_Status Slot) (txn : Transaction) (events : List Event) :
    PlanEnd Slot :=
  let decided :=
    if single_statement_txn == true || init_failure == true then
      match txn.result_ with
      | Result.RESULT_SUCCESS => events ++ [Event.CommitTransaction]
      | _ => events ++ [Event.AbortTransaction]
    else events
  { pstatus := { pstatus with m_result := txn.result_ }
    txn := txn
    events := decided ++ [Event.CleanExecutorTree] }

/-- The function `PlanExecutor::ExecutePlan(plan, planstate, tuple_desc, pstatus,
txn_id)`.  `registered` is what `GetPGTransaction(txn_id)` finds, `started` what
`StartPGTransaction(txn_id)` returns, `run` what the executor tree does.  The
result is none when `Init()` would be called through a null `executor_tree`. -/
def ExecutePlan {Tuple Slot : Type} (plan : AbstractPlanNode) (pstatus : Peloton_Status Slot)
    (registered : Option Transaction) (started : Transaction) (run : TreeRun Tuple)
    (GetPostgresTuple : Tuple → Option Slot) : Option (PlanEnd Slot) :=
  let single_statement_txn := registered.isNone
  let txn := match registered with
    | some found => found
    | none => started
  let events := if single_statement_txn then [Event.StartPGTransaction] else []
  let built := BuildExecutorTree [] none (some plan)
  match AddMaterialization built.2 built.1 with
  | some (some _, _) =>
    let txn1 := txn.SetResult run.init_set_result
    if run.init_status == false then
      cleanup single_statement_txn true pstatus (txn1.SetResult (some Result.RESULT_FAILURE))
        (events ++ [Event.Init])
    else
      let looped := pullLoop GetPostgresTuple run.last_set_result run.pulls txn1 []
        (events ++ [Event.Init])
      cleanup single_statement_txn false { pstatus with m_result_slots := looped.2.1 }
        looped.1 looped.2.2
  | _ => none

/-- Modelled from the spec: the expression kinds are declared in `types.h`, which
is not among the source files.  "binary comparison {=, ≠, <, ≤, >, ≥}". -/
inductive ExpressionType where
  | EXPRESSION_TYPE_COMPARE_EQ
  | EXPRESSION_TYPE_COMPARE_NE
  | EXPRESSION_TYPE_COMPARE_LT
  | EXPRESSION_TYPE_COMPARE_LTE
  | EXPRESSION_TYPE_COMPARE_GT
  | EXPRESSION_TYPE_COMPARE_GTE
  deriving DecidableEq

/-- Modelled from the spec: the expression classes are not among the source
files.  "A tree whose nodes are one of: constant value; column reference
(tuple_index, column_index); binary comparison"; a child of a comparison may be
a null pointer. -/
inductive AbstractExpression (V : Type) where
  | ConstantValue (value : V)
  | TupleValue (tuple_idx value_idx : Nat)
  | Comparison (type : ExpressionType) (lc rc : Option (AbstractExpression V))

/-- Modelled from the spec: `expression::ComparisonFactory` (in
`expression_util.h`, not among the source files) builds the binary comparison
of the given kind over the two children. -/
def ComparisonFactory {V : Type} (type : ExpressionType)
    (lc rc : Option (AbstractExpression V)) : Option (AbstractExpression V) :=
  some (AbstractExpression.Comparison type lc rc)

/-- Modelled from the spec: `expression::TupleValueFactory` (in
`expression_util.h`, not among the source files) builds the column reference
`(tuple_index, column_index)`. -/
def TupleValueFactory {V : Type} (tuple_idx value_idx : Nat) : AbstractExpression V :=
  AbstractExpression.TupleValue tuple_idx value_idx

/-- The function `ReMapPgFunc(func_id, lc, rc)`; none is the null pointer
returned after the `default` case. -/
def ReMapPgFunc {V : Type} (func_id : Nat) (lc rc : Option (AbstractExpression V)) :
    Option (AbstractExpression V) :=
  match func_id with
  | 63 | 65 | 67 | 158 | 159 =>
    ComparisonFactory ExpressionType.EXPRESSION_TYPE_COMPARE_EQ lc rc
  | 84 | 144 | 145 | 157 | 164 | 165 =>
    ComparisonFactory ExpressionType.EXPRESSION_TYPE_COMPARE_NE lc rc
  | _ => none

/-- The members of the host node `Var` that `TransformVar` reads. -/
structure Var where
  varno : Nat
  varattno : Int

/-- The function `ExprTransformer::TransformVar(es)`.  `OUTER_VAR` is the host's
constant and `oid_bits` the width of the unsigned type `oid_t`, both declared
outside the source files.  (The `assert` rejects `varattno == 0`.) -/
def TransformVar {V : Type} (OUTER_VAR oid_bits : Nat) (var_expr : Var) :
    AbstractExpression V :=
  let tuple_idx := if var_expr.varno = OUTER_VAR then 1 else 0
  let value_idx := ((var_expr.varattno - 1) % 2 ^ oid_bits).toNat
  TupleValueFactory tuple_idx value_idx

mutual
/-- The nodes of a plan tree in the order `BuildExecutorTree` visits them: a node,
then the subtrees of its children from first to last. -/
def preorder : AbstractPlanNode → List AbstractPlanNode
  | AbstractPlanNode.mk plan_node_type children =>
    AbstractPlanNode.mk plan_node_type children :: preorderAll children
/-- The visiting order over a list of subtrees. -/
def preorderAll : List AbstractPlanNode → List AbstractPlanNode
  | [] => []
  | child :: rest => preorder child ++ preorderAll rest
end

/-- The class and the plan node of every executor, in the order of allocation. -/
def allocations (heap : ExecutorHeap) : List (ExecutorClass × Option AbstractPlanNode) :=
  heap.map fun executor => (executor.class_, executor.node_)

mutual
/-- Whether `BuildExecutorTree` creates an operator for every node of the plan
tree. -/
def allExecutable : AbstractPlanNode → Bool
  | AbstractPlanNode.mk plan_node_type children =>
    (executorClassFor plan_node_type).isSome && allExecutableAll children
/-- The same over a list of subtrees. -/
def allExecutableAll : List AbstractPlanNode → Bool
  | [] => true
  | child :: rest => allExecutable child && allExecutableAll rest
end

mutual
/-- The executor at `pointer` corresponds to the plan node: it was constructed
with this node, its class is the one the node's kind calls for, and its
children are, in order, executors corresponding to the node's children. -/
def Mirrors (heap : ExecutorHeap) (pointer : Nat) : AbstractPlanNode → Prop
  | AbstractPlanNode.mk plan_node_type children =>
    ∃ executor : AbstractExecutor,
      heap[pointer]? = some executor ∧
      executorClassFor plan_node_type = some executor.class_ ∧
      executor.node_ = some (AbstractPlanNode.mk plan_node_type children) ∧
      MirrorsAll heap executor.children_ children
/-- The pointers correspond, one by one and in order, to the plan nodes. -/
def MirrorsAll (heap : ExecutorHeap) (pointers : List Nat) : List AbstractPlanNode → Prop
  | [] => pointers = []
  | child :: rest =>
    ∃ (pointer : Nat) (others : List Nat),
      pointers = pointer :: others ∧ Mirrors heap pointer child ∧ MirrorsAll heap others rest
end

mutual
/-- The number of nodes of a plan tree. -/
def planSize : AbstractPlanNode → Nat
  | AbstractPlanNode.mk _ children => 1 + planSizeAll children
/-- The number of nodes of a list of plan trees. -/
def planSizeAll : List AbstractPlanNode → Nat
  | [] => 0
  | child :: rest => planSize child + planSizeAll rest
end

/-- Where the executors of the children are allocated when their subtrees are
built one after the other from `base` on. -/
def offsets (base : Nat) : List AbstractPlanNode → List Nat
  | [] => []
  | child :: rest => base :: offsets (base + planSize child) rest

mutual
/-- The executors of the plan tree occupy the pointers from `pointer` on in
visiting order, each holding its node, the matching class and the pointers of
its children. -/
def LaidOut (heap : ExecutorHeap) (pointer : Nat) : AbstractPlanNode → Prop
  | AbstractPlanNode.mk plan_node_type children =>
    ∃ executor : AbstractExecutor,
      heap[pointer]? = some executor ∧
      executorClassFor plan_node_type = some executor.class_ ∧
      executor.node_ = some (AbstractPlanNode.mk plan_node_type children) ∧
      executor.children_ = offsets (pointer + 1) children ∧
      LaidOutAll heap (pointer + 1) children
/-- The same for a list of plan trees laid out one after the other. -/
def LaidOutAll (heap : ExecutorHeap) (pointer : Nat) : List AbstractPlanNode → Prop
  | [] => True
  | child :: rest =>
    LaidOut heap pointer child ∧ LaidOutAll heap (pointer + planSize child) rest
end

/-- The plan `Limit → Invalid → SeqScan`. -/
def brokenPlan : AbstractPlanNode :=
  AbstractPlanNode.mk PlanNodeType.PLAN_NODE_TYPE_LIMIT
    [AbstractPlanNode.mk PlanNodeType.PLAN_NODE_TYPE_INVALID
      [AbstractPlanNode.mk PlanNodeType.PLAN_NODE_TYPE_SEQSCAN []]]

/-- The plan `NestLoop → [Limit → SeqScan, IndexScan]`. -/
def joinPlan : AbstractPlanNode :=
  AbstractPlanNode.mk PlanNodeType.PLAN_NODE_TYPE_NESTLOOP
    [AbstractPlanNode.mk PlanNodeType.PLAN_NODE_TYPE_LIMIT
      [AbstractPlanNode.mk PlanNodeType.PLAN_NODE_TYPE_SEQSCAN []],
     AbstractPlanNode.mk PlanNodeType.PLAN_NODE_TYPE_INDEXSCAN []]

/-- What is proved of `BuildExecutorTree` on a plan tree all of whose nodes get
an operator, called with a null or a valid `root`: it returns `root`, or the new
executor when `root` is null; it allocates one executor per plan node; of the
executors allocated before it changes only `root`, which gets the new executor
as a further child; and the new executors are laid out in visiting order. -/
def BuildsLayout (plan : AbstractPlanNode) : Prop :=
  ∀ (heap : ExecutorHeap) (root : Option Nat), (∀ r, root = some r → r < heap.length) →
    (BuildPlanNode heap root plan).1 = some (root.getD heap.length) ∧
    (BuildPlanNode heap root plan).2.length = heap.length + planSize plan ∧
    (∀ i, i < heap.length →
      (BuildPlanNode heap root plan).2[i]? =
        (match root with
          | some r => AddChild heap r heap.length
          | none => heap)[i]?) ∧
    LaidOut (BuildPlanNode heap root plan).2 heap.length plan

/-- The plan of a single sequential scan. -/
def scanPlan : AbstractPlanNode :=
  AbstractPlanNode.mk PlanNodeType.PLAN_NODE_TYPE_SEQSCAN []

/-- The executor of `scanPlan`, alone on the heap. -/
def scanHeap : ExecutorHeap :=
  [{ class_ := ExecutorClass.SeqScanExecutor, node_ := some scanPlan, children_ := [] }]

/-- The status struct a caller passes in, holding the row 7 from before. -/
def callerStatus : Peloton_Status Nat :=
  { m_result := Result.RESULT_SUCCESS, m_result_slots := [7] }

/-- The transaction `StartPGTransaction` returns in the examples. -/
def startedTxn : Transaction :=
  { txn_id := 1, result_ := Result.RESULT_SUCCESS }

/-- A tree whose `Init` succeeds and that yields the tile `[1, 2]`, a null tile
and the tile `[3]` before `Execute` returns false. -/
def threePulls : TreeRun Nat :=
  { init_status := true
    init_set_result := none
    pulls :=
      [{ output := some [1, 2], set_result := none },
       { output := none, set_result := none },
       { output := some [3], set_result := none }]
    last_set_result := none }

/-- A tree whose `Init` returns false. -/
def failedInit : TreeRun Nat :=
  { init_status := false
    init_set_result := none
    pulls := [{ output := some [1, 2], set_result := none }]
    last_set_result := none }

/-- A tuple transformer that yields no slot for the tuple 2. -/
def skipTwo (tuple : Nat) : Option Nat :=
  if tuple = 2 then none else some tuple

/-- The two constructors of `Value` that `TransformConstant` uses:
`ValueFactory::GetNullValue()` and `TupleTransformer::GetValue(datum, type)`. -/
structure ValueFactory (V : Type) where
  GetNullValue : V
  GetValue : Nat → Nat → V

/-- The host expression node `ExprState` with its `expr`, by node tag: a `Const`
with the members `TransformConstant` reads, an `OpExpr` with its function
identifier and the argument states of its `FuncExprState`, a `Var`, and `other`
for a node of any further tag. -/
inductive ExprState where
  | T_Const (constbyval constisnull : Bool) (constvalue consttype : Nat)
  | T_OpExpr (opfuncid : Nat) (args : List ExprState)
  | T_Var (var_expr : Var)
  | other (tag : Nat)

/-- Modelled from the spec: `expression::ConstantValueFactory` (in
`expression_util.h`, not among the source files) builds the constant node
holding the value. -/
def ConstantValueFactory {V : Type} (value : V) : AbstractExpression V :=
  AbstractExpression.ConstantValue value

/-- The function `ExprTransformer::TransformConstant(es)`; a by-reference
constant is only logged. -/
def TransformConstant {V : Type} (vf : ValueFactory V) (constisnull : Bool)
    (constvalue consttype : Nat) : AbstractExpression V :=
  let value := if constisnull then vf.GetNullValue else vf.GetValue constvalue consttype
  ConstantValueFactory value

mutual
/-- The `switch` of `ExprTransformer::TransformExpr(expr_state)` on the node
tag; none is the null pointer. -/
def TransformExprState {V : Type} (vf : ValueFactory V) (OUTER_VAR oid_bits : Nat) :
    ExprState → Option (AbstractExpression V)
  | ExprState.T_Const _ constisnull constvalue consttype =>
    some (TransformConstant vf constisnull constvalue consttype)
  | ExprState.T_OpExpr opfuncid args => TransformOp vf OUTER_VAR oid_bits opfuncid args
  | ExprState.T_Var var_expr => some (TransformVar OUTER_VAR oid_bits var_expr)
  | ExprState.other _ => none
/-- The function `ExprTransformer::TransformOp(es)`. -/
def TransformOp {V : Type} (vf : ValueFactory V) (OUTER_VAR oid_bits : Nat)
    (opfuncid : Nat) : List ExprState → Option (AbstractExpression V)
  | args =>
    ReMapPgFunc opfuncid (TransformArgs vf OUTER_VAR oid_bits 0 none none args).1
      (TransformArgs vf OUTER_VAR oid_bits 0 none none args).2
/-- The loop `foreach(arg, func_state->args)` of `TransformOp`: the children
`lc` and `rc` after it. -/
def TransformArgs {V : Type} (vf : ValueFactory V) (OUTER_VAR oid_bits : Nat) (i : Nat)
    (lc rc : Option (AbstractExpression V)) :
    List ExprState → Option (AbstractExpression V) × Option (AbstractExpression V)
  | [] => (lc, rc)
  | argstate :: rest =>
    if i = 0 then
      TransformArgs vf OUTER_VAR oid_bits (i + 1)
        (TransformExprState vf OUTER_VAR oid_bits argstate) rc rest
    else if i = 1 then
      TransformArgs vf OUTER_VAR oid_bits (i + 1) lc
        (TransformExprState vf OUTER_VAR oid_bits argstate) rest
    else (lc, rc)
end

/-- The function `ExprTransformer::TransformExpr(expr_state)`; a null
`expr_state` gives the null pointer. -/
def TransformExpr {V : Type} (vf : ValueFactory V) (OUTER_VAR oid_bits : Nat) :
    Option ExprState → Option (AbstractExpression V)
  | none => none
  | some expr_state => TransformExprState vf OUTER_VAR oid_bits expr_state

/-- The pointers of the executors of the tree under `pointer`, in the order of a
walk that visits an executor before its children and the children in order,
going at most `depth` levels down. -/
def executorPointers (heap : ExecutorHeap) : Nat → Nat → List Nat
  | 0, _ => []
  | depth + 1, pointer =>
    match heap[pointer]? with
    | some executor => pointer :: executor.children_.flatMap (executorPointers heap depth)
    | none => [pointer]

end bridge

namespace index

/-- At a base leaf the walk of `Insert` repeats the same iteration: no amount of
fuel lets it return. -/
theorem InsertWalk_LeafNode {K V : Type} [DecidableEq K] [DecidableEq V] (key : K) (data : V)
    (t : BWTree K V) (pid : PID) (data_items_ : List (K × List V)) (low_key_ high_key_ : K)
    (absolute_min_ absolute_max_ : Bool) (fuel : Nat) :
    InsertWalk key data fuel t pid
      (Page.LeafNode data_items_ low_key_ high_key_ absolute_min_ absolute_max_) =
      InsertOutcome.outOfFuel := by
  induction fuel with
  | zero => rfl
  | succ n ih => simpa [InsertWalk] using ih

/-- The first `Insert` into a tree as constructed, under either duplicate
policy: it returns true, the leaf is stored under PID 1 and the index term
delta under the root PID. -/
theorem Insert_constructed {K V : Type} [DecidableEq K] [DecidableEq V] (cmp : K → K → Int)
    (eq : K → K → Bool) (dup : Bool) (k : K) (v : V) (n : Nat) :
    Insert k v (n + 1) { BWTree.BWTree cmp eq with allow_duplicate_ := dup } =
      InsertOutcome.returned true
        ((InstallNewMapping { BWTree.BWTree cmp eq with allow_duplicate_ := dup }
          (Page.LeafNode [(k, [v])] k k true true)).2.store 0
            (Page.IndexTermDelta k k 1 true true (Page.InnerNode []))) := by
  simp [Insert, BWTree.BWTree, isEmptyInnerNode, InstallNewMapping, compare_exchange_strong,
    BWTree.store]

/-- After the first `Insert` into a tree as constructed, a second `Insert` of
the same key reaches the leaf and never returns. -/
theorem Insert_after_first {K V : Type} [DecidableEq K] [DecidableEq V] (cmp : K → K → Int)
    (eq : K → K → Bool) (dup : Bool) (k : K) (a b : V) (fuel : Nat) :
    Insert k b fuel
      ((InstallNewMapping { BWTree.BWTree cmp eq with allow_duplicate_ := dup }
        (Page.LeafNode [(k, [a])] k k true true)).2.store 0
          (Page.IndexTermDelta k k 1 true true (Page.InnerNode []))) =
      InsertOutcome.outOfFuel := by
  cases fuel with
  | zero => rfl
  | succ m =>
    cases m with
    | zero => rfl
    | succ m =>
      simp [Insert, InsertWalk, isEmptyInnerNode, InsertWalk_LeafNode, InstallNewMapping,
        BWTree.store, BWTree.BWTree]

/-- C1 (code at the failing input): on the chain `ModifyDelta(7) → ModifyDelta(5,
[10]) → leaf`, `Insert(5, 20)` returns true although the compare-and-swap
against the record in the middle of the chain fails: the tree is unchanged and
the values of key 5 are still `[10]`. -/
theorem Insert_true_without_publishing (n : Nat) :
    Insert 5 20 (n + 4) staleChainTree = InsertOutcome.returned true staleChainTree ∧
      (staleChainTree.map_table_ 1).map (chainValues intEquals 5) = some [10] :=
  ⟨rfl, rfl⟩

/-- C2: for every key and value, `Insert` on a tree as constructed returns true;
afterwards the root slot holds an IndexTermDelta with separators `(k, k)` and
both absolute flags set, whose next record is the empty inner node and whose
child PID is a PID that held no page before and now holds the leaf with the one
record `(k, [v])`, `low_key = high_key = k` and both absolute flags set. -/
theorem Insert_constructed_tree {K V : Type} [DecidableEq K] [DecidableEq V]
    (cmp : K → K → Int) (eq : K → K → Bool) (k : K) (v : V) (n : Nat) :
    ∃ (t : BWTree K V) (leaf_PID : PID),
      Insert k v (n + 1) (BWTree.BWTree cmp eq) = InsertOutcome.returned true t ∧
      (BWTree.BWTree cmp eq : BWTree K V).map_table_ (BWTree.BWTree cmp eq : BWTree K V).root_ =
        some (Page.InnerNode []) ∧
      (BWTree.BWTree cmp eq : BWTree K V).map_table_ leaf_PID = none ∧
      t.root_ = (BWTree.BWTree cmp eq : BWTree K V).root_ ∧
      t.map_table_ t.root_ =
        some (Page.IndexTermDelta k k leaf_PID true true (Page.InnerNode [])) ∧
      t.map_table_ leaf_PID = some (Page.LeafNode [(k, [v])] k k true true) :=
  ⟨_, 1, Insert_constructed cmp eq true k v n, rfl, rfl, rfl, rfl, rfl⟩

/-- C3 (code at the failing input): with duplicates allowed, the first
`Insert(k, a)` on a tree as constructed returns true, and the following
`Insert(k, b)` never returns: it produces no result for any amount of fuel. -/
theorem Insert_second_value_never_returns {K V : Type} [DecidableEq K] [DecidableEq V]
    (cmp : K → K → Int) (eq : K → K → Bool) (k : K) (a b : V) (n fuel : Nat) :
    ∃ t : BWTree K V,
      Insert k a (n + 1) (BWTree.BWTree cmp eq) = InsertOutcome.returned true t ∧
      t.allow_duplicate_ = true ∧
      Insert k b fuel t = InsertOutcome.outOfFuel :=
  ⟨_, Insert_constructed cmp eq true k a n, rfl, Insert_after_first cmp eq true k a b fuel⟩

/-- C4 (code at the failing input): with duplicates disallowed, the first
`Insert(k, a)` returns true, and the following `Insert(k, b)` does not return
false: it never returns. -/
theorem Insert_duplicate_key_never_returns {K V : Type} [DecidableEq K] [DecidableEq V]
    (cmp : K → K → Int) (eq : K → K → Bool) (k : K) (a b : V) (n fuel : Nat) :
    ∃ t : BWTree K V,
      Insert k a (n + 1) { BWTree.BWTree cmp eq with allow_duplicate_ := false } =
        InsertOutcome.returned true t ∧
      t.allow_duplicate_ = false ∧
      Insert k b fuel t = InsertOutcome.outOfFuel :=
  ⟨_, Insert_constructed cmp eq false k a n, rfl, Insert_after_first cmp eq false k a b fuel⟩

/-- C5 (code at the failing input): with duplicates allowed and `(5, 10)`
present in the ModifyDelta at the head of the chain, `Insert(5, 10)` returns
true and installs a new ModifyDelta holding the value twice. -/
theorem Insert_present_pair_installs_again (n : Nat) :
    modifiedTree.allow_duplicate_ = true ∧
    (modifiedTree.map_table_ 1).map (chainValues intEquals 5) = some [10] ∧
    Insert 5 10 (n + 3) modifiedTree =
      InsertOutcome.returned true
        (modifiedTree.store 1
          (Page.ModifyDelta 5 [10, 10] (Page.ModifyDelta 5 [10] leafFive))) :=
  ⟨rfl, rfl, rfl⟩

/-- A compare-and-swap leaves the tree as it was or stores the desired record in
a slot that held the expected one. -/
theorem compare_exchange_strong_tree {K V : Type} [DecidableEq K] [DecidableEq V]
    (t : BWTree K V) (pid : PID) (expected desired : Page K V) :
    (compare_exchange_strong t pid expected desired).2 = t ∨
      ((compare_exchange_strong t pid expected desired).2 = t.store pid desired ∧
        t.map_table_ pid = some expected) := by
  unfold compare_exchange_strong
  split_ifs with h
  · exact Or.inr ⟨rfl, h⟩
  · exact Or.inl rfl

/-- The walk of `Insert` leaves the tree as it was or prepends one record to the
chain of one PID. -/
theorem InsertWalk_prepends {K V : Type} [DecidableEq K] [DecidableEq V] (key : K) (data : V)
    (t : BWTree K V) (result : Bool) (t' : BWTree K V) :
    ∀ (fuel : Nat) (current_PID : PID) (current_page : Page K V),
      InsertWalk key data fuel t current_PID current_page =
          InsertOutcome.returned result t' →
        t' = t ∨ ∃ (pid : PID) (old new : Page K V),
          t.map_table_ pid = some old ∧ new.GetDeltaNext = some old ∧ t' = t.store pid new := by
  intro fuel
  induction fuel with
  | zero => intro pid page h; simp [InsertWalk] at h
  | succ n ih =>
    intro pid page h
    cases page with
    | InnerNode c => rw [InsertWalk] at h; exact ih _ _ h
    | LeafNode d l hk a b => rw [InsertWalk] at h; exact ih _ _ h
    | SplitDelta k s nx => rw [InsertWalk] at h; exact ih _ _ h
    | RemoveNodeDelta nx => rw [InsertWalk] at h; exact ih _ _ h
    | NodeMergeDelta k m nx => rw [InsertWalk] at h; exact ih _ _ h
    | IndexTermDelta low high side amin amax nx =>
      rw [InsertWalk] at h
      split_ifs at h
      · cases hside : t.map_table_ side with
        | none => simp [hside] at h
        | some page => rw [hside] at h; exact ih _ _ h
      · exact ih _ _ h
    | ModifyDelta key_ locs nx =>
      rw [InsertWalk] at h
      have hcas := compare_exchange_strong_tree t pid (Page.ModifyDelta key_ locs nx)
        (Page.ModifyDelta key (locs ++ [data]) (Page.ModifyDelta key_ locs nx))
      by_cases hk : t.equals_ key key_ = true
      · simp only [hk, if_true] at h
        split_ifs at h <;> injection h with _ ht <;> subst ht <;>
          first
          | exact Or.inl rfl
          | (rcases hcas with hc | ⟨hc, hold⟩
             · exact Or.inl hc
             · exact Or.inr ⟨pid, _,
                 Page.ModifyDelta key (locs ++ [data]) (Page.ModifyDelta key_ locs nx),
                 hold, rfl, hc⟩)
      · simp only [hk] at h
        exact ih _ _ h

/-- The walk of `Insert` is the iteration of `InsertStep`. -/
theorem InsertWalk_step {K V : Type} [DecidableEq K] [DecidableEq V] (key : K) (data : V)
    (fuel : Nat) (t : BWTree K V) (current_PID : PID) (current_page : Page K V) :
    InsertWalk key data (fuel + 1) t current_PID current_page =
      match InsertStep key data t current_PID current_page with
      | WalkStep.goOn next_PID next_page => InsertWalk key data fuel t next_PID next_page
      | WalkStep.ended outcome => outcome := by
  cases current_page with
  | InnerNode children_ => rw [InsertWalk, InsertStep]
  | LeafNode data_items_ low_key_ high_key_ absolute_min_ absolute_max_ =>
    rw [InsertWalk, InsertStep]
  | SplitDelta split_key_ sibling_ next => rw [InsertWalk, InsertStep]
  | RemoveNodeDelta next => rw [InsertWalk, InsertStep]
  | NodeMergeDelta merge_key_ merged_ next => rw [InsertWalk, InsertStep]
  | IndexTermDelta low high c abs_min abs_max next =>
    rw [InsertWalk, InsertStep]
    split_ifs
    · cases t.map_table_ c <;> rfl
    · rfl
  | ModifyDelta key_ locations_ next =>
    rw [InsertWalk, InsertStep]
    simp only
    split_ifs <;> rfl

/-- When the walk comes to stand at a position after some iterations, it goes
on from there with the fuel that is left. -/
theorem InsertPosition_walk {K V : Type} [DecidableEq K] [DecidableEq V] (key : K) (data : V)
    (t : BWTree K V) :
    ∀ (steps : Nat) (current_PID : PID) (current_page : Page K V) (reached_PID : PID)
      (reached_page : Page K V),
      InsertPosition key data t steps current_PID current_page =
          some (reached_PID, reached_page) →
        ∀ fuel : Nat, InsertWalk key data (fuel + steps) t current_PID current_page =
          InsertWalk key data fuel t reached_PID reached_page := by
  intro steps
  induction steps with
  | zero =>
    intro current_PID current_page reached_PID reached_page h fuel
    simp only [InsertPosition, Option.some.injEq, Prod.mk.injEq] at h
    rw [h.1, h.2]
    rfl
  | succ steps ih =>
    intro current_PID current_page reached_PID reached_page h fuel
    rw [InsertPosition] at h
    have hstep := InsertWalk_step key data (fuel + steps) t current_PID current_page
    rw [show fuel + (steps + 1) = fuel + steps + 1 from rfl, hstep]
    cases hs : InsertStep key data t current_PID current_page with
    | goOn next_PID next_page =>
      rw [hs] at h
      exact ih next_PID next_page reached_PID reached_page h fuel
    | ended outcome =>
      rw [hs] at h
      exact absurd h (by simp)

/-- The walk at the head of a chain that is a ModifyDelta for the key, with an
empty value list or duplicates allowed: the compare-and-swap succeeds and true
is returned. -/
theorem InsertWalk_ModifyDelta_head {K V : Type} [DecidableEq K] [DecidableEq V] (key : K)
    (data : V) (fuel : Nat) (t : BWTree K V) (current_PID : PID) (key_ : K)
    (locations_ : List V) (next : Page K V)
    (hhead : t.map_table_ current_PID = some (Page.ModifyDelta key_ locations_ next))
    (hkey : t.equals_ key key_ = true)
    (hpolicy : locations_ = [] ∨ t.allow_duplicate_ = true) :
    InsertWalk key data (fuel + 1) t current_PID (Page.ModifyDelta key_ locations_ next) =
      InsertOutcome.returned true
        (t.store current_PID
          (Page.ModifyDelta key (locations_ ++ [data])
            (Page.ModifyDelta key_ locations_ next))) := by
  have hfind : List.find? (fun _ => false) locations_ = none := by
    induction locations_ with
    | nil => rfl
    | cons a rest ih => simp [List.find?]
  rw [InsertWalk]
  rcases hpolicy with h | h
  · subst h
    simp [hkey, compare_exchange_strong, hhead]
  · by_cases hempty : locations_.length = 0
    · simp [hkey, compare_exchange_strong, hhead, hempty]
    · simp [hkey, compare_exchange_strong, hhead, hempty, h, hfind]

/-- The walk at a ModifyDelta for the key returns, and leaves the chains of the
other PIDs as they were. -/
theorem InsertWalk_ModifyDelta_returns {K V : Type} [DecidableEq K] [DecidableEq V] (key : K)
    (data : V) (fuel : Nat) (t : BWTree K V) (current_PID : PID) (key_ : K)
    (locations_ : List V) (next : Page K V) (hkey : t.equals_ key key_ = true) :
    ∃ (result : Bool) (t' : BWTree K V),
      InsertWalk key data (fuel + 1) t current_PID (Page.ModifyDelta key_ locations_ next) =
          InsertOutcome.returned result t' ∧
        ∀ p : PID, p ≠ current_PID → t'.map_table_ p = t.map_table_ p := by
  have hcas : ∀ (expected desired : Page K V) (p : PID), p ≠ current_PID →
      (compare_exchange_strong t current_PID expected desired).2.map_table_ p =
        t.map_table_ p := by
    intro expected desired p hp
    rcases compare_exchange_strong_tree t current_PID expected desired with h | ⟨h, -⟩
    · rw [h]
    · rw [h]
      simp [BWTree.store, hp]
  rw [InsertWalk]
  simp only [hkey, if_true]
  split_ifs <;> first
    | exact ⟨_, _, rfl, hcas _ _⟩
    | exact ⟨_, _, rfl, fun _ _ => rfl⟩

/-- C23: at an IndexTermDelta with separators `(low, high)`, child PID `c` and
the two absolute flags, one iteration of the walk of `Insert` leaves it at the
chain head of `c` when `(abs_min or key > low) and (abs_max or key <= high)`
under the tree's comparator, and at the delta's next record under the same PID
when not, and `Insert` goes on from there.  So when the condition holds and the
head of `c` is a ModifyDelta that takes the value, `Insert` returns true with the
value installed at `c`; when it does not hold and the next record is a
ModifyDelta for the key, `Insert` returns with the chain of `c` as it was. -/
theorem InsertWalk_IndexTermDelta {K V : Type} [DecidableEq K] [DecidableEq V] (key : K)
    (data : V) (fuel : Nat) (t : BWTree K V) (current_PID c : PID) (low high : K)
    (abs_min abs_max : Bool) (next head : Page K V) (hhead : t.map_table_ c = some head) :
    (((abs_min = true ∨ t.comparator_ key low > 0) ∧
        (abs_max = true ∨ t.comparator_ key high ≤ 0)) →
      InsertStep key data t current_PID
          (Page.IndexTermDelta low high c abs_min abs_max next) = WalkStep.goOn c head ∧
        InsertWalk key data (fuel + 1) t current_PID
            (Page.IndexTermDelta low high c abs_min abs_max next) =
          InsertWalk key data fuel t c head ∧
        ∀ (key_ : K) (locations_ : List V) (chain : Page K V),
          head = Page.ModifyDelta key_ locations_ chain → t.equals_ key key_ = true →
          (locations_ = [] ∨ t.allow_duplicate_ = true) →
          ∃ t' : BWTree K V,
            InsertWalk key data (fuel + 2) t current_PID
                (Page.IndexTermDelta low high c abs_min abs_max next) =
              InsertOutcome.returned true t' ∧
            t'.map_table_ c = some (Page.ModifyDelta key (locations_ ++ [data]) head)) ∧
    (¬ ((abs_min = true ∨ t.comparator_ key low > 0) ∧
        (abs_max = true ∨ t.comparator_ key high ≤ 0)) →
      InsertStep key data t current_PID
          (Page.IndexTermDelta low high c abs_min abs_max next) =
        WalkStep.goOn current_PID next ∧
        InsertWalk key data (fuel + 1) t current_PID
            (Page.IndexTermDelta low high c abs_min abs_max next) =
          InsertWalk key data fuel t current_PID next ∧
        ∀ (key_ : K) (locations_ : List V) (chain : Page K V),
          next = Page.ModifyDelta key_ locations_ chain → t.equals_ key key_ = true →
          c ≠ current_PID →
          ∃ (result : Bool) (t' : BWTree K V),
            InsertWalk key data (fuel + 2) t current_PID
                (Page.IndexTermDelta low high c abs_min abs_max next) =
              InsertOutcome.returned result t' ∧
            t'.map_table_ c = some head) := by
  have hwalk : ∀ f : Nat, ((abs_min = true ∨ t.comparator_ key low > 0) ∧
        (abs_max = true ∨ t.comparator_ key high ≤ 0)) →
      InsertWalk key data (f + 1) t current_PID
          (Page.IndexTermDelta low high c abs_min abs_max next) =
        InsertWalk key data f t c head := by
    intro f h
    rw [InsertWalk]
    simp only [Bool.and_eq_true, Bool.or_eq_true, decide_eq_true_eq, h, and_self, if_true,
      hhead]
  have hstay : ∀ f : Nat, ¬ ((abs_min = true ∨ t.comparator_ key low > 0) ∧
        (abs_max = true ∨ t.comparator_ key high ≤ 0)) →
      InsertWalk key data (f + 1) t current_PID
          (Page.IndexTermDelta low high c abs_min abs_max next) =
        InsertWalk key data f t current_PID next := by
    intro f h
    rw [InsertWalk]
    simp only [Bool.and_eq_true, Bool.or_eq_true, decide_eq_true_eq, h, if_false]
  constructor
  · intro h
    refine ⟨?_, hwalk fuel h, ?_⟩
    · rw [InsertStep]
      simp only [Bool.and_eq_true, Bool.or_eq_true, decide_eq_true_eq, h, and_self, if_true,
        hhead]
    · intro key_ locations_ chain hpage hkey hpolicy
      subst hpage
      refine ⟨t.store c (Page.ModifyDelta key (locations_ ++ [data])
        (Page.ModifyDelta key_ locations_ chain)), ?_, ?_⟩
      · rw [hwalk (fuel + 1) h]
        exact InsertWalk_ModifyDelta_head key data fuel t c key_ locations_ chain hhead hkey
          hpolicy
      · simp [BWTree.store]
  · intro h
    refine ⟨?_, hstay fuel h, ?_⟩
    · rw [InsertStep]
      simp only [Bool.and_eq_true, Bool.or_eq_true, decide_eq_true_eq, h, if_false]
    · intro key_ locations_ chain hpage hkey hne
      subst hpage
      obtain ⟨result, t', hret, hother⟩ :=
        InsertWalk_ModifyDelta_returns key data fuel t current_PID key_ locations_ chain hkey
      refine ⟨result, t', ?_, ?_⟩
      · rw [hstay (fuel + 1) h]
        exact hret
      · rw [hother c hne]
        exact hhead

/-- C23 (witness): in `routedTree` key 15 lies in `(10, 20]`, is routed to PID 1
and installed there; key 5 does not, stays on the root chain, and the chain of
PID 1 is as it was. -/
theorem InsertWalk_IndexTermDelta_witness :
    (∃ t' : BWTree Int Nat,
      InsertWalk 15 7 2 routedTree 0
          (Page.IndexTermDelta 10 20 1 false false
            (Page.ModifyDelta 5 [10] (Page.InnerNode []))) =
        InsertOutcome.returned true t' ∧
      t'.map_table_ 1 =
        some (Page.ModifyDelta 15 ([30] ++ [7]) (Page.ModifyDelta 15 [30] leafFive))) ∧
    (∃ (result : Bool) (t' : BWTree Int Nat),
      InsertWalk 5 7 2 routedTree 0
          (Page.IndexTermDelta 10 20 1 false false
            (Page.ModifyDelta 5 [10] (Page.InnerNode []))) =
        InsertOutcome.returned result t' ∧
      t'.map_table_ 1 = some (Page.ModifyDelta 15 [30] leafFive)) :=
  ⟨((InsertWalk_IndexTermDelta 15 7 0 routedTree 0 1 10 20 false false
      (Page.ModifyDelta 5 [10] (Page.InnerNode [])) (Page.ModifyDelta 15 [30] leafFive)
      rfl).1 (by decide)).2.2 15 [30] leafFive rfl (by decide) (Or.inr rfl),
   ((InsertWalk_IndexTermDelta 5 7 0 routedTree 0 1 10 20 false false
      (Page.ModifyDelta 5 [10] (Page.InnerNode [])) (Page.ModifyDelta 15 [30] leafFive)
      rfl).2 (by decide)).2.2 5 [10] (Page.InnerNode []) rfl (by decide) (by decide)⟩

/-- C21: when the walk of `Insert(k, v)` stands at the head of the chain of a
PID, the head is a ModifyDelta whose key equals `k`, and its value list is empty
or duplicates are allowed, then `Insert` returns true, the head of that slot in
the mapping table is afterwards the ModifyDelta for `k` holding the old list
with `v` appended, whose next record is the old head, and the other slots are as
they were; this is what a call of `Insert` does whose walk comes to that head
after any number of iterations from the root. -/
theorem Insert_at_ModifyDelta_head {K V : Type} [DecidableEq K] [DecidableEq V] (key : K)
    (data : V) (fuel : Nat) (t : BWTree K V) (current_PID : PID) (key_ : K)
    (locations_ : List V) (next : Page K V)
    (hhead : t.map_table_ current_PID = some (Page.ModifyDelta key_ locations_ next))
    (hkey : t.equals_ key key_ = true)
    (hpolicy : locations_ = [] ∨ t.allow_duplicate_ = true) :
    ∃ t' : BWTree K V,
      InsertWalk key data (fuel + 1) t current_PID (Page.ModifyDelta key_ locations_ next) =
        InsertOutcome.returned true t' ∧
      t'.map_table_ current_PID =
        some (Page.ModifyDelta key (locations_ ++ [data])
          (Page.ModifyDelta key_ locations_ next)) ∧
      (∀ p : PID, p ≠ current_PID → t'.map_table_ p = t.map_table_ p) ∧
      ∀ (steps : Nat) (root_page : Page K V), t.map_table_ t.root_ = some root_page →
        isEmptyInnerNode root_page = false →
        InsertPosition key data t steps t.root_ root_page =
          some (current_PID, Page.ModifyDelta key_ locations_ next) →
        Insert key data (fuel + steps + 2) t = InsertOutcome.returned true t' := by
  have hwalk := InsertWalk_ModifyDelta_head key data fuel t current_PID key_ locations_ next
    hhead hkey hpolicy
  refine ⟨t.store current_PID (Page.ModifyDelta key (locations_ ++ [data])
    (Page.ModifyDelta key_ locations_ next)), hwalk, by simp [BWTree.store], ?_, ?_⟩
  · intro p hp
    simp [BWTree.store, hp]
  · intro steps root_page hroot hnonempty hreach
    rw [Insert]
    simp only [hroot, hnonempty, Bool.false_eq_true, if_false]
    rw [show fuel + steps + 1 = fuel + 1 + steps by omega,
      InsertPosition_walk key data t steps t.root_ root_page current_PID _ hreach (fuel + 1)]
    exact hwalk

/-- C21 (witness): `Insert(5, 20)` on `modifiedTree`, whose root routes key 5 to
PID 1 with the chain `ModifyDelta(5, [10]) → leaf`, comes to that head after one
iteration and installs `ModifyDelta(5, [10, 20])` in front of it. -/
theorem Insert_at_ModifyDelta_head_witness :
    ∃ t' : BWTree Int Nat,
      Insert 5 20 3 modifiedTree = InsertOutcome.returned true t' ∧
        t'.map_table_ 1 =
          some (Page.ModifyDelta 5 ([10] ++ [20]) (Page.ModifyDelta 5 [10] leafFive)) ∧
        t'.map_table_ 0 = modifiedTree.map_table_ 0 :=
  match Insert_at_ModifyDelta_head 5 20 0 modifiedTree 1 5 [10] leafFive rfl (by decide)
      (Or.inr rfl) with
  | ⟨t', _, hslot, hothers, hinsert⟩ =>
    ⟨t', hinsert 1 _ rfl rfl rfl, hslot, hothers 0 (by decide)⟩

/-- C22: on a tree whose PID counter names an unused slot, an `Insert` that
returns has changed the head of at most one PID that was mapped before, and a
changed head is a record whose next record is the head from before; every
other chain that existed is as it was. -/
theorem Insert_prepends {K V : Type} [DecidableEq K] [DecidableEq V] (key : K) (data : V)
    (fuel : Nat) (t : BWTree K V) (result : Bool) (t' : BWTree K V)
    (hfree : t.map_table_ t.PID_counter_ = none)
    (hreturn : Insert key data fuel t = InsertOutcome.returned result t') :
    (∀ p q : PID, t.map_table_ p ≠ none → t.map_table_ q ≠ none →
        t'.map_table_ p ≠ t.map_table_ p → t'.map_table_ q ≠ t.map_table_ q → p = q) ∧
      (∀ (p : PID) (old : Page K V), t.map_table_ p = some old →
        t'.map_table_ p = some old ∨
          ∃ new : Page K V, t'.map_table_ p = some new ∧ new.GetDeltaNext = some old) := by
  have hstore : ∀ (pid : PID) (old new : Page K V), t.map_table_ pid = some old →
      new.GetDeltaNext = some old →
      (∀ p q : PID, t.map_table_ p ≠ none → t.map_table_ q ≠ none →
          (t.store pid new).map_table_ p ≠ t.map_table_ p →
          (t.store pid new).map_table_ q ≠ t.map_table_ q → p = q) ∧
        (∀ (p : PID) (old' : Page K V), t.map_table_ p = some old' →
          (t.store pid new).map_table_ p = some old' ∨
            ∃ new' : Page K V,
              (t.store pid new).map_table_ p = some new' ∧
                new'.GetDeltaNext = some old') := by
    intro pid old new hold hnext
    constructor
    · intro p q _ _ hp hq
      simp only [BWTree.store] at hp hq
      split_ifs at hp hq with h1 h2
      · rw [h1, h2]
      · exact absurd rfl hq
      · exact absurd rfl hp
      · exact absurd rfl hp
    · intro p old' hp
      simp only [BWTree.store]
      split_ifs with h1
      · subst h1
        rw [hold] at hp
        injection hp with hp
        subst hp
        exact Or.inr ⟨new, rfl, hnext⟩
      · exact Or.inl hp
  cases fuel with
  | zero => simp [Insert] at hreturn
  | succ n =>
    rw [Insert] at hreturn
    cases hroot : t.map_table_ t.root_ with
    | none => simp [hroot] at hreturn
    | some root_page =>
      have hne : t.root_ ≠ t.PID_counter_ := by
        intro h
        rw [h, hfree] at hroot
        cases hroot
      simp only [hroot] at hreturn
      split_ifs at hreturn with hempty hcas
      · simp only [compare_exchange_strong, InstallNewMapping, BWTree.store, hne, if_false,
          hroot, if_true] at hreturn
        injection hreturn with _ ht
        subst ht
        constructor
        · intro p q hp hq hpc hqc
          simp only at hpc hqc
          split_ifs at hpc hqc with h1 h2 h3 h4 h5 h6
          · rw [h1, h2]
          · exact absurd hfree (h3 ▸ hq)
          · exact absurd rfl hqc
          · exact absurd hfree (h4 ▸ hp)
          · exact absurd hfree (h4 ▸ hp)
          · exact absurd hfree (h4 ▸ hp)
          · exact absurd rfl hpc
          · exact absurd rfl hpc
          · exact absurd rfl hpc
        · intro p old hp
          simp only
          split_ifs with h1 h2
          · subst h1
            rw [hroot] at hp
            injection hp with hp
            subst hp
            exact Or.inr ⟨_, rfl, rfl⟩
          · rw [h2, hfree] at hp
            cases hp
          · exact Or.inl hp
      · simp [compare_exchange_strong, InstallNewMapping, BWTree.store, hne, hroot] at hcas
      · rcases InsertWalk_prepends key data t result t' n t.root_ root_page hreturn with
          h | ⟨pid, old, new, hold, hnext, h⟩
        · subst h
          exact ⟨fun p q _ _ hp => absurd rfl hp, fun p old hp => Or.inl hp⟩
        · subst h
          exact hstore pid old new hold hnext

/-- C22 (witness): `Insert(5, 20)` on `modifiedTree`, whose PID counter 2 names an
unused slot, leaves every chain as it was or one record longer. -/
theorem Insert_prepends_witness :
    ∃ t' : BWTree Int Nat,
      Insert 5 20 3 modifiedTree = InsertOutcome.returned true t' ∧
        ∀ (p : PID) (old : Page Int Nat), modifiedTree.map_table_ p = some old →
          t'.map_table_ p = some old ∨
            ∃ new : Page Int Nat, t'.map_table_ p = some new ∧ new.GetDeltaNext = some old :=
  ⟨modifiedTree.store 1 (Page.ModifyDelta 5 [10, 20] (Page.ModifyDelta 5 [10] leafFive)), rfl,
    (Insert_prepends 5 20 3 modifiedTree true
      (modifiedTree.store 1 (Page.ModifyDelta 5 [10, 20] (Page.ModifyDelta 5 [10] leafFive)))
      (by rfl) (by rfl)).2⟩

end index

namespace executor

/-- C6 (code at the failing input): for left keys `[1, 1, 2, 3]` and right keys
`[1, 2, 2, 4]` the inner join emits `(0,0), (1,0), (2,0), (3,0)` over all its
calls, not `(0,0), (1,0), (2,1), (2,2)`. -/
theorem merge_join_scenario_rows (n m : Nat) :
    emittedRows intOps innerJoinOutput (n + 4) (m + 2)
        (freshJoin [keyClause] none [[1, 1, 2, 3]] [[1, 2, 2, 4]]) =
      Outcome.ok [(0, 0), (1, 0), (2, 0), (3, 0)] :=
  rfl

/-- C7 (code at the failing input): on the keys `[1, 1, 2]`, `Advance` from row
0 returns 3 although rows 1 and 2 differ on the join key. -/
theorem Advance_passes_key_change :
    Advance intOps [keyClause] [1, 1, 2] 0 true = 3 ∧
      rowsDiffer intOps [keyClause] true 1 2 = true := by
  decide

/-- C8 (code at the failing input): for left keys `[1]` and right keys `[2]` the
first `DExecute` of an inner join returns true with no output tile set, both
children being exhausted. -/
theorem DExecute_true_without_output (n : Nat) :
    ∃ ex : MergeJoinExecutor Int Int,
      DExecute intOps innerJoinOutput (n + 4) (freshJoin [keyClause] none [[1]] [[2]]) =
        Outcome.ok (true, ex) ∧
      ex.output_.isNone = true ∧ ex.left_child_done_ = true ∧ ex.right_child_done_ = true :=
  ⟨_, rfl, rfl, rfl, rfl⟩

/-- C9 (code at the failing input): when the right child yields no tile and the
left child yields at least one (the tile `[1]` of the failing input is one
such), the first `DExecute` takes `back()` of the empty vector of right tiles,
whatever the clauses, the predicate and `BuildOuterJoinOutput` are. -/
theorem DExecute_empty_right_child {T V : Type} (vo : ValueOps V)
    (BuildOuterJoinOutput : MergeJoinExecutor T V → Bool × MergeJoinExecutor T V)
    (join_clauses : List (JoinClause T V)) (predicate : Option (T → T → V))
    (left_tile : LogicalTile T) (left_rest : List (LogicalTile T)) (n : Nat) :
    DExecute vo BuildOuterJoinOutput (n + 2)
        (freshJoin join_clauses predicate (left_tile :: left_rest) []) =
      Outcome.undefinedBehaviour := by
  simp [DExecute, pickRightTile, pickLeftTile, freshJoin]

/-- C10 (code at the failing input): with runs `[0, 1)` on both sides of `[1, 2]`
against `[1, 2]` and a predicate that is false, one iteration of the matching
loop emits the pair `(1, 1)` of the following runs and leaves both sides two
runs further, at `[2, 2)`. -/
theorem matchIteration_rejected_pair :
    ∃ ex : MergeJoinExecutor Int Int,
      matchIteration intOps [1, 2] [1, 2] rejectingJoin [] = Outcome.ok (ex, [(1, 1)]) ∧
      (ex.left_start_row, ex.left_end_row) = (2, 2) ∧
      (ex.right_start_row, ex.right_end_row) = (2, 2) :=
  ⟨_, rfl, rfl, rfl⟩

/-- The clause loop stops at the first clause whose values differ: when every
clause before it compares equal, its comparison is the result. -/
theorem compareClauses_first_difference {T V : Type} (vo : ValueOps V)
    (before after : List (JoinClause T V)) (clause : JoinClause T V)
    (left_tuple right_tuple : T)
    (hbefore : ∀ c ∈ before,
      vo.Compare (c.left_ left_tuple right_tuple) (c.right_ left_tuple right_tuple) = 0)
    (hclause : vo.Compare (clause.left_ left_tuple right_tuple)
      (clause.right_ left_tuple right_tuple) ≠ 0) :
    compareClauses vo (before ++ clause :: after) left_tuple right_tuple =
      vo.Compare (clause.left_ left_tuple right_tuple)
        (clause.right_ left_tuple right_tuple) := by
  induction before with
  | nil =>
    simp only [List.nil_append, compareClauses]
    split_ifs <;> first | rfl | omega
  | cons c rest ih =>
    have h0 := hbefore c (List.mem_cons_self _ _)
    have ih1 := ih (fun q hq => hbefore q (List.mem_cons_of_mem _ hq))
    simp only [List.cons_append, compareClauses, h0]
    simpa using ih1

/-- In one iteration of the matching loop the clauses are compared in list order
and the first clause whose two values differ decides.  If its left value is
smaller, the left run becomes the rows from `left_end_row` to what `Advance`
returns there and nothing else changes; if it is greater, the same holds of the
right run.  In both cases the rows of the output are the same as before and no
matched row is recorded. -/
theorem matchIteration_first_difference {T V : Type} (vo : ValueOps V)
    (left_tile right_tile : LogicalTile T) (ex : MergeJoinExecutor T V)
    (pos_lists : List (Nat × Nat)) (left_tuple right_tuple : T)
    (before after : List (JoinClause T V)) (clause : JoinClause T V)
    (hleft : left_tile[ex.left_start_row]? = some left_tuple)
    (hright : right_tile[ex.right_start_row]? = some right_tuple)
    (hclauses : ex.join_clauses_ = before ++ clause :: after)
    (hbefore : ∀ c ∈ before,
      vo.Compare (c.left_ left_tuple right_tuple) (c.right_ left_tuple right_tuple) = 0) :
    (vo.Compare (clause.left_ left_tuple right_tuple)
        (clause.right_ left_tuple right_tuple) < 0 →
      matchIteration vo left_tile right_tile ex pos_lists =
        Outcome.ok
          ({ ex with
              left_start_row := ex.left_end_row
              left_end_row := Advance vo ex.join_clauses_ left_tile ex.left_end_row true },
            pos_lists)) ∧
    (vo.Compare (clause.left_ left_tuple right_tuple)
        (clause.right_ left_tuple right_tuple) > 0 →
      matchIteration vo left_tile right_tile ex pos_lists =
        Outcome.ok
          ({ ex with
              right_start_row := ex.right_end_row
              right_end_row := Advance vo ex.join_clauses_ right_tile ex.right_end_row false },
            pos_lists)) := by
  constructor
  · intro h
    have hcmp := compareClauses_first_difference vo before after clause left_tuple right_tuple
      hbefore (by omega)
    simp only [matchIteration, hleft, hright, hclauses, hcmp, h, if_true]
    simp [advanceLeft, hclauses]
  · intro h
    have hcmp := compareClauses_first_difference vo before after clause left_tuple right_tuple
      hbefore (by omega)
    have hn : ¬ vo.Compare (clause.left_ left_tuple right_tuple)
        (clause.right_ left_tuple right_tuple) < 0 := by omega
    simp only [matchIteration, hleft, hright, hclauses, hcmp, h, hn, if_true, if_false]
    simp [advanceRight, hclauses]

/-- The left key 1 against the right key 2 advances the left side only. -/
theorem matchIteration_first_difference_witness :
    ∃ ex : MergeJoinExecutor Int Int,
      matchIteration intOps [1] [2] skewedJoin [] = Outcome.ok (ex, []) ∧
        (ex.left_start_row, ex.left_end_row) = (1, 1) ∧
        (ex.right_start_row, ex.right_end_row) = (0, 1) :=
  ⟨_, (matchIteration_first_difference intOps [1] [2] skewedJoin [] 1 2 [] [] keyClause
    rfl rfl rfl (by simp)).1 (by decide), rfl, rfl⟩

/-- C20 (code at the failing input): with the left keys `[1, 2, 2, 3]` against
the right key `[5]`, both tiles buffered and both runs at `[0, 1)`, the iteration
finds the left key smaller and leaves the right run and the output as they are,
but the left run it installs is `[1, 4)`, the rows with the keys 2, 2 and 3, and
not the next run `[1, 3)` of the key 2. -/
theorem matchIteration_overlong_run :
    ((loadedJoin intOps [keyClause] none [1, 2, 2, 3] [5]).left_start_row,
        (loadedJoin intOps [keyClause] none [1, 2, 2, 3] [5]).left_end_row,
        (loadedJoin intOps [keyClause] none [1, 2, 2, 3] [5]).right_start_row,
        (loadedJoin intOps [keyClause] none [1, 2, 2, 3] [5]).right_end_row) =
      (0, 1, 0, 1) ∧
    ∃ ex : MergeJoinExecutor Int Int,
      matchIteration intOps [1, 2, 2, 3] [5]
          (loadedJoin intOps [keyClause] none [1, 2, 2, 3] [5]) [] = Outcome.ok (ex, []) ∧
        (ex.left_start_row, ex.left_end_row) = (1, 4) ∧
        (ex.right_start_row, ex.right_end_row) = (0, 1) ∧
        ex.matched_left_rows_ = [] ∧ ex.matched_right_rows_ = [] ∧
        ([(1 : Int), 2, 2, 3][1]?, [(1 : Int), 2, 2, 3][2]?, [(1 : Int), 2, 2, 3][3]?) =
          (some 2, some 2, some 3) :=
  ⟨rfl, _, rfl, rfl, rfl, rfl, rfl, rfl⟩

/-- The loop of `Advance` never moves `end_row` back, and not beyond the tuple
count when it starts within it. -/
theorem AdvanceScan_bounds {T V : Type} (vo : ValueOps V) (join_clauses_ : List (JoinClause T V))
    (tile : LogicalTile T) (is_left : Bool) (remaining : Nat) :
    ∀ this_row end_row : Nat,
      end_row ≤ AdvanceScan vo join_clauses_ tile is_left remaining this_row end_row ∧
        (end_row ≤ tile.length →
          AdvanceScan vo join_clauses_ tile is_left remaining this_row end_row ≤
            tile.length) := by
  induction remaining with
  | zero => intro this_row end_row; simp [AdvanceScan]
  | succ r ih =>
    intro this_row end_row
    unfold AdvanceScan
    split_ifs with h
    · split
      · split_ifs
        · exact ⟨le_rfl, fun h => h⟩
        · have := ih (end_row + 1) (end_row + 1)
          exact ⟨by omega, fun _ => this.2 (by omega)⟩
      · exact ⟨le_rfl, fun h => h⟩
    · exact ⟨le_rfl, fun h => h⟩

/-- `Advance` returns `start_row` for a start outside the tile and otherwise an
end beyond `start_row` and within the tuple count. -/
theorem Advance_bounds {T V : Type} (vo : ValueOps V) (join_clauses_ : List (JoinClause T V))
    (tile : LogicalTile T) (start_row : Nat) (is_left : Bool) :
    (start_row ≥ tile.length → Advance vo join_clauses_ tile start_row is_left = start_row) ∧
      (start_row < tile.length →
        start_row < Advance vo join_clauses_ tile start_row is_left ∧
          Advance vo join_clauses_ tile start_row is_left ≤ tile.length) := by
  constructor
  · intro h
    simp [Advance, h]
  · intro h
    unfold Advance
    rw [if_neg (by omega)]
    have := AdvanceScan_bounds vo join_clauses_ tile is_left tile.length start_row
      (start_row + 1)
    exact ⟨by omega, this.2 (by omega)⟩

/-- The run `Advance` delimits lies inside the tile. -/
theorem RunInside_Advance {T V : Type} (vo : ValueOps V) (join_clauses_ : List (JoinClause T V))
    (tile : LogicalTile T) (start_row : Nat) (is_left : Bool) :
    RunInside tile start_row (Advance vo join_clauses_ tile start_row is_left) := by
  have h := Advance_bounds vo join_clauses_ tile start_row is_left
  rcases Nat.lt_or_ge start_row tile.length with hlt | hge
  · exact ⟨by have := h.2 hlt; omega, fun _ => (h.2 hlt).2⟩
  · rw [h.1 hge]
    exact ⟨le_rfl, fun hh => absurd hh (by omega)⟩

/-- The rows of a Cartesian product are the pairs of the two ranges. -/
theorem mem_cartesianRows (left_start left_end right_start right_end : Nat) (p : Nat × Nat) :
    p ∈ cartesianRows left_start left_end right_start right_end ↔
      (left_start ≤ p.1 ∧ p.1 < left_end) ∧ (right_start ≤ p.2 ∧ p.2 < right_end) := by
  obtain ⟨l, r⟩ := p
  simp only [cartesianRows, List.mem_flatMap, List.mem_map, List.mem_range'_1, Prod.mk.injEq]
  constructor
  · rintro ⟨a, ha, b, hb, h1, h2⟩
    subst h1 h2
    omega
  · rintro ⟨⟨h1, h2⟩, h3, h4⟩
    exact ⟨l, by omega, r, by omega, rfl, rfl⟩

/-- One iteration of the matching loop whose two rows can be read: it advances
the left run, or the right run, or emits the product of the two runs and advances
both, or (predicate false) advances both, emits the product of the runs that
follow and advances both again. -/
theorem matchIteration_cases {T V : Type} (vo : ValueOps V) (left_tile right_tile : LogicalTile T)
    (ex : MergeJoinExecutor T V) (pos_lists : List (Nat × Nat)) (left_tuple right_tuple : T)
    (hleft : left_tile[ex.left_start_row]? = some left_tuple)
    (hright : right_tile[ex.right_start_row]? = some right_tuple) :
    ∃ (ex1 : MergeJoinExecutor T V) (pos1 : List (Nat × Nat)),
      matchIteration vo left_tile right_tile ex pos_lists = Outcome.ok (ex1, pos1) ∧
      SameStreams ex ex1 ∧
      ((compareClauses vo ex.join_clauses_ left_tuple right_tuple < 0 ∧
          ex1.left_start_row = ex.left_end_row ∧
          ex1.left_end_row = Advance vo ex.join_clauses_ left_tile ex.left_end_row true ∧
          ex1.right_start_row = ex.right_start_row ∧ ex1.right_end_row = ex.right_end_row ∧
          pos1 = pos_lists) ∨
        (¬ compareClauses vo ex.join_clauses_ left_tuple right_tuple < 0 ∧
          compareClauses vo ex.join_clauses_ left_tuple right_tuple > 0 ∧
          ex1.left_start_row = ex.left_start_row ∧ ex1.left_end_row = ex.left_end_row ∧
          ex1.right_start_row = ex.right_end_row ∧
          ex1.right_end_row = Advance vo ex.join_clauses_ right_tile ex.right_end_row false ∧
          pos1 = pos_lists) ∨
        (compareClauses vo ex.join_clauses_ left_tuple right_tuple = 0 ∧
          (∀ predicate, ex.predicate_ = some predicate →
            vo.IsFalse (predicate left_tuple right_tuple) = false) ∧
          ex1.left_start_row = ex.left_end_row ∧
          ex1.left_end_row = Advance vo ex.join_clauses_ left_tile ex.left_end_row true ∧
          ex1.right_start_row = ex.right_end_row ∧
          ex1.right_end_row = Advance vo ex.join_clauses_ right_tile ex.right_end_row false ∧
          pos1 = pos_lists ++ cartesianRows ex.left_start_row ex.left_end_row
            ex.right_start_row ex.right_end_row) ∨
        (compareClauses vo ex.join_clauses_ left_tuple right_tuple = 0 ∧
          (∃ predicate, ex.predicate_ = some predicate ∧
            vo.IsFalse (predicate left_tuple right_tuple) = true) ∧
          ex1.left_start_row = Advance vo ex.join_clauses_ left_tile ex.left_end_row true ∧
          ex1.left_end_row = Advance vo ex.join_clauses_ left_tile
            (Advance vo ex.join_clauses_ left_tile ex.left_end_row true) true ∧
          ex1.right_start_row =
            Advance vo ex.join_clauses_ right_tile ex.right_end_row false ∧
          ex1.right_end_row = Advance vo ex.join_clauses_ right_tile
            (Advance vo ex.join_clauses_ right_tile ex.right_end_row false) false ∧
          pos1 = pos_lists ++ cartesianRows ex.left_end_row
            (Advance vo ex.join_clauses_ left_tile ex.left_end_row true) ex.right_end_row
            (Advance vo ex.join_clauses_ right_tile ex.right_end_row false))) := by
  by_cases hlt : compareClauses vo ex.join_clauses_ left_tuple right_tuple < 0
  · simp only [matchIteration, hleft, hright, hlt, if_true]
    exact ⟨_, _, rfl, by simp [SameStreams, advanceLeft],
      Or.inl ⟨trivial, rfl, rfl, rfl, rfl, rfl⟩⟩
  · by_cases hgt : compareClauses vo ex.join_clauses_ left_tuple right_tuple > 0
    · simp only [matchIteration, hleft, hright, hlt, hgt, if_true, if_false]
      exact ⟨_, _, rfl, by simp [SameStreams, advanceRight],
        Or.inr (Or.inl ⟨fun h => h, trivial, rfl, rfl, rfl, rfl, rfl⟩)⟩
    · have heq : compareClauses vo ex.join_clauses_ left_tuple right_tuple = 0 := by omega
      cases hpred : ex.predicate_ with
      | none =>
        simp only [matchIteration, hleft, hright, hlt, hgt, if_false, hpred]
        exact ⟨_, _, rfl, by simp [SameStreams, advanceRight, advanceLeft, hpred],
          Or.inr (Or.inr (Or.inl ⟨heq, by simp, rfl, rfl, rfl, rfl, rfl⟩))⟩
      | some predicate =>
        cases hfalse : vo.IsFalse (predicate left_tuple right_tuple) with
        | false =>
          simp only [matchIteration, hleft, hright, hlt, hgt, if_false, hpred, hfalse,
            Bool.false_eq_true]
          refine ⟨_, _, rfl, by simp [SameStreams, advanceRight, advanceLeft, hpred],
            Or.inr (Or.inr (Or.inl ⟨heq, ?_, rfl, rfl, rfl, rfl, rfl⟩))⟩
          intro q hq
          injection hq with hq
          subst hq
          exact hfalse
        | true =>
          simp only [matchIteration, hleft, hright, hlt, hgt, if_false, hpred, hfalse,
            if_true]
          exact ⟨_, _, rfl, by simp [SameStreams, advanceRight, advanceLeft, hpred],
            Or.inr (Or.inr (Or.inr ⟨heq, ⟨predicate, rfl, hfalse⟩, rfl, rfl, rfl, rfl,
              rfl⟩))⟩

/-- While the runs lie inside their tiles, the matching loop reads no row outside
a tile and adds no row index outside a tile to the position lists. -/
theorem matchLoop_rows_inside {T V : Type} (vo : ValueOps V)
    (left_tile right_tile : LogicalTile T) :
    ∀ (fuel : Nat) (ex : MergeJoinExecutor T V) (pos_lists : List (Nat × Nat)),
      RunInside left_tile ex.left_start_row ex.left_end_row →
      RunInside right_tile ex.right_start_row ex.right_end_row →
      (∀ p ∈ pos_lists, p.1 < left_tile.length ∧ p.2 < right_tile.length) →
      matchLoop vo left_tile right_tile fuel ex pos_lists ≠ Outcome.undefinedBehaviour ∧
        ∀ ex1 pos1, matchLoop vo left_tile right_tile fuel ex pos_lists =
            Outcome.ok (ex1, pos1) →
          ∀ p ∈ pos1, p.1 < left_tile.length ∧ p.2 < right_tile.length := by
  intro fuel
  induction fuel with
  | zero =>
    intro ex pos _ _ _
    simp [matchLoop]
  | succ n ih =>
    intro ex pos hl hr hpos
    unfold matchLoop
    split_ifs with hguard
    · have hll : ex.left_start_row < left_tile.length := by
        have := hl.2 hguard.1
        omega
      have hrl : ex.right_start_row < right_tile.length := by
        have := hr.2 hguard.2
        omega
      obtain ⟨ex1, pos1, hiter, _, hcases⟩ := matchIteration_cases vo left_tile right_tile ex
        pos _ _ (List.getElem?_eq_getElem hll) (List.getElem?_eq_getElem hrl)
      rw [hiter]
      simp only
      apply ih
      · rcases hcases with ⟨_, h1, h2, _⟩ | ⟨_, _, h1, h2, _⟩ | ⟨_, _, h1, h2, _⟩ |
          ⟨_, _, h1, h2, _⟩
        · rw [h1, h2]; exact RunInside_Advance _ _ _ _ _
        · rw [h1, h2]; exact hl
        · rw [h1, h2]; exact RunInside_Advance _ _ _ _ _
        · rw [h1, h2]; exact RunInside_Advance _ _ _ _ _
      · rcases hcases with ⟨_, _, _, h1, h2, _⟩ | ⟨_, _, _, _, h1, h2, _⟩ |
          ⟨_, _, _, _, h1, h2, _⟩ | ⟨_, _, _, _, h1, h2, _⟩
        · rw [h1, h2]; exact hr
        · rw [h1, h2]; exact RunInside_Advance _ _ _ _ _
        · rw [h1, h2]; exact RunInside_Advance _ _ _ _ _
        · rw [h1, h2]; exact RunInside_Advance _ _ _ _ _
      · intro p hp
        rcases hcases with ⟨_, _, _, _, _, h⟩ | ⟨_, _, _, _, _, _, h⟩ |
          ⟨_, _, _, _, _, _, h⟩ | ⟨_, _, _, _, _, _, h⟩
        · rw [h] at hp; exact hpos p hp
        · rw [h] at hp; exact hpos p hp
        · rw [h, List.mem_append] at hp
          rcases hp with hp | hp
          · exact hpos p hp
          · rw [mem_cartesianRows] at hp
            have := hl.2 hguard.1
            have := hr.2 hguard.2
            omega
        · rw [h, List.mem_append] at hp
          rcases hp with hp | hp
          · exact hpos p hp
          · rw [mem_cartesianRows] at hp
            have h1 := (RunInside_Advance vo ex.join_clauses_ left_tile ex.left_end_row
              true).2 (by omega)
            have h2 := (RunInside_Advance vo ex.join_clauses_ right_tile ex.right_end_row
              false).2 (by omega)
            omega
    · refine ⟨by simp, ?_⟩
      intro ex1 pos1 h
      injection h with h
      injection h with _ h2
      subst h2
      exact hpos

/-- C27: `Advance` returns `start_row` itself when `start_row` is not below the
tuple count, and otherwise an end beyond `start_row` and not beyond the tuple
count; hence, when the ends of the two runs were computed by `Advance`, the
matching loop reads no row outside its tile and every row index it adds to the
position lists is below the tuple count of its tile. -/
theorem Advance_keeps_rows_in_range {T V : Type} (vo : ValueOps V)
    (join_clauses_ : List (JoinClause T V)) (tile : LogicalTile T) (start_row : Nat)
    (is_left : Bool) (left_tile right_tile : LogicalTile T) (fuel : Nat)
    (ex : MergeJoinExecutor T V) :
    (start_row ≥ tile.length → Advance vo join_clauses_ tile start_row is_left = start_row) ∧
      (start_row < tile.length →
        start_row < Advance vo join_clauses_ tile start_row is_left ∧
          Advance vo join_clauses_ tile start_row is_left ≤ tile.length) ∧
      (ex.left_end_row = Advance vo ex.join_clauses_ left_tile ex.left_start_row true →
        ex.right_end_row = Advance vo ex.join_clauses_ right_tile ex.right_start_row false →
        matchLoop vo left_tile right_tile fuel ex [] ≠ Outcome.undefinedBehaviour ∧
          ∀ ex1 pos1, matchLoop vo left_tile right_tile fuel ex [] = Outcome.ok (ex1, pos1) →
            ∀ p ∈ pos1, p.1 < left_tile.length ∧ p.2 < right_tile.length) := by
  refine ⟨(Advance_bounds vo join_clauses_ tile start_row is_left).1,
    (Advance_bounds vo join_clauses_ tile start_row is_left).2, ?_⟩
  intro hl hr
  apply matchLoop_rows_inside
  · rw [hl]; exact RunInside_Advance _ _ _ _ _
  · rw [hr]; exact RunInside_Advance _ _ _ _ _
  · simp

/-- C27 (witness): the keys `[1, 2]` against `[1, 2]` from the first runs on. -/
theorem Advance_keeps_rows_in_range_witness :
    Advance intOps [keyClause] [1, 2] 0 true ≤ 2 ∧
      matchLoop intOps [1, 2] [1, 2] 5 rejectingJoin [] ≠ Outcome.undefinedBehaviour :=
  ⟨((Advance_keeps_rows_in_range intOps [keyClause] [1, 2] 0 true [1, 2] [1, 2] 5
      rejectingJoin).2.1 (by decide)).2,
   ((Advance_keeps_rows_in_range intOps [keyClause] [1, 2] 0 true [1, 2] [1, 2] 5
      rejectingJoin).2.2 (by decide) (by decide)).1⟩

/-- C28 (code at the failing input): when the left child returns false on its
first `Execute` and the right child yields two tiles or more, the call `DExecute`
makes to itself reaches the join-building step with no left tile buffered and
takes `back()` of the empty vector, whatever the clauses, the predicate and
`BuildOuterJoinOutput` are. -/
theorem DExecute_empty_left_child {T V : Type} (vo : ValueOps V)
    (BuildOuterJoinOutput : MergeJoinExecutor T V → Bool × MergeJoinExecutor T V)
    (join_clauses : List (JoinClause T V)) (predicate : Option (T → T → V))
    (first second : LogicalTile T) (right_rest : List (LogicalTile T)) (n : Nat) :
    DExecute vo BuildOuterJoinOutput (n + 2)
        (freshJoin join_clauses predicate [] (first :: second :: right_rest)) =
      Outcome.undefinedBehaviour := by
  simp [DExecute, pickRightTile, pickLeftTile, freshJoin]

/-- The end `Advance` returns is not before the start. -/
theorem Advance_ge {T V : Type} (vo : ValueOps V) (join_clauses_ : List (JoinClause T V))
    (tile : LogicalTile T) (start_row : Nat) (is_left : Bool) :
    start_row ≤ Advance vo join_clauses_ tile start_row is_left :=
  (RunInside_Advance vo join_clauses_ tile start_row is_left).1

/-- Every iteration of the matching loop that completes moves the start of the
left run or of the right run forward. -/
theorem matchIteration_progress {T V : Type} (vo : ValueOps V)
    (left_tile right_tile : LogicalTile T) (ex ex1 : MergeJoinExecutor T V)
    (pos_lists pos1 : List (Nat × Nat))
    (hguard : ex.left_end_row > ex.left_start_row ∧ ex.right_end_row > ex.right_start_row)
    (hiter : matchIteration vo left_tile right_tile ex pos_lists = Outcome.ok (ex1, pos1)) :
    ex1.left_start_row > ex.left_start_row ∨ ex1.right_start_row > ex.right_start_row := by
  cases hl : left_tile[ex.left_start_row]? with
  | none => simp [matchIteration, hl] at hiter
  | some left_tuple =>
    cases hr : right_tile[ex.right_start_row]? with
    | none => simp [matchIteration, hl, hr] at hiter
    | some right_tuple =>
      obtain ⟨ex2, pos2, hiter2, _, hcases⟩ := matchIteration_cases vo left_tile right_tile
        ex pos_lists left_tuple right_tuple hl hr
      rw [hiter2] at hiter
      injection hiter with hiter
      injection hiter with h1 h2
      subst h1 h2
      have := Advance_ge vo ex.join_clauses_ left_tile ex.left_end_row true
      rcases hcases with ⟨_, h, _⟩ | ⟨_, _, _, _, h, _⟩ | ⟨_, _, h, _⟩ | ⟨_, _, h, _⟩
      · left; omega
      · right; omega
      · left; omega
      · left; omega

/-- With enough fuel for the rows still ahead, the matching loop ends: it reports
a row read outside a tile, or it returns with one of the runs empty, having
touched nothing but the row markers and the matched rows. -/
theorem matchLoop_terminates {T V : Type} (vo : ValueOps V)
    (left_tile right_tile : LogicalTile T) :
    ∀ (fuel : Nat) (ex : MergeJoinExecutor T V) (pos_lists : List (Nat × Nat)),
      ex.left_start_row ≤ ex.left_end_row → ex.right_start_row ≤ ex.right_end_row →
      (left_tile.length - ex.left_start_row) + (right_tile.length - ex.right_start_row) + 1 ≤
        fuel →
      matchLoop vo left_tile right_tile fuel ex pos_lists = Outcome.undefinedBehaviour ∨
        ∃ ex1 pos1, matchLoop vo left_tile right_tile fuel ex pos_lists =
            Outcome.ok (ex1, pos1) ∧
          SameStreams ex ex1 ∧ ex1.left_start_row ≤ ex1.left_end_row ∧
          ex1.right_start_row ≤ ex1.right_end_row ∧
          (ex1.left_start_row = ex1.left_end_row ∨
            ex1.right_start_row = ex1.right_end_row) := by
  intro fuel
  induction fuel with
  | zero => intro ex pos _ _ h; omega
  | succ n ih =>
    intro ex pos hl hr hfuel
    unfold matchLoop
    split_ifs with hguard
    · cases hlt : left_tile[ex.left_start_row]? with
      | none => left; simp [matchIteration, hlt]
      | some left_tuple =>
        cases hrt : right_tile[ex.right_start_row]? with
        | none => left; simp [matchIteration, hlt, hrt]
        | some right_tuple =>
          have hll : ex.left_start_row < left_tile.length := by
            by_contra hcon
            rw [List.getElem?_eq_none (by omega)] at hlt
            cases hlt
          have hrl : ex.right_start_row < right_tile.length := by
            by_contra hcon
            rw [List.getElem?_eq_none (by omega)] at hrt
            cases hrt
          obtain ⟨ex1, pos1, hiter, hsame, hcases⟩ := matchIteration_cases vo left_tile
            right_tile ex pos left_tuple right_tuple hlt hrt
          rw [hiter]
          simp only
          have a1 := Advance_ge vo ex.join_clauses_ left_tile ex.left_end_row true
          have a2 := Advance_ge vo ex.join_clauses_ right_tile ex.right_end_row false
          have a3 := Advance_ge vo ex.join_clauses_ left_tile
            (Advance vo ex.join_clauses_ left_tile ex.left_end_row true) true
          have a4 := Advance_ge vo ex.join_clauses_ right_tile
            (Advance vo ex.join_clauses_ right_tile ex.right_end_row false) false
          have hstep : ex1.left_start_row ≤ ex1.left_end_row ∧
              ex1.right_start_row ≤ ex1.right_end_row ∧
              (left_tile.length - ex1.left_start_row) +
                (right_tile.length - ex1.right_start_row) + 1 ≤ n := by
            rcases hcases with ⟨_, h1, h2, h3, h4, _⟩ | ⟨_, _, h1, h2, h3, h4, _⟩ |
              ⟨_, _, h1, h2, h3, h4, _⟩ | ⟨_, _, h1, h2, h3, h4, _⟩ <;>
              (rw [h1, h2, h3, h4]; omega)
          rcases ih ex1 pos1 hstep.1 hstep.2.1 hstep.2.2 with h | ⟨ex2, pos2, h, hs, hrest⟩
          · exact Or.inl h
          · refine Or.inr ⟨ex2, pos2, h, ?_, hrest⟩
            unfold SameStreams at hsame hs ⊢
            obtain ⟨b1, b2, b3, b4, b5, b6, b7, b8, b9⟩ := hsame
            obtain ⟨c1, c2, c3, c4, c5, c6, c7, c8, c9⟩ := hs
            exact ⟨c1.trans b1, c2.trans b2, c3.trans b3, c4.trans b4, c5.trans b5,
              c6.trans b6, c7.trans b7, c8.trans b8, c9.trans b9⟩
    · refine Or.inr ⟨ex, pos, rfl, ?_, hl, hr, ?_⟩
      · simp [SameStreams]
      · omega

/-- The tuple count of the last buffered tile after a tile was buffered. -/
theorem lastTupleCount_append {T : Type} (tiles : List (LogicalTile T)) (tile : LogicalTile T) :
    lastTupleCount (tiles ++ [tile]) = tile.length := by
  simp [lastTupleCount]

/-- The step that asks the right child for a tile, while not both children are
done: it marks the right child done, or buffers a tile and starts its first
run, or asks for nothing. -/
theorem pickRightTile_cases {T V : Type} (vo : ValueOps V) (ex : MergeJoinExecutor T V)
    (hleft : ex.left_start_row ≤ ex.left_end_row)
    (hright : ex.right_start_row ≤ ex.right_end_row)
    (hnot : ¬ (ex.right_child_done_ = true ∧ ex.left_child_done_ = true)) :
    (∃ ex1, pickRightTile vo ex = Picked.tryAgain ex1 ∧ BetweenCalls ex1 ∧
        pendingPulls ex1 + 1 = pendingPulls ex ∧ pendingRows ex1 = pendingRows ex) ∨
      (∃ ex1, pickRightTile vo ex = Picked.proceed ex1 ∧
        ex1.left_start_row = ex.left_start_row ∧ ex1.left_end_row = ex.left_end_row ∧
        ex1.right_start_row ≤ ex1.right_end_row ∧
        ex1.left_child_done_ = ex.left_child_done_ ∧
        ex1.right_child_done_ = ex.right_child_done_ ∧
        pendingRows ex1 ≤ pendingRows ex ∧
        (pendingPulls ex1 + 1 = pendingPulls ex ∨
          (pendingPulls ex1 = pendingPulls ex ∧
            ex1.right_start_row = ex.right_start_row ∧
            ex1.right_end_row = ex.right_end_row ∧
            ¬ ((ex.right_child_done_ = false ∧ ex.right_start_row = ex.right_end_row) ∨
              ex.left_child_done_ = true)))) := by
  unfold pickRightTile
  split_ifs with hcond
  · have hrd : ex.right_child_done_ = false := by
      cases h1 : ex.right_child_done_ <;> cases h2 : ex.left_child_done_ <;> simp_all
    cases hch : ex.children_1 with
    | nil =>
      left
      refine ⟨_, rfl, ⟨hleft, hright, Or.inr (Or.inl rfl)⟩, ?_, ?_⟩
      · simp [pendingPulls, hrd, hch]
      · simp [pendingRows, hch]
    | cons tile rest =>
      right
      refine ⟨_, rfl, rfl, rfl, ?_, rfl, rfl, ?_, Or.inl ?_⟩
      · exact Nat.zero_le _
      · simp only [pendingRows, hch, lastTupleCount_append, List.map_cons, List.sum_cons]
        omega
      · simp only [pendingPulls, hch, List.length_cons]
        omega
  · right
    refine ⟨ex, rfl, rfl, rfl, hright, rfl, rfl, le_rfl, Or.inr ⟨rfl, rfl, rfl, ?_⟩⟩
    intro h
    apply hcond
    rcases h with ⟨h1, h2⟩ | h
    · simp [h1, h2]
    · simp [h]

/-- The step that asks the left child for a tile, while not both children are
done: it marks the left child done, or buffers a tile and starts its first run,
or asks for nothing. -/
theorem pickLeftTile_cases {T V : Type} (vo : ValueOps V) (ex : MergeJoinExecutor T V)
    (hleft : ex.left_start_row ≤ ex.left_end_row)
    (hright : ex.right_start_row ≤ ex.right_end_row)
    (hnot : ¬ (ex.right_child_done_ = true ∧ ex.left_child_done_ = true)) :
    (∃ ex1, pickLeftTile vo ex = Picked.tryAgain ex1 ∧ BetweenCalls ex1 ∧
        pendingPulls ex1 + 1 = pendingPulls ex ∧ pendingRows ex1 = pendingRows ex) ∨
      (∃ ex1, pickLeftTile vo ex = Picked.proceed ex1 ∧
        ex1.right_start_row = ex.right_start_row ∧ ex1.right_end_row = ex.right_end_row ∧
        ex1.left_start_row ≤ ex1.left_end_row ∧
        ex1.left_child_done_ = ex.left_child_done_ ∧
        ex1.right_child_done_ = ex.right_child_done_ ∧
        pendingRows ex1 ≤ pendingRows ex ∧
        (pendingPulls ex1 + 1 = pendingPulls ex ∨
          (pendingPulls ex1 = pendingPulls ex ∧
            ex1.left_start_row = ex.left_start_row ∧
            ex1.left_end_row = ex.left_end_row ∧
            ¬ ((ex.left_child_done_ = false ∧ ex.left_start_row = ex.left_end_row) ∨
              ex.right_child_done_ = true)))) := by
  unfold pickLeftTile
  split_ifs with hcond
  · have hld : ex.left_child_done_ = false := by
      cases h1 : ex.right_child_done_ <;> cases h2 : ex.left_child_done_ <;> simp_all
    cases hch : ex.children_0 with
    | nil =>
      left
      refine ⟨_, rfl, ⟨hleft, hright, Or.inl rfl⟩, ?_, ?_⟩
      · simp only [pendingPulls, hld, hch, List.length_nil, Bool.false_eq_true, if_false,
          if_true]
        omega
      · simp [pendingRows, hch]
    | cons tile rest =>
      right
      refine ⟨_, rfl, rfl, rfl, ?_, rfl, rfl, ?_, Or.inl ?_⟩
      · exact Nat.zero_le _
      · simp only [pendingRows, hch, lastTupleCount_append, List.map_cons, List.sum_cons]
        omega
      · simp only [pendingPulls, hch, List.length_cons]
        omega
  · right
    refine ⟨ex, rfl, rfl, rfl, hleft, rfl, rfl, le_rfl, Or.inr ⟨rfl, rfl, rfl, ?_⟩⟩
    intro h
    apply hcond
    rcases h with ⟨h1, h2⟩ | h
    · simp [h1, h2]
    · simp [h]

/-- The matching loop changes neither the pulls nor the rows still ahead. -/
theorem SameStreams_pending {T V : Type} (ex ex1 : MergeJoinExecutor T V)
    (h : SameStreams ex ex1) :
    pendingPulls ex1 = pendingPulls ex ∧ pendingRows ex1 = pendingRows ex := by
  obtain ⟨_, _, h3, h4, h5, h6, h7, h8, _⟩ := h
  simp [pendingPulls, pendingRows, h3, h4, h5, h6, h7, h8]

/-- Between two calls, a call of `DExecute` ends when its fuel covers the pulls
and the rows still ahead: every self-call comes after a tile was consumed or a
child was newly marked done. -/
theorem DExecute_ends {T V : Type} (vo : ValueOps V)
    (BuildOuterJoinOutput : MergeJoinExecutor T V → Bool × MergeJoinExecutor T V) :
    ∀ (fuel : Nat) (ex : MergeJoinExecutor T V), BetweenCalls ex →
      pendingPulls ex + pendingRows ex + 2 ≤ fuel →
      DExecute vo BuildOuterJoinOutput fuel ex ≠ Outcome.outOfFuel := by
  intro fuel
  induction fuel with
  | zero => intro ex _ h; omega
  | succ n ih =>
    intro ex hb hf
    rw [DExecute]
    split_ifs with hdone
    · simp
    · have hnot : ¬ (ex.right_child_done_ = true ∧ ex.left_child_done_ = true) := by
        simpa using hdone
      rcases pickRightTile_cases vo ex hb.1 hb.2.1 hnot with
        ⟨ex1, hp, hb1, hpulls, hrows⟩ | ⟨ex1, hp, g1, g2, g3, g4, g5, g6, g7⟩
      · rw [hp]
        exact ih ex1 hb1 (by omega)
      · rw [hp]
        simp only
        have hnot1 : ¬ (ex1.right_child_done_ = true ∧ ex1.left_child_done_ = true) := by
          rw [g4, g5]; exact hnot
        rcases pickLeftTile_cases vo ex1 (by rw [g1, g2]; exact hb.1) g3 hnot1 with
          ⟨ex2, hq, hb2, hpulls2, hrows2⟩ | ⟨ex2, hq, k1, k2, k3, k4, k5, k6, k7⟩
        · rw [hq]
          simp only
          refine ih ex2 hb2 ?_
          rcases g7 with g7 | ⟨g7, _⟩ <;> omega
        · rw [hq]
          simp only
          have hconsumed : pendingPulls ex2 + 1 ≤ pendingPulls ex := by
            rcases g7 with g7 | ⟨g7, g8, g9, g10⟩
            · rcases k7 with k7 | ⟨k7, _⟩ <;> omega
            · rcases k7 with k7 | ⟨k7, k8, k9, k10⟩
              · omega
              · exfalso
                rw [g4, g5, g1, g2] at k10
                rcases hb.2.2 with h | h | h | h
                · exact g10 (Or.inr h)
                · exact k10 (Or.inr h)
                · cases hld : ex.left_child_done_ with
                  | true => exact g10 (Or.inr hld)
                  | false => exact k10 (Or.inl ⟨hld, h⟩)
                · cases hrd : ex.right_child_done_ with
                  | true => exact k10 (Or.inr hrd)
                  | false => exact g10 (Or.inl ⟨hrd, h⟩)
          cases hL : ex2.left_result_tiles_.getLast? with
          | none => simp
          | some left_tile =>
            cases hR : ex2.right_result_tiles_.getLast? with
            | none => simp
            | some right_tile =>
              simp only
              have hlen : left_tile.length + right_tile.length ≤ pendingRows ex2 := by
                simp only [pendingRows, lastTupleCount, hL, hR]
                omega
              rcases matchLoop_terminates vo left_tile right_tile n ex2 [] k3
                  (by rw [k1, k2]; exact g3) (by omega) with
                h | ⟨ex3, pos3, h, hs, h1, h2, h3⟩
              · rw [h]
                simp
              · rw [h]
                simp only
                split_ifs
                · simp
                · have hpend := SameStreams_pending ex2 ex3 hs
                  have hrec := ih ex3 ⟨h1, h2, Or.inr (Or.inr h3)⟩ (by omega)
                  cases hres : DExecute vo BuildOuterJoinOutput n ex3 with
                  | ok result => simp
                  | undefinedBehaviour => simp
                  | outOfFuel => exact absurd hres hrec

/-- In a tile whose neighbouring rows differ under the clauses, `Advance` moves
one row forward. -/
theorem Advance_strict {T V : Type} (vo : ValueOps V) (join_clauses_ : List (JoinClause T V))
    (tile : LogicalTile T) (is_left : Bool)
    (hdiff : ∀ (i : Nat) (a b : T), tile[i]? = some a → tile[i + 1]? = some b →
      rowsDiffer vo join_clauses_ is_left a b = true) (start_row : Nat) :
    Advance vo join_clauses_ tile start_row is_left =
      if start_row < tile.length then start_row + 1 else start_row := by
  unfold Advance
  by_cases hs : start_row < tile.length
  · rw [if_neg (by omega), if_pos hs]
    obtain ⟨n, hn⟩ : ∃ n, tile.length = n + 1 := ⟨tile.length - 1, by omega⟩
    rw [hn]
    unfold AdvanceScan
    by_cases he : start_row + 1 < tile.length
    · rw [if_pos he]
      have h1 : tile[start_row]? = some tile[start_row] := List.getElem?_eq_getElem hs
      have h2 : tile[start_row + 1]? = some tile[start_row + 1] :=
        List.getElem?_eq_getElem he
      rw [h1, h2]
      simp only [hdiff start_row _ _ h1 h2, if_true]
    · rw [if_neg he]
  · rw [if_pos (by omega), if_neg hs]

/-- The clause loop yields 0 exactly when every clause compares the two rows as
equal. -/
theorem compareClauses_eq_zero {T V : Type} (vo : ValueOps V)
    (clauses : List (JoinClause T V)) (l r : T) :
    compareClauses vo clauses l r = 0 ↔
      ∀ clause ∈ clauses, vo.Compare (clause.left_ l r) (clause.right_ l r) = 0 := by
  induction clauses with
  | nil => simp [compareClauses]
  | cons c rest ih =>
    simp only [compareClauses, List.mem_cons, forall_eq_or_imp]
    split_ifs with h1 h2
    · constructor
      · intro h
        omega
      · intro h
        omega
    · constructor
      · intro h
        omega
      · intro h
        omega
    · rw [ih]
      constructor
      · intro h
        exact ⟨by omega, h⟩
      · intro h
        exact h.2

/-- In a tile with strictly increasing keys a later row has a greater key. -/
theorem keys_increase {T K : Type} [LinearOrder K] (key : T → K) (tile : LogicalTile T)
    (h : tile.Pairwise fun a b => key a < key b) (i j : Nat) (a b : T) (hij : i < j)
    (hi : tile[i]? = some a) (hj : tile[j]? = some b) : key a < key b := by
  rw [List.pairwise_iff_getElem] at h
  rw [List.getElem?_eq_some] at hi hj
  obtain ⟨hi1, hi2⟩ := hi
  obtain ⟨hj1, hj2⟩ := hj
  subst hi2 hj2
  exact h i j hi1 hj1 hij

/-- In a tile with strictly increasing keys a row further on has no smaller key. -/
theorem keys_mono {T K : Type} [LinearOrder K] (key : T → K) (tile : LogicalTile T)
    (h : tile.Pairwise fun a b => key a < key b) (i j : Nat) (a b : T) (hij : i ≤ j)
    (hi : tile[i]? = some a) (hj : tile[j]? = some b) : key a ≤ key b := by
  rcases Nat.eq_or_lt_of_le hij with heq | hlt
  · subst heq
    rw [hi] at hj
    injection hj with hj
    rw [hj]
  · exact le_of_lt (keys_increase key tile h i j a b hlt hi hj)

/-- What the matching loop leaves untouched is left untouched by two runs of it. -/
theorem SameStreams_trans {T V : Type} (ex ex1 ex2 : MergeJoinExecutor T V)
    (h1 : SameStreams ex ex1) (h2 : SameStreams ex1 ex2) : SameStreams ex ex2 := by
  obtain ⟨a1, a2, a3, a4, a5, a6, a7, a8, a9⟩ := h1
  obtain ⟨b1, b2, b3, b4, b5, b6, b7, b8, b9⟩ := h2
  exact ⟨b1.trans a1, b2.trans a2, b3.trans a3, b4.trans a4, b5.trans a5, b6.trans a6,
    b7.trans a7, b8.trans a8, b9.trans a9⟩

/-- The matching loop over two tiles with strictly increasing keys and no
predicate, started with runs of one row: it ends with one run empty, and the rows
it adds are exactly the pairs of rows from the two start rows on whose keys are
equal, in ascending order. -/
theorem matchLoop_merge {T V K : Type} [LinearOrder K] (vo : ValueOps V)
    (clauses : List (JoinClause T V)) (lkey rkey : T → K) (L R : LogicalTile T)
    (hlt : ∀ l r, compareClauses vo clauses l r < 0 ↔ lkey l < rkey r)
    (hgt : ∀ l r, compareClauses vo clauses l r > 0 ↔ rkey r < lkey l)
    (hleft : ∀ a b, lkey a < lkey b → rowsDiffer vo clauses true a b = true)
    (hright : ∀ a b, rkey a < rkey b → rowsDiffer vo clauses false a b = true)
    (hL : L.Pairwise fun a b => lkey a < lkey b)
    (hR : R.Pairwise fun a b => rkey a < rkey b) :
    ∀ (fuel : Nat) (ex : MergeJoinExecutor T V) (pos_lists : List (Nat × Nat)),
      ex.join_clauses_ = clauses → ex.predicate_ = none →
      ex.left_end_row =
        (if ex.left_start_row < L.length then ex.left_start_row + 1
          else ex.left_start_row) →
      ex.right_end_row =
        (if ex.right_start_row < R.length then ex.right_start_row + 1
          else ex.right_start_row) →
      (L.length - ex.left_start_row) + (R.length - ex.right_start_row) + 1 ≤ fuel →
      ∃ (ex1 : MergeJoinExecutor T V) (rows : List (Nat × Nat)),
        matchLoop vo L R fuel ex pos_lists = Outcome.ok (ex1, pos_lists ++ rows) ∧
        SameStreams ex ex1 ∧
        (ex1.left_start_row = ex1.left_end_row ∨
          ex1.right_start_row = ex1.right_end_row) ∧
        (∀ a b, (a, b) ∈ rows ↔ ex.left_start_row ≤ a ∧ ex.right_start_row ≤ b ∧
          ∃ l r, L[a]? = some l ∧ R[b]? = some r ∧ lkey l = rkey r) ∧
        rows.Pairwise (fun p q => p.1 < q.1 ∧ p.2 < q.2) := by
  have hAdvL := Advance_strict vo clauses L true fun i a b ha hb =>
    hleft a b (keys_increase lkey L hL i (i + 1) a b (by omega) ha hb)
  have hAdvR := Advance_strict vo clauses R false fun i a b ha hb =>
    hright a b (keys_increase rkey R hR i (i + 1) a b (by omega) ha hb)
  intro fuel
  induction fuel with
  | zero =>
    intro ex pos hc hp hle hre hfuel
    omega
  | succ fuel ih =>
    intro ex pos hc hp hle hre hfuel
    unfold matchLoop
    by_cases hi : ex.left_start_row < L.length
    · by_cases hj : ex.right_start_row < R.length
      · rw [if_pos hi] at hle
        rw [if_pos hj] at hre
        rw [if_pos ⟨by omega, by omega⟩]
        have hl : L[ex.left_start_row]? = some L[ex.left_start_row] :=
          List.getElem?_eq_getElem hi
        have hr : R[ex.right_start_row]? = some R[ex.right_start_row] :=
          List.getElem?_eq_getElem hj
        obtain ⟨ex1, pos1, hiter, hsame, hcase⟩ :=
          matchIteration_cases vo L R ex pos _ _ hl hr
        rw [hiter]
        simp only
        rw [hc] at hcase
        obtain ⟨hs1, hs2, -⟩ := id hsame
        rcases hcase with ⟨hcmp, e1, e2, e3, e4, e5⟩ | ⟨-, hcmp, e1, e2, e3, e4, e5⟩ |
          ⟨hcmp, -, e1, e2, e3, e4, e5⟩ | ⟨-, ⟨q, hq, -⟩, -⟩
        · subst e5
          obtain ⟨ex2, rows, hloop, hsame2, hend, hchar, hpw⟩ :=
            ih ex1 pos1 (hs1.trans hc) (hs2.trans hp) (by rw [e2, e1, hle, hAdvL])
              (by rw [e4, e3, hre, if_pos hj]) (by rw [e1, e3, hle]; omega)
          refine ⟨ex2, rows, hloop, SameStreams_trans ex ex1 ex2 hsame hsame2, hend, ?_, hpw⟩
          intro a b
          rw [hchar a b, e1, e3, hle]
          constructor
          · rintro ⟨h1, h2, h3⟩
            exact ⟨by omega, h2, h3⟩
          · rintro ⟨h1, h2, l, r, hla, hrb, heq⟩
            refine ⟨?_, h2, l, r, hla, hrb, heq⟩
            by_contra hne
            have ha : ex.left_start_row = a := by omega
            rw [← ha, hl] at hla
            injection hla with hla
            have h4 := (hlt L[ex.left_start_row] R[ex.right_start_row]).1 hcmp
            have h5 := keys_mono rkey R hR _ _ _ _ h2 hr hrb
            rw [hla, heq] at h4
            exact absurd h4 (not_lt.2 h5)
        · subst e5
          obtain ⟨ex2, rows, hloop, hsame2, hend, hchar, hpw⟩ :=
            ih ex1 pos1 (hs1.trans hc) (hs2.trans hp) (by rw [e2, e1, hle, if_pos hi])
              (by rw [e4, e3, hre, hAdvR]) (by rw [e1, e3, hre]; omega)
          refine ⟨ex2, rows, hloop, SameStreams_trans ex ex1 ex2 hsame hsame2, hend, ?_, hpw⟩
          intro a b
          rw [hchar a b, e1, e3, hre]
          constructor
          · rintro ⟨h1, h2, h3⟩
            exact ⟨h1, by omega, h3⟩
          · rintro ⟨h1, h2, l, r, hla, hrb, heq⟩
            refine ⟨h1, ?_, l, r, hla, hrb, heq⟩
            by_contra hne
            have hb : ex.right_start_row = b := by omega
            rw [← hb, hr] at hrb
            injection hrb with hrb
            have h4 := (hgt L[ex.left_start_row] R[ex.right_start_row]).1 hcmp
            have h5 := keys_mono lkey L hL _ _ _ _ h1 hl hla
            rw [hrb, ← heq] at h4
            exact absurd h4 (not_lt.2 h5)
        · have hrows : cartesianRows ex.left_start_row ex.left_end_row ex.right_start_row
              ex.right_end_row = [(ex.left_start_row, ex.right_start_row)] := by
            rw [hle, hre]
            simp [cartesianRows]
          rw [hrows] at e5
          subst e5
          obtain ⟨ex2, rows, hloop, hsame2, hend, hchar, hpw⟩ :=
            ih ex1 (pos ++ [(ex.left_start_row, ex.right_start_row)]) (hs1.trans hc)
              (hs2.trans hp) (by rw [e2, e1, hle, hAdvL]) (by rw [e4, e3, hre, hAdvR])
              (by rw [e1, e3, hle, hre]; omega)
          have hkeys : lkey L[ex.left_start_row] = rkey R[ex.right_start_row] := by
            have h1 := (hlt L[ex.left_start_row] R[ex.right_start_row]).not.1 (by omega)
            have h2 := (hgt L[ex.left_start_row] R[ex.right_start_row]).not.1 (by omega)
            exact le_antisymm (not_lt.1 h2) (not_lt.1 h1)
          refine ⟨ex2, (ex.left_start_row, ex.right_start_row) :: rows, ?_,
            SameStreams_trans ex ex1 ex2 hsame hsame2, hend, ?_, ?_⟩
          · rw [hloop, List.append_assoc]
            rfl
          · intro a b
            rw [List.mem_cons, hchar a b, e1, e3, hle, hre]
            constructor
            · rintro (h | ⟨h1, h2, h3⟩)
              · injection h with h1 h2
                subst h1 h2
                exact ⟨le_rfl, le_rfl, _, _, hl, hr, hkeys⟩
              · exact ⟨by omega, by omega, h3⟩
            · rintro ⟨h1, h2, l, r, hla, hrb, heq⟩
              by_cases ha : ex.left_start_row = a
              · left
                rw [← ha, hl] at hla
                injection hla with hla
                rw [← hla, hkeys] at heq
                by_cases hb : ex.right_start_row = b
                · rw [ha, hb]
                · have h5 := keys_increase rkey R hR _ _ _ _
                    (lt_of_le_of_ne h2 hb) hr hrb
                  rw [heq] at h5
                  exact absurd h5 (lt_irrefl _)
              · by_cases hb : ex.right_start_row = b
                · rw [← hb, hr] at hrb
                  injection hrb with hrb
                  rw [← hrb, ← hkeys] at heq
                  have h5 := keys_increase lkey L hL _ _ _ _
                    (lt_of_le_of_ne h1 ha) hl hla
                  rw [heq] at h5
                  exact absurd h5 (lt_irrefl _)
                · right
                  exact ⟨by omega, by omega, l, r, hla, hrb, heq⟩
          · rw [List.pairwise_cons]
            refine ⟨?_, hpw⟩
            rintro ⟨a, b⟩ hab
            have h := (hchar a b).1 hab
            rw [e1, e3, hle, hre] at h
            exact ⟨by simp only; omega, by simp only; omega⟩
        · rw [hp] at hq
          exact absurd hq (by simp)
      · rw [if_neg hj] at hre
        rw [if_neg (by omega)]
        refine ⟨ex, [], by simp, by simp [SameStreams], Or.inr hre.symm, ?_, List.Pairwise.nil⟩
        intro a b
        constructor
        · intro h
          exact absurd h (List.not_mem_nil _)
        · rintro ⟨-, h2, l, r, -, hrb, -⟩
          rw [List.getElem?_eq_some] at hrb
          obtain ⟨hb, -⟩ := hrb
          omega
    · rw [if_neg hi] at hle
      rw [if_neg (by omega)]
      refine ⟨ex, [], by simp, by simp [SameStreams], Or.inl hle.symm, ?_, List.Pairwise.nil⟩
      intro a b
      constructor
      · intro h
        exact absurd h (List.not_mem_nil _)
      · rintro ⟨h1, -, l, r, hla, -, -⟩
        rw [List.getElem?_eq_some] at hla
        obtain ⟨ha, -⟩ := hla
        omega

/-- A call of `DExecute` of an inner join whose children have nothing left to
deliver, between two calls: it returns false and leaves the output as it is. -/
theorem DExecute_drained {T V : Type} (vo : ValueOps V) (ex : MergeJoinExecutor T V)
    (h0 : ex.children_0 = []) (h1 : ex.children_1 = [])
    (hruns : ex.left_child_done_ = true ∨ ex.right_child_done_ = true ∨
      ex.left_start_row = ex.left_end_row ∨ ex.right_start_row = ex.right_end_row)
    (fuel : Nat) (hfuel : 3 ≤ fuel) :
    ∃ ex1 : MergeJoinExecutor T V,
      DExecute vo innerJoinOutput fuel ex = Outcome.ok (false, ex1) ∧
        ex1.output_ = ex.output_ ∧ ex1.children_0 = [] ∧ ex1.children_1 = [] ∧
        ex1.left_child_done_ = true := by
  obtain ⟨n, rfl⟩ : ∃ n, fuel = n + 3 := ⟨fuel - 3, by omega⟩
  cases hld : ex.left_child_done_ <;> cases hrd : ex.right_child_done_
  · by_cases hr : ex.right_start_row = ex.right_end_row
    · simp [DExecute, pickRightTile, pickLeftTile, innerJoinOutput, hld, hrd, h0, h1, hr]
    · have hl : ex.left_start_row = ex.left_end_row := by
        rcases hruns with h | h | h | h
        · rw [hld] at h
          exact absurd h (by decide)
        · rw [hrd] at h
          exact absurd h (by decide)
        · exact h
        · exact absurd h hr
      simp [DExecute, pickRightTile, pickLeftTile, innerJoinOutput, hld, hrd, h0, h1, hr, hl]
  · simp [DExecute, pickRightTile, pickLeftTile, innerJoinOutput, hld, hrd, h0, h1]
  · simp [DExecute, pickRightTile, pickLeftTile, innerJoinOutput, hld, hrd, h0, h1]
  · simp [DExecute, pickRightTile, pickLeftTile, innerJoinOutput, hld, hrd, h0, h1]

/-- The first call of `DExecute` on a join over one tile per child: both tiles
are buffered and the matching loop starts from the runs at row 0. -/
theorem DExecute_single_tiles {T V : Type} (vo : ValueOps V)
    (BuildOuterJoinOutput : MergeJoinExecutor T V → Bool × MergeJoinExecutor T V)
    (join_clauses : List (JoinClause T V)) (predicate : Option (T → T → V))
    (left_tile right_tile : LogicalTile T) (fuel : Nat) :
    DExecute vo BuildOuterJoinOutput (fuel + 1)
        (freshJoin join_clauses predicate [left_tile] [right_tile]) =
      match matchLoop vo left_tile right_tile fuel
          (loadedJoin vo join_clauses predicate left_tile right_tile) [] with
      | Outcome.ok (ex3, pos_lists) =>
        if pos_lists.length > 0 then
          Outcome.ok (true, { ex3 with
            output_ := some
              { left_tile := left_tile
                right_tile := right_tile
                position_lists := pos_lists } })
        else
          match DExecute vo BuildOuterJoinOutput fuel ex3 with
          | Outcome.ok result => Outcome.ok (true, result.2)
          | Outcome.undefinedBehaviour => Outcome.undefinedBehaviour
          | Outcome.outOfFuel => Outcome.outOfFuel
      | Outcome.undefinedBehaviour => Outcome.undefinedBehaviour
      | Outcome.outOfFuel => Outcome.outOfFuel := by
  rfl

/-- C26: an inner merge join with no predicate whose children deliver one tile
each, the keys strictly increasing within either tile (the clauses compare a
left row with a right row as their keys compare, and tell two rows of one side
with different keys apart).  With fuel for every row and at least two calls, the
pairs emitted over all calls are exactly the pairs of a left row and a right row
on which every join clause compares equal, each once, in ascending order of the
rows of both tiles and so in ascending key order. -/
theorem merge_join_strict_keys {T V K : Type} [LinearOrder K] (vo : ValueOps V)
    (clauses : List (JoinClause T V)) (lkey rkey : T → K) (L R : LogicalTile T)
    (hlt : ∀ l r, compareClauses vo clauses l r < 0 ↔ lkey l < rkey r)
    (hgt : ∀ l r, compareClauses vo clauses l r > 0 ↔ rkey r < lkey l)
    (hleft : ∀ a b, lkey a < lkey b → rowsDiffer vo clauses true a b = true)
    (hright : ∀ a b, rkey a < rkey b → rowsDiffer vo clauses false a b = true)
    (hL : L.Pairwise fun a b => lkey a < lkey b)
    (hR : R.Pairwise fun a b => rkey a < rkey b)
    (fuel calls : Nat) (hfuel : L.length + R.length + 4 ≤ fuel) (hcalls : 2 ≤ calls) :
    ∃ rows : List (Nat × Nat),
      emittedRows vo innerJoinOutput fuel calls (freshJoin clauses none [L] [R]) =
        Outcome.ok rows ∧
      (∀ i j, (i, j) ∈ rows ↔ ∃ l r, L[i]? = some l ∧ R[j]? = some r ∧
        ∀ clause ∈ clauses, vo.Compare (clause.left_ l r) (clause.right_ l r) = 0) ∧
      rows.Nodup ∧
      rows.Pairwise (fun p q => p.1 < q.1 ∧ p.2 < q.2) ∧
      rows.Pairwise (fun p q => ∃ l l', L[p.1]? = some l ∧ L[q.1]? = some l' ∧
        lkey l < lkey l') := by
  obtain ⟨f, rfl⟩ : ∃ f, fuel = f + 1 := ⟨fuel - 1, by omega⟩
  obtain ⟨c, rfl⟩ : ∃ c, calls = c + 2 := ⟨calls - 2, by omega⟩
  have hAdvL := Advance_strict vo clauses L true fun i a b ha hb =>
    hleft a b (keys_increase lkey L hL i (i + 1) a b (by omega) ha hb)
  have hAdvR := Advance_strict vo clauses R false fun i a b ha hb =>
    hright a b (keys_increase rkey R hR i (i + 1) a b (by omega) ha hb)
  obtain ⟨ex3, rows, hloop, hsame, hend, hchar, hpw⟩ :=
    matchLoop_merge vo clauses lkey rkey L R hlt hgt hleft hright hL hR f
      (loadedJoin vo clauses none L R) [] rfl rfl (hAdvL 0) (hAdvR 0)
      (by simp only [loadedJoin, freshJoin]; omega)
  rw [List.nil_append] at hloop
  obtain ⟨-, -, hs3, hs4, -, -, -, -, hs9⟩ := id hsame
  have hfirst : ∃ exA : MergeJoinExecutor T V,
      DExecute vo innerJoinOutput (f + 1) (freshJoin clauses none [L] [R]) =
        Outcome.ok (true, exA) ∧ tileRows exA.output_ = rows ∧
        exA.children_0 = [] ∧ exA.children_1 = [] ∧
        (exA.left_child_done_ = true ∨ exA.right_child_done_ = true ∨
          exA.left_start_row = exA.left_end_row ∨
          exA.right_start_row = exA.right_end_row) := by
    rw [DExecute_single_tiles, hloop]
    simp only
    by_cases hrows : rows.length > 0
    · rw [if_pos hrows]
      exact ⟨_, rfl, rfl, hs3, hs4, Or.inr (Or.inr hend)⟩
    · rw [if_neg hrows]
      obtain ⟨ex4, hdrain, hout, hc0, hc1, hdone⟩ :=
        DExecute_drained vo ex3 hs3 hs4 (Or.inr (Or.inr hend)) f (by omega)
      rw [hdrain]
      refine ⟨ex4, rfl, ?_, hc0, hc1, Or.inl hdone⟩
      have hnil : rows = [] := List.eq_nil_of_length_eq_zero (by omega)
      rw [hout, hs9, hnil]
      rfl
  obtain ⟨exA, hfirstA, hrowsA, hc0, hc1, hrunsA⟩ := hfirst
  obtain ⟨ex5, hsecond, -⟩ :=
    DExecute_drained vo (GetOutput exA).2 hc0 hc1 hrunsA (f + 1) (by omega)
  refine ⟨rows, ?_, ?_, ?_, hpw, ?_⟩
  · rw [emittedRows, hfirstA]
    simp only
    rw [emittedRows, hsecond]
    simp only [GetOutput, hrowsA, List.append_nil]
  · intro i j
    rw [hchar i j]
    constructor
    · rintro ⟨-, -, l, r, hl, hr, heq⟩
      refine ⟨l, r, hl, hr, ?_⟩
      rw [← compareClauses_eq_zero]
      have h1 : ¬ compareClauses vo clauses l r < 0 := fun h =>
        absurd ((hlt l r).1 h) (by rw [heq]; exact lt_irrefl _)
      have h2 : ¬ compareClauses vo clauses l r > 0 := fun h =>
        absurd ((hgt l r).1 h) (by rw [heq]; exact lt_irrefl _)
      omega
    · rintro ⟨l, r, hl, hr, hall⟩
      refine ⟨Nat.zero_le _, Nat.zero_le _, l, r, hl, hr, ?_⟩
      have h0 := (compareClauses_eq_zero vo clauses l r).2 hall
      refine le_antisymm (not_lt.1 fun h => ?_) (not_lt.1 fun h => ?_)
      · have := (hgt l r).2 h
        omega
      · have := (hlt l r).2 h
        omega
  · exact hpw.imp fun h heq => by
      rw [heq] at h
      exact lt_irrefl _ h.1
  · refine hpw.imp_of_mem ?_
    rintro ⟨a, b⟩ ⟨a', b'⟩ hp hq hlt'
    obtain ⟨-, -, l, -, hl, -, -⟩ := (hchar a b).1 hp
    obtain ⟨-, -, l', -, hl', -, -⟩ := (hchar a' b').1 hq
    exact ⟨l, l', hl, hl', keys_increase lkey L hL a a' l l' hlt'.1 hl hl'⟩

/-- C26 (witness): the join of `[1, 3]` against `[2, 3]` on the row itself as
key, with fuel 8 and two calls. -/
theorem merge_join_strict_keys_witness :
    ∃ rows : List (Nat × Nat),
      emittedRows intOps innerJoinOutput 8 2
          (freshJoin [keyClause] none [[1, 3]] [[2, 3]]) = Outcome.ok rows ∧
      (∀ i j, (i, j) ∈ rows ↔ ∃ l r, [(1 : Int), 3][i]? = some l ∧
        [(2 : Int), 3][j]? = some r ∧
        ∀ clause ∈ [keyClause], intOps.Compare (clause.left_ l r) (clause.right_ l r) = 0) ∧
      rows.Nodup ∧
      rows.Pairwise (fun p q => p.1 < q.1 ∧ p.2 < q.2) ∧
      rows.Pairwise (fun p q => ∃ l l', [(1 : Int), 3][p.1]? = some l ∧
        [(1 : Int), 3][q.1]? = some l' ∧ id l < id l') :=
  merge_join_strict_keys intOps [keyClause] id id [1, 3] [2, 3]
    (fun l r => by
      simp only [compareClauses, intOps, keyClause, id]
      split_ifs <;> omega)
    (fun l r => by
      simp only [compareClauses, intOps, keyClause, id]
      split_ifs <;> omega)
    (fun a b h => by
      simp only [id] at h
      simp only [rowsDiffer, intOps, keyClause, List.any_cons, List.any_nil, Bool.or_false,
        if_true, decide_eq_true_eq]
      split_ifs <;> omega)
    (fun a b h => by
      simp only [id] at h
      simp only [rowsDiffer, intOps, keyClause, List.any_cons, List.any_nil, Bool.or_false,
        decide_eq_true_eq]
      split_ifs <;> omega)
    (by decide) (by decide) 8 2 (by decide) (by decide)

/-- A call of `DExecute` is its step followed by the self-call the step ends in,
the matching loop having the fuel of the self-call. -/
theorem DExecute_step {T V : Type} (vo : ValueOps V)
    (BuildOuterJoinOutput : MergeJoinExecutor T V → Bool × MergeJoinExecutor T V)
    (fuel : Nat) (ex : MergeJoinExecutor T V) :
    DExecute vo BuildOuterJoinOutput (fuel + 1) ex =
      match DExecuteStep vo BuildOuterJoinOutput fuel ex with
      | CallStep.again ex1 => DExecute vo BuildOuterJoinOutput fuel ex1
      | CallStep.againThenTrue ex1 =>
        match DExecute vo BuildOuterJoinOutput fuel ex1 with
        | Outcome.ok result => Outcome.ok (true, result.2)
        | Outcome.undefinedBehaviour => Outcome.undefinedBehaviour
        | Outcome.outOfFuel => Outcome.outOfFuel
      | CallStep.ended outcome => outcome := by
  rw [DExecute, DExecuteStep]
  split_ifs with hdone
  · rfl
  · cases pickRightTile vo ex with
    | tryAgain ex1 => rfl
    | proceed ex1 =>
      simp only
      cases pickLeftTile vo ex1 with
      | tryAgain ex2 => rfl
      | proceed ex2 =>
        simp only
        cases ex2.left_result_tiles_.getLast? with
        | none => rfl
        | some left_tile =>
          cases ex2.right_result_tiles_.getLast? with
          | none => rfl
          | some right_tile =>
            simp only
            cases matchLoop vo left_tile right_tile fuel ex2 [] with
            | undefinedBehaviour => rfl
            | outOfFuel => rfl
            | ok next =>
              obtain ⟨ex3, pos_lists⟩ := next
              simp only
              split_ifs <;> rfl

/-- A matching loop that ended does the same with more fuel. -/
theorem matchLoop_more_fuel {T V : Type} (vo : ValueOps V)
    (left_tile right_tile : LogicalTile T) :
    ∀ (fuel : Nat) (ex : MergeJoinExecutor T V) (pos_lists : List (Nat × Nat)),
      matchLoop vo left_tile right_tile fuel ex pos_lists ≠ Outcome.outOfFuel →
      ∀ more : Nat, matchLoop vo left_tile right_tile (fuel + more) ex pos_lists =
        matchLoop vo left_tile right_tile fuel ex pos_lists := by
  intro fuel
  induction fuel with
  | zero =>
    intro ex pos h
    exact absurd rfl h
  | succ n ih =>
    intro ex pos h more
    rw [show n + 1 + more = (n + more) + 1 by omega]
    unfold matchLoop at h ⊢
    split_ifs at h ⊢ with hguard
    · cases hiter : matchIteration vo left_tile right_tile ex pos with
      | ok next =>
        rw [hiter] at h
        exact ih next.1 next.2 h more
      | undefinedBehaviour => rfl
      | outOfFuel => rfl
    · rfl

/-- With enough fuel for the rows still ahead and both runs inside their tiles,
the matching loop returns with one of the runs empty and both runs inside their
tiles, having touched nothing but the row markers and the matched rows. -/
theorem matchLoop_returns {T V : Type} (vo : ValueOps V)
    (left_tile right_tile : LogicalTile T) :
    ∀ (fuel : Nat) (ex : MergeJoinExecutor T V) (pos_lists : List (Nat × Nat)),
      RunInside left_tile ex.left_start_row ex.left_end_row →
      RunInside right_tile ex.right_start_row ex.right_end_row →
      (left_tile.length - ex.left_start_row) + (right_tile.length - ex.right_start_row) + 1 ≤
        fuel →
      ∃ ex1 pos1, matchLoop vo left_tile right_tile fuel ex pos_lists =
          Outcome.ok (ex1, pos1) ∧
        SameStreams ex ex1 ∧
        RunInside left_tile ex1.left_start_row ex1.left_end_row ∧
        RunInside right_tile ex1.right_start_row ex1.right_end_row ∧
        (ex1.left_start_row = ex1.left_end_row ∨
          ex1.right_start_row = ex1.right_end_row) := by
  intro fuel
  induction fuel with
  | zero => intro ex pos _ _ h; omega
  | succ n ih =>
    intro ex pos hl hr hfuel
    unfold matchLoop
    split_ifs with hguard
    · have hll : ex.left_start_row < left_tile.length := by
        have := hl.2 hguard.1
        omega
      have hrl : ex.right_start_row < right_tile.length := by
        have := hr.2 hguard.2
        omega
      obtain ⟨ex1, pos1, hiter, hsame, hcases⟩ := matchIteration_cases vo left_tile
        right_tile ex pos _ _ (List.getElem?_eq_getElem hll) (List.getElem?_eq_getElem hrl)
      rw [hiter]
      simp only
      have a1 := Advance_ge vo ex.join_clauses_ left_tile ex.left_end_row true
      have a2 := Advance_ge vo ex.join_clauses_ right_tile ex.right_end_row false
      have hstep : RunInside left_tile ex1.left_start_row ex1.left_end_row ∧
          RunInside right_tile ex1.right_start_row ex1.right_end_row ∧
          (left_tile.length - ex1.left_start_row) +
            (right_tile.length - ex1.right_start_row) + 1 ≤ n := by
        rcases hcases with ⟨_, h1, h2, h3, h4, _⟩ | ⟨_, _, h1, h2, h3, h4, _⟩ |
          ⟨_, _, h1, h2, h3, h4, _⟩ | ⟨_, _, h1, h2, h3, h4, _⟩
        · rw [h1, h2, h3, h4]
          exact ⟨RunInside_Advance _ _ _ _ _, hr, by omega⟩
        · rw [h1, h2, h3, h4]
          exact ⟨hl, RunInside_Advance _ _ _ _ _, by omega⟩
        · rw [h1, h2, h3, h4]
          exact ⟨RunInside_Advance _ _ _ _ _, RunInside_Advance _ _ _ _ _, by omega⟩
        · rw [h1, h2, h3, h4]
          exact ⟨RunInside_Advance _ _ _ _ _, RunInside_Advance _ _ _ _ _, by omega⟩
      obtain ⟨ex2, pos2, h, hs, hrest⟩ := ih ex1 pos1 hstep.1 hstep.2.1 hstep.2.2
      exact ⟨ex2, pos2, h, SameStreams_trans ex ex1 ex2 hsame hs, hrest⟩
    · refine ⟨ex, pos, rfl, by simp [SameStreams], hl, hr, ?_⟩
      have := hl.1
      have := hr.1
      omega

/-- The most recently buffered tile after a tile was buffered. -/
theorem lastTile_append {T : Type} (tiles : List (LogicalTile T)) (tile : LogicalTile T) :
    lastTile (tiles ++ [tile]) = tile := by
  simp [lastTile]

/-- The most recently buffered tile is what `back()` yields. -/
theorem lastTile_back {T : Type} (tiles : List (LogicalTile T)) (tile : LogicalTile T)
    (h : tiles.getLast? = some tile) : lastTile tiles = tile := by
  simp [lastTile, h]

/-- A run inside the most recently buffered tile of a side that has buffered no
tile is empty. -/
theorem RunInside_no_tile {T : Type} (tiles : List (LogicalTile T)) (start_row end_row : Nat)
    (h : RunInside (lastTile tiles) start_row end_row) (hnone : tiles = []) :
    start_row = end_row := by
  subst hnone
  have h1 := h.1
  by_contra hne
  have h2 := h.2 (by omega)
  simp [lastTile] at h2
  omega

/-- The step that asks the right child for a tile keeps the runs inside the
buffered tiles and leaves the left side alone; when both sides are supplied they
stay so, and the right side has a tile buffered if the step goes on. -/
theorem pickRightTile_ready {T V : Type} (vo : ValueOps V) (ex : MergeJoinExecutor T V)
    (hruns : RunsInside ex) :
    (∀ ex1, pickRightTile vo ex = Picked.tryAgain ex1 →
        RunsInside ex1 ∧ (Supplied ex → Supplied ex1)) ∧
      (∀ ex1, pickRightTile vo ex = Picked.proceed ex1 →
        RunsInside ex1 ∧ ex1.left_result_tiles_ = ex.left_result_tiles_ ∧
          (Supplied ex → Supplied ex1 ∧ ex1.right_result_tiles_ ≠ [])) := by
  unfold pickRightTile
  split_ifs with hcond
  · cases hch : ex.children_1 with
    | nil =>
      constructor
      · intro ex1 h
        injection h with h
        subst h
        refine ⟨hruns, fun hs => ⟨hs.1, ?_⟩⟩
        rcases hs.2 with h2 | ⟨h2, -⟩
        · exact Or.inl h2
        · exact absurd hch h2
      · intro ex1 h
        cases h
    | cons tile rest =>
      constructor
      · intro ex1 h
        cases h
      · intro ex1 h
        injection h with h
        subst h
        refine ⟨⟨hruns.1, ?_⟩, rfl, fun hs => ⟨⟨hs.1, Or.inl (by simp)⟩, by simp⟩⟩
        simp only [lastTile_append]
        exact RunInside_Advance _ _ _ _ _
  · constructor
    · intro ex1 h
      cases h
    · intro ex1 h
      injection h with h
      subst h
      refine ⟨hruns, rfl, fun hs => ⟨hs, ?_⟩⟩
      intro hnone
      apply hcond
      have hrun := RunInside_no_tile _ _ _ hruns.2 hnone
      rcases hs.2 with h2 | ⟨-, h2⟩
      · exact absurd hnone h2
      · simp [h2, hrun]

/-- The step that asks the left child for a tile keeps the runs inside the
buffered tiles and leaves the right side alone; when both sides are supplied they
stay so, and the left side has a tile buffered if the step goes on. -/
theorem pickLeftTile_ready {T V : Type} (vo : ValueOps V) (ex : MergeJoinExecutor T V)
    (hruns : RunsInside ex) :
    (∀ ex1, pickLeftTile vo ex = Picked.tryAgain ex1 →
        RunsInside ex1 ∧ (Supplied ex → Supplied ex1)) ∧
      (∀ ex1, pickLeftTile vo ex = Picked.proceed ex1 →
        RunsInside ex1 ∧ ex1.right_result_tiles_ = ex.right_result_tiles_ ∧
          (Supplied ex → Supplied ex1 ∧ ex1.left_result_tiles_ ≠ [])) := by
  unfold pickLeftTile
  split_ifs with hcond
  · cases hch : ex.children_0 with
    | nil =>
      constructor
      · intro ex1 h
        injection h with h
        subst h
        refine ⟨hruns, fun hs => ⟨?_, hs.2⟩⟩
        rcases hs.1 with h2 | ⟨h2, -⟩
        · exact Or.inl h2
        · exact absurd hch h2
      · intro ex1 h
        cases h
    | cons tile rest =>
      constructor
      · intro ex1 h
        cases h
      · intro ex1 h
        injection h with h
        subst h
        refine ⟨⟨?_, hruns.2⟩, rfl, fun hs => ⟨⟨Or.inl (by simp), hs.2⟩, by simp⟩⟩
        simp only [lastTile_append]
        exact RunInside_Advance _ _ _ _ _
  · constructor
    · intro ex1 h
      cases h
    · intro ex1 h
      injection h with h
      subst h
      refine ⟨hruns, rfl, fun hs => ⟨hs, ?_⟩⟩
      intro hnone
      apply hcond
      have hrun := RunInside_no_tile _ _ _ hruns.1 hnone
      rcases hs.1 with h2 | ⟨-, h2⟩
      · exact absurd hnone h2
      · simp [h2, hrun]

/-- What the matching loop leaves untouched decides which tiles are the most
recently buffered ones and whether both sides are supplied. -/
theorem SameStreams_ready {T V : Type} (ex ex1 : MergeJoinExecutor T V)
    (h : SameStreams ex ex1) :
    lastTile ex1.left_result_tiles_ = lastTile ex.left_result_tiles_ ∧
      lastTile ex1.right_result_tiles_ = lastTile ex.right_result_tiles_ ∧
      (Supplied ex → Supplied ex1) := by
  obtain ⟨_, _, h3, h4, h5, h6, h7, h8, _⟩ := h
  refine ⟨by rw [h5], by rw [h6], ?_⟩
  intro hs
  unfold Supplied at hs ⊢
  rw [h3, h4, h5, h6, h7, h8]
  exact hs

/-- One call of `DExecute` between two calls, with the runs inside the buffered
tiles and an iteration of the matching loop for every row still ahead and one
more.  More iterations change nothing.  A self-call comes after a tile was
consumed or a child was newly marked done, in a state that is again one between
two calls.  A call that ends without a self-call has not run out of
iterations, has returned if both sides were supplied, and has returned what
`BuildOuterJoinOutput` gave it or left a state between two calls. -/
theorem DExecuteStep_cases {T V : Type} (vo : ValueOps V)
    (BuildOuterJoinOutput : MergeJoinExecutor T V → Bool × MergeJoinExecutor T V)
    (iterations : Nat) (ex : MergeJoinExecutor T V) (hbetween : BetweenCalls ex)
    (hruns : RunsInside ex) (hiterations : pendingRows ex + 1 ≤ iterations) :
    (∀ more : Nat, DExecuteStep vo BuildOuterJoinOutput (iterations + more) ex =
        DExecuteStep vo BuildOuterJoinOutput iterations ex) ∧
      (∀ ex1, DExecuteStep vo BuildOuterJoinOutput iterations ex = CallStep.again ex1 ∨
          DExecuteStep vo BuildOuterJoinOutput iterations ex = CallStep.againThenTrue ex1 →
        BetweenCalls ex1 ∧ RunsInside ex1 ∧ (Supplied ex → Supplied ex1) ∧
          pendingPulls ex1 + 1 ≤ pendingPulls ex ∧ pendingRows ex1 ≤ pendingRows ex) ∧
      (∀ outcome, DExecuteStep vo BuildOuterJoinOutput iterations ex =
          CallStep.ended outcome →
        outcome ≠ Outcome.outOfFuel ∧
          (Supplied ex → ∃ result, outcome = Outcome.ok result) ∧
          (∀ b ex', outcome = Outcome.ok (b, ex') →
            (BetweenCalls ex' ∧ RunsInside ex' ∧ (Supplied ex → Supplied ex')) ∨
              ∃ ex0, BetweenCalls ex0 ∧ RunsInside ex0 ∧
                ex' = (BuildOuterJoinOutput ex0).2)) := by
  by_cases hdone : (ex.right_child_done_ && ex.left_child_done_) = true
  · have hform : ∀ n, DExecuteStep vo BuildOuterJoinOutput n ex =
        CallStep.ended (Outcome.ok (BuildOuterJoinOutput ex)) := by
      intro n
      simp only [DExecuteStep, hdone, if_true]
    refine ⟨fun more => by rw [hform, hform], ?_, ?_⟩
    · intro ex1 h
      rw [hform] at h
      rcases h with h | h <;> cases h
    · intro outcome h
      rw [hform] at h
      injection h with h
      subst h
      refine ⟨by simp, fun _ => ⟨_, rfl⟩, ?_⟩
      intro b ex' h
      injection h with h
      exact Or.inr ⟨ex, hbetween, hruns, by rw [h]⟩
  · have hnot : ¬ (ex.right_child_done_ = true ∧ ex.left_child_done_ = true) := by
      simpa using hdone
    obtain ⟨hRt, hRp⟩ := pickRightTile_ready vo ex hruns
    rcases pickRightTile_cases vo ex hbetween.1 hbetween.2.1 hnot with
      ⟨ex1, hp, hb1, hpulls, hrows⟩ | ⟨ex1, hp, g1, g2, g3, g4, g5, g6, g7⟩
    · have hform : ∀ n, DExecuteStep vo BuildOuterJoinOutput n ex = CallStep.again ex1 := by
        intro n
        simp only [DExecuteStep, hdone, hp]
        rfl
      obtain ⟨hr1, hs1⟩ := hRt ex1 hp
      refine ⟨fun more => by rw [hform, hform], ?_, ?_⟩
      · intro ex1' h
        rw [hform] at h
        rcases h with h | h
        · injection h with h
          subst h
          exact ⟨hb1, hr1, hs1, by omega, by omega⟩
        · cases h
      · intro outcome h
        rw [hform] at h
        cases h
    · obtain ⟨hr1, hl1, hs1⟩ := hRp ex1 hp
      obtain ⟨hLt, hLp⟩ := pickLeftTile_ready vo ex1 hr1
      have hnot1 : ¬ (ex1.right_child_done_ = true ∧ ex1.left_child_done_ = true) := by
        rw [g4, g5]; exact hnot
      rcases pickLeftTile_cases vo ex1 (by rw [g1, g2]; exact hbetween.1) g3 hnot1 with
        ⟨ex2, hq, hb2, hpulls2, hrows2⟩ | ⟨ex2, hq, k1, k2, k3, k4, k5, k6, k7⟩
      · have hform : ∀ n, DExecuteStep vo BuildOuterJoinOutput n ex = CallStep.again ex2 := by
          intro n
          simp only [DExecuteStep, hdone, hp, hq]
          rfl
        obtain ⟨hr2, hs2⟩ := hLt ex2 hq
        refine ⟨fun more => by rw [hform, hform], ?_, ?_⟩
        · intro ex1' h
          rw [hform] at h
          rcases h with h | h
          · injection h with h
            subst h
            refine ⟨hb2, hr2, fun hs => hs2 (hs1 hs).1, ?_, by omega⟩
            rcases g7 with g7 | ⟨g7, _⟩ <;> omega
          · cases h
        · intro outcome h
          rw [hform] at h
          cases h
      · obtain ⟨hr2, hrt2, hs2⟩ := hLp ex2 hq
        have hconsumed : pendingPulls ex2 + 1 ≤ pendingPulls ex := by
          rcases g7 with g7 | ⟨g7, g8, g9, g10⟩
          · rcases k7 with k7 | ⟨k7, _⟩ <;> omega
          · rcases k7 with k7 | ⟨k7, k8, k9, k10⟩
            · omega
            · exfalso
              rw [g4, g5, g1, g2] at k10
              rcases hbetween.2.2 with h | h | h | h
              · exact g10 (Or.inr h)
              · exact k10 (Or.inr h)
              · cases hld : ex.left_child_done_ with
                | true => exact g10 (Or.inr hld)
                | false => exact k10 (Or.inl ⟨hld, h⟩)
              · cases hrd : ex.right_child_done_ with
                | true => exact k10 (Or.inr hrd)
                | false => exact g10 (Or.inl ⟨hrd, h⟩)
        have hunsupplied : ∀ n,
            DExecuteStep vo BuildOuterJoinOutput n ex =
              CallStep.ended Outcome.undefinedBehaviour →
            ¬ Supplied ex →
            (∀ more : Nat, DExecuteStep vo BuildOuterJoinOutput (n + more) ex =
                DExecuteStep vo BuildOuterJoinOutput n ex) →
            (∀ more : Nat, DExecuteStep vo BuildOuterJoinOutput (n + more) ex =
                DExecuteStep vo BuildOuterJoinOutput n ex) ∧
              (∀ ex1, DExecuteStep vo BuildOuterJoinOutput n ex = CallStep.again ex1 ∨
                  DExecuteStep vo BuildOuterJoinOutput n ex = CallStep.againThenTrue ex1 →
                BetweenCalls ex1 ∧ RunsInside ex1 ∧ (Supplied ex → Supplied ex1) ∧
                  pendingPulls ex1 + 1 ≤ pendingPulls ex ∧
                  pendingRows ex1 ≤ pendingRows ex) ∧
              (∀ outcome, DExecuteStep vo BuildOuterJoinOutput n ex =
                  CallStep.ended outcome →
                outcome ≠ Outcome.outOfFuel ∧
                  (Supplied ex → ∃ result, outcome = Outcome.ok result) ∧
                  (∀ b ex', outcome = Outcome.ok (b, ex') →
                    (BetweenCalls ex' ∧ RunsInside ex' ∧ (Supplied ex → Supplied ex')) ∨
                      ∃ ex0, BetweenCalls ex0 ∧ RunsInside ex0 ∧
                        ex' = (BuildOuterJoinOutput ex0).2)) := by
          intro n hform hns hmore
          refine ⟨hmore, ?_, ?_⟩
          · intro ex1' h
            rw [hform] at h
            rcases h with h | h <;> cases h
          · intro outcome h
            rw [hform] at h
            injection h with h
            subst h
            refine ⟨by simp, fun hs => absurd hs hns, ?_⟩
            intro b ex' h
            cases h
        cases hL : ex2.left_result_tiles_.getLast? with
        | none =>
          have hform : ∀ n, DExecuteStep vo BuildOuterJoinOutput n ex =
              CallStep.ended Outcome.undefinedBehaviour := by
            intro n
            simp only [DExecuteStep, hdone, hp, hq, hL]
            rfl
          refine hunsupplied iterations (hform _) ?_ (fun more => by rw [hform, hform])
          intro hs
          exact (hs2 (hs1 hs).1).2 (List.getLast?_eq_none_iff.1 hL)
        | some left_tile =>
          cases hR : ex2.right_result_tiles_.getLast? with
          | none =>
            have hform : ∀ n, DExecuteStep vo BuildOuterJoinOutput n ex =
                CallStep.ended Outcome.undefinedBehaviour := by
              intro n
              simp only [DExecuteStep, hdone, hp, hq, hL, hR]
              rfl
            refine hunsupplied iterations (hform _) ?_ (fun more => by rw [hform, hform])
            intro hs
            apply (hs1 hs).2
            rw [← hrt2]
            exact List.getLast?_eq_none_iff.1 hR
          | some right_tile =>
            have hform : ∀ n, DExecuteStep vo BuildOuterJoinOutput n ex =
                match matchLoop vo left_tile right_tile n ex2 [] with
                | Outcome.ok (ex3, pos_lists) =>
                  if pos_lists.length > 0 then
                    CallStep.ended (Outcome.ok (true, { ex3 with
                      output_ := some
                        { left_tile := left_tile
                          right_tile := right_tile
                          position_lists := pos_lists } }))
                  else CallStep.againThenTrue ex3
                | Outcome.undefinedBehaviour => CallStep.ended Outcome.undefinedBehaviour
                | Outcome.outOfFuel => CallStep.ended Outcome.outOfFuel := by
              intro n
              simp only [DExecuteStep, hdone, hp, hq, hL, hR]
              rfl
            have hlen : left_tile.length + right_tile.length ≤ pendingRows ex2 := by
              simp only [pendingRows, lastTupleCount, hL, hR]
              omega
            have hrl : RunInside left_tile ex2.left_start_row ex2.left_end_row := by
              have := hr2.1
              rwa [lastTile_back _ _ hL] at this
            have hrr : RunInside right_tile ex2.right_start_row ex2.right_end_row := by
              have := hr2.2
              rwa [lastTile_back _ _ hR] at this
            obtain ⟨ex3, pos3, hloop, hsame, hl3, hr3, hend⟩ :=
              matchLoop_returns vo left_tile right_tile iterations ex2 [] hrl hrr (by omega)
            have hmore : ∀ more : Nat,
                matchLoop vo left_tile right_tile (iterations + more) ex2 [] =
                  Outcome.ok (ex3, pos3) := by
              intro more
              rw [matchLoop_more_fuel vo left_tile right_tile iterations ex2 []
                (by rw [hloop]; simp) more, hloop]
            obtain ⟨hlast1, hlast2, hsup3⟩ := SameStreams_ready ex2 ex3 hsame
            have hpend := SameStreams_pending ex2 ex3 hsame
            have hb3 : BetweenCalls ex3 := ⟨hl3.1, hr3.1, Or.inr (Or.inr hend)⟩
            have hruns3 : RunsInside ex3 := by
              refine ⟨?_, ?_⟩
              · rw [hlast1, lastTile_back _ _ hL]
                exact hl3
              · rw [hlast2, lastTile_back _ _ hR]
                exact hr3
            have hsupplied3 : Supplied ex → Supplied ex3 := fun hs =>
              hsup3 (hs2 (hs1 hs).1).1
            by_cases hpos : pos3.length > 0
            · have hres : ∀ more : Nat,
                  DExecuteStep vo BuildOuterJoinOutput (iterations + more) ex =
                    CallStep.ended (Outcome.ok (true, { ex3 with
                      output_ := some
                        { left_tile := left_tile
                          right_tile := right_tile
                          position_lists := pos3 } })) := by
                intro more
                rw [hform, hmore]
                simp only [hpos, if_true]
              have hres0 := hres 0
              rw [Nat.add_zero] at hres0
              refine ⟨fun more => by rw [hres, hres0], ?_, ?_⟩
              · intro ex1' h
                rw [hres0] at h
                rcases h with h | h <;> cases h
              · intro outcome h
                rw [hres0] at h
                injection h with h
                subst h
                refine ⟨by simp, fun _ => ⟨_, rfl⟩, ?_⟩
                intro b ex' h
                injection h with h
                injection h with _ h
                subst h
                exact Or.inl ⟨hb3, hruns3, hsupplied3⟩
            · have hres : ∀ more : Nat,
                  DExecuteStep vo BuildOuterJoinOutput (iterations + more) ex =
                    CallStep.againThenTrue ex3 := by
                intro more
                rw [hform, hmore]
                simp only [hpos, if_false]
              have hres0 := hres 0
              rw [Nat.add_zero] at hres0
              refine ⟨fun more => by rw [hres, hres0], ?_, ?_⟩
              · intro ex1' h
                rw [hres0] at h
                rcases h with h | h
                · cases h
                · injection h with h
                  subst h
                  exact ⟨hb3, hruns3, hsupplied3, by omega, by omega⟩
              · intro outcome h
                rw [hres0] at h
                cases h

/-- A call of `DExecute` between two calls, with the runs inside the buffered
tiles: it ends within a nesting of self-calls of one more than the pulls still
ahead, it returns if both sides are supplied, `DExecute` with the fuel for the
nesting and the iterations does the same, and the state it returns with is what
`BuildOuterJoinOutput` gave or again one between two calls. -/
theorem DExecuteWithin_ends {T V : Type} (vo : ValueOps V)
    (BuildOuterJoinOutput : MergeJoinExecutor T V → Bool × MergeJoinExecutor T V)
    (iterations : Nat) :
    ∀ (depth : Nat) (ex : MergeJoinExecutor T V), BetweenCalls ex → RunsInside ex →
      pendingPulls ex + 1 ≤ depth → pendingRows ex + 1 ≤ iterations →
      DExecuteWithin vo BuildOuterJoinOutput iterations depth ex ≠ Outcome.outOfFuel ∧
        (Supplied ex →
          ∃ result, DExecuteWithin vo BuildOuterJoinOutput iterations depth ex =
            Outcome.ok result) ∧
        DExecute vo BuildOuterJoinOutput (depth + iterations) ex =
          DExecuteWithin vo BuildOuterJoinOutput iterations depth ex ∧
        (∀ b ex', DExecuteWithin vo BuildOuterJoinOutput iterations depth ex =
            Outcome.ok (b, ex') →
          (BetweenCalls ex' ∧ RunsInside ex' ∧ (Supplied ex → Supplied ex')) ∨
            ∃ ex0, BetweenCalls ex0 ∧ RunsInside ex0 ∧
              ex' = (BuildOuterJoinOutput ex0).2) := by
  intro depth
  induction depth with
  | zero => intro ex _ _ h _; omega
  | succ d ih =>
    intro ex hb hr hd hi
    obtain ⟨hmore, hself, hended⟩ :=
      DExecuteStep_cases vo BuildOuterJoinOutput iterations ex hb hr hi
    rw [show d + 1 + iterations = (iterations + d) + 1 by omega, DExecute_step, hmore d,
      DExecuteWithin, Nat.add_comm iterations d]
    cases hs : DExecuteStep vo BuildOuterJoinOutput iterations ex with
    | again ex1 =>
      simp only
      obtain ⟨hb1, hr1, hs1, hp1, hrow1⟩ := hself ex1 (Or.inl hs)
      obtain ⟨i1, i2, i3, i4⟩ := ih ex1 hb1 hr1 (by omega) (by omega)
      refine ⟨i1, fun h => i2 (hs1 h), i3, ?_⟩
      intro b ex' h
      rcases i4 b ex' h with ⟨a1, a2, a3⟩ | h'
      · exact Or.inl ⟨a1, a2, fun hsup => a3 (hs1 hsup)⟩
      · exact Or.inr h'
    | againThenTrue ex1 =>
      simp only
      obtain ⟨hb1, hr1, hs1, hp1, hrow1⟩ := hself ex1 (Or.inr hs)
      obtain ⟨i1, i2, i3, i4⟩ := ih ex1 hb1 hr1 (by omega) (by omega)
      rw [i3]
      cases hres : DExecuteWithin vo BuildOuterJoinOutput iterations d ex1 with
      | ok result =>
        simp only
        refine ⟨by simp, fun _ => ⟨_, rfl⟩, trivial, ?_⟩
        intro b ex' h
        injection h with h
        injection h with _ h
        subst h
        rcases i4 result.1 result.2 (by rw [hres]) with ⟨a1, a2, a3⟩ | h'
        · exact Or.inl ⟨a1, a2, fun hsup => a3 (hs1 hsup)⟩
        · exact Or.inr h'
      | undefinedBehaviour =>
        simp only
        refine ⟨by simp, ?_, trivial, ?_⟩
        · intro hsup
          obtain ⟨result, hresult⟩ := i2 (hs1 hsup)
          rw [hres] at hresult
          cases hresult
        · intro b ex' h
          cases h
      | outOfFuel => exact absurd hres i1
    | ended outcome =>
      simp only
      obtain ⟨e1, e2, e3⟩ := hended outcome hs
      exact ⟨e1, e2, trivial, e3⟩

/-- C24: `DExecute` terminates, its self-calls nesting no deeper than the child
tiles still to be delivered plus three.  In the state a call finds (the runs
inside the most recently buffered tiles, and a child done or a run empty, as
before the first call and after every call), with the nesting bounded by one
more than the pulls still ahead (the tiles to be delivered, and one for each
child not yet done) and the matching loop by one more than the rows still
ahead: the call ends; it returns when each side has a tile buffered or to come;
`DExecute` on the fuel of both bounds does the same; every self-call comes after
a child tile was consumed or a child was newly marked done; and every iteration
of the matching loop moves the start of the left or of the right run forward. -/
theorem DExecute_terminates {T V : Type} (vo : ValueOps V)
    (BuildOuterJoinOutput : MergeJoinExecutor T V → Bool × MergeJoinExecutor T V)
    (ex : MergeJoinExecutor T V) (iterations depth : Nat)
    (hbetween : BetweenCalls ex) (hruns : RunsInside ex)
    (hdepth : pendingPulls ex + 1 ≤ depth) (hiterations : pendingRows ex + 1 ≤ iterations) :
    DExecuteWithin vo BuildOuterJoinOutput iterations depth ex ≠ Outcome.outOfFuel ∧
      (Supplied ex →
        ∃ result, DExecuteWithin vo BuildOuterJoinOutput iterations depth ex =
          Outcome.ok result) ∧
      DExecute vo BuildOuterJoinOutput (depth + iterations) ex =
        DExecuteWithin vo BuildOuterJoinOutput iterations depth ex ∧
      pendingPulls ex ≤ ex.children_0.length + ex.children_1.length + 2 ∧
      (∀ ex1, DExecuteStep vo BuildOuterJoinOutput iterations ex = CallStep.again ex1 ∨
          DExecuteStep vo BuildOuterJoinOutput iterations ex = CallStep.againThenTrue ex1 →
        pendingPulls ex1 < pendingPulls ex ∧ BetweenCalls ex1 ∧ RunsInside ex1) ∧
      (∀ (left_tile right_tile : LogicalTile T) (st st1 : MergeJoinExecutor T V)
          (pos_lists pos1 : List (Nat × Nat)),
        st.left_end_row > st.left_start_row ∧ st.right_end_row > st.right_start_row →
        matchIteration vo left_tile right_tile st pos_lists = Outcome.ok (st1, pos1) →
        st1.left_start_row > st.left_start_row ∨
          st1.right_start_row > st.right_start_row) ∧
      (∀ (join_clauses : List (JoinClause T V)) (predicate : Option (T → T → V))
          (left_tiles right_tiles : List (LogicalTile T)),
        BetweenCalls (freshJoin join_clauses predicate left_tiles right_tiles) ∧
          RunsInside (freshJoin join_clauses predicate left_tiles right_tiles) ∧
          (left_tiles ≠ [] → right_tiles ≠ [] →
            Supplied (freshJoin join_clauses predicate left_tiles right_tiles))) ∧
      (∀ b ex', DExecuteWithin vo BuildOuterJoinOutput iterations depth ex =
          Outcome.ok (b, ex') →
        (BetweenCalls ex' ∧ RunsInside ex' ∧ (Supplied ex → Supplied ex')) ∨
          ∃ ex0, BetweenCalls ex0 ∧ RunsInside ex0 ∧
            ex' = (BuildOuterJoinOutput ex0).2) := by
  obtain ⟨h1, h2, h3, h4⟩ :=
    DExecuteWithin_ends vo BuildOuterJoinOutput iterations depth ex hbetween hruns hdepth
      hiterations
  obtain ⟨-, hself, -⟩ :=
    DExecuteStep_cases vo BuildOuterJoinOutput iterations ex hbetween hruns hiterations
  refine ⟨h1, h2, h3, ?_, ?_, ?_, ?_, h4⟩
  · unfold pendingPulls
    split_ifs <;> omega
  · intro ex1 h
    obtain ⟨a1, a2, -, a4, -⟩ := hself ex1 h
    exact ⟨by omega, a1, a2⟩
  · intro left_tile right_tile st st1 pos_lists pos1 hguard hiter
    exact matchIteration_progress vo left_tile right_tile st st1 pos_lists pos1 hguard hiter
  · intro join_clauses predicate left_tiles right_tiles
    refine ⟨⟨le_rfl, le_rfl, Or.inr (Or.inr (Or.inl rfl))⟩, ⟨?_, ?_⟩, ?_⟩
    · exact ⟨le_rfl, fun h => absurd h (lt_irrefl _)⟩
    · exact ⟨le_rfl, fun h => absurd h (lt_irrefl _)⟩
    · intro hl hr
      exact ⟨Or.inr ⟨hl, rfl⟩, Or.inr ⟨hr, rfl⟩⟩

/-- C24 (witness): the join of `[1]` against `[2]` before its first call returns
within a nesting of five calls and three iterations per loop, and `DExecute` on
fuel 8 does the same. -/
theorem DExecute_terminates_witness :
    (∃ result, DExecuteWithin intOps innerJoinOutput 3 5
        (freshJoin [keyClause] none [[1]] [[2]]) = Outcome.ok result) ∧
      DExecute intOps innerJoinOutput (5 + 3) (freshJoin [keyClause] none [[1]] [[2]]) =
        DExecuteWithin intOps innerJoinOutput 3 5 (freshJoin [keyClause] none [[1]] [[2]]) :=
  match DExecute_terminates intOps innerJoinOutput (freshJoin [keyClause] none [[1]] [[2]])
      3 5 ⟨le_rfl, le_rfl, Or.inr (Or.inr (Or.inl rfl))⟩
      ⟨⟨le_rfl, fun h => absurd h (lt_irrefl _)⟩, ⟨le_rfl, fun h => absurd h (lt_irrefl _)⟩⟩
      (by decide) (by decide) with
  | ⟨_, hreturns, hsame, _⟩ =>
    ⟨hreturns ⟨Or.inr ⟨by simp [freshJoin], rfl⟩, Or.inr ⟨by simp [freshJoin], rfl⟩⟩, hsame⟩

end executor

namespace bridge

/-- Induction over plan trees: a property holds of every node if it holds of a
node whenever it holds of all its children. -/
theorem plan_induction (P : AbstractPlanNode → Prop)
    (step : ∀ plan_node_type children, (∀ child ∈ children, P child) →
      P (AbstractPlanNode.mk plan_node_type children)) :
    ∀ plan, P plan
  | AbstractPlanNode.mk plan_node_type children =>
    step plan_node_type children (fun child _ => plan_induction P step child)

/-- `AddChild` allocates nothing. -/
theorem AddChild_length (heap : ExecutorHeap) (child : Nat) :
    ∀ root, (AddChild heap root child).length = heap.length := by
  induction heap with
  | nil => intro root; cases root <;> rfl
  | cons e rest ih =>
    intro root
    cases root with
    | zero => rfl
    | succ r => simp [AddChild, ih]

/-- `AddChild` changes neither the class nor the plan node of an executor. -/
theorem AddChild_allocations (heap : ExecutorHeap) (child : Nat) :
    ∀ root, allocations (AddChild heap root child) = allocations heap := by
  induction heap with
  | nil => intro root; cases root <;> rfl
  | cons e rest ih =>
    intro root
    cases root with
    | zero => rfl
    | succ r =>
      have := ih r
      simp only [allocations] at this ⊢
      simp [AddChild, this]

/-- `AddChild` appends the child to the executor at `root` and leaves every other
executor as it was. -/
theorem AddChild_lookup (heap : ExecutorHeap) (child : Nat) :
    ∀ root i, (AddChild heap root child)[i]? =
      if i = root then
        heap[i]?.map fun executor =>
          { executor with children_ := executor.children_ ++ [child] }
      else heap[i]? := by
  induction heap with
  | nil => intro root i; cases root <;> simp [AddChild]
  | cons e rest ih =>
    intro root i
    cases root with
    | zero =>
      cases i with
      | zero => simp [AddChild]
      | succ j => simp [AddChild]
    | succ r =>
      cases i with
      | zero => simp [AddChild]
      | succ j => simp [AddChild, ih]

/-- The allocations of the loop over the children, given those of each child. -/
theorem BuildPlanChildren_allocations (children : List AbstractPlanNode)
    (ih : ∀ child ∈ children, ∀ heap root,
      allocations (BuildPlanNode heap root child).2 =
        allocations heap ++ (preorder child).filterMap fun node =>
          (executorClassFor node.GetPlanNodeType).map fun c => (c, some node)) :
    ∀ heap child_executor,
      allocations (BuildPlanChildren heap child_executor children).2 =
        allocations heap ++ (preorderAll children).filterMap fun node =>
          (executorClassFor node.GetPlanNodeType).map fun c => (c, some node) := by
  induction children with
  | nil => intro heap ce; simp [BuildPlanChildren, preorderAll]
  | cons child rest ihr =>
    intro heap ce
    rw [BuildPlanChildren, ihr (fun c hc => ih c (List.mem_cons_of_mem _ hc)),
      ih child (List.mem_cons_self _ _)]
    simp [preorderAll, List.filterMap_append]

/-- The executors allocated for a plan tree, in order: one per visited node whose
kind has a case in the switch. -/
theorem BuildPlanNode_allocations :
    ∀ (plan : AbstractPlanNode) (heap : ExecutorHeap) (root : Option Nat),
      allocations (BuildPlanNode heap root plan).2 =
        allocations heap ++ (preorder plan).filterMap fun node =>
          (executorClassFor node.GetPlanNodeType).map fun c => (c, some node) := by
  intro plan
  induction plan using plan_induction with
  | step plan_node_type children ih =>
    intro heap root
    have hchildren := BuildPlanChildren_allocations children ih
    have htype : (AbstractPlanNode.mk plan_node_type children).GetPlanNodeType =
        plan_node_type := rfl
    rw [BuildPlanNode]
    cases hclass : executorClassFor plan_node_type with
    | none =>
      simp only [hchildren, preorder, List.filterMap_cons, htype, hclass, Option.map]
    | some c =>
      cases root with
      | none =>
        simp only [hchildren, preorder, List.filterMap_cons, htype, hclass, Option.map]
        simp [allocations]
      | some r =>
        simp only [hchildren, AddChild_allocations, preorder, List.filterMap_cons, htype,
          hclass, Option.map]
        simp [allocations]

/-- A layout of a list of plan trees only depends on the pointers it occupies. -/
theorem LaidOutAll_congr (children : List AbstractPlanNode)
    (ih : ∀ child ∈ children, ∀ (h1 h2 : ExecutorHeap) (p : Nat),
      (∀ i, p ≤ i → i < p + planSize child → h2[i]? = h1[i]?) →
        LaidOut h1 p child → LaidOut h2 p child) :
    ∀ (h1 h2 : ExecutorHeap) (p : Nat),
      (∀ i, p ≤ i → i < p + planSizeAll children → h2[i]? = h1[i]?) →
        LaidOutAll h1 p children → LaidOutAll h2 p children := by
  induction children with
  | nil => intro h1 h2 p _ _; simp [LaidOutAll]
  | cons child rest ihr =>
    intro h1 h2 p hsame hlaid
    simp only [LaidOutAll, planSizeAll] at hlaid hsame ⊢
    refine ⟨ih child (List.mem_cons_self _ _) h1 h2 p
      (fun i hi hlt => hsame i hi (by omega)) hlaid.1, ?_⟩
    exact ihr (fun c hc => ih c (List.mem_cons_of_mem _ hc)) h1 h2 _
      (fun i hi hlt => hsame i (by omega) (by omega)) hlaid.2

/-- A layout only depends on the pointers it occupies. -/
theorem LaidOut_congr :
    ∀ (plan : AbstractPlanNode) (h1 h2 : ExecutorHeap) (p : Nat),
      (∀ i, p ≤ i → i < p + planSize plan → h2[i]? = h1[i]?) →
        LaidOut h1 p plan → LaidOut h2 p plan := by
  intro plan
  induction plan using plan_induction with
  | step plan_node_type children ih =>
    intro h1 h2 p hsame hlaid
    simp only [LaidOut, planSize] at hlaid hsame ⊢
    obtain ⟨executor, hget, hclass, hnode, hchildren, hall⟩ := hlaid
    refine ⟨executor, ?_, hclass, hnode, hchildren, ?_⟩
    · rw [hsame p (le_refl _) (by omega)]
      exact hget
    · exact LaidOutAll_congr children ih h1 h2 (p + 1)
        (fun i hi hlt => hsame i (by omega) (by omega)) hall

/-- Children laid out one after the other correspond to the child plan nodes. -/
theorem LaidOutAll_mirrors (heap : ExecutorHeap) (children : List AbstractPlanNode)
    (ih : ∀ child ∈ children, ∀ p, LaidOut heap p child → Mirrors heap p child) :
    ∀ p, LaidOutAll heap p children → MirrorsAll heap (offsets p children) children := by
  induction children with
  | nil => intro p _; simp [MirrorsAll, offsets]
  | cons child rest ihr =>
    intro p hlaid
    simp only [LaidOutAll] at hlaid
    simp only [MirrorsAll, offsets]
    exact ⟨p, _, rfl, ih child (List.mem_cons_self _ _) p hlaid.1,
      ihr (fun c hc => ih c (List.mem_cons_of_mem _ hc)) _ hlaid.2⟩

/-- Executors laid out in visiting order form a tree corresponding to the
plan tree. -/
theorem LaidOut_mirrors (heap : ExecutorHeap) :
    ∀ (plan : AbstractPlanNode) (p : Nat), LaidOut heap p plan → Mirrors heap p plan := by
  intro plan
  induction plan using plan_induction with
  | step plan_node_type children ih =>
    intro p hlaid
    simp only [LaidOut] at hlaid
    obtain ⟨executor, hget, hclass, hnode, hchildren, hall⟩ := hlaid
    simp only [Mirrors]
    refine ⟨executor, hget, hclass, hnode, ?_⟩
    rw [hchildren]
    exact LaidOutAll_mirrors heap children ih (p + 1) hall

/-- The loop over the children of a node whose executor is at `b`: every child
subtree is laid out in turn and its root appended to the children of `b`. -/
theorem BuildPlanChildren_layout (children : List AbstractPlanNode)
    (ih : ∀ child ∈ children, allExecutable child = true → BuildsLayout child)
    (hexec : allExecutableAll children = true) :
    ∀ (heap : ExecutorHeap) (b : Nat) (e : AbstractExecutor), heap[b]? = some e →
      (BuildPlanChildren heap (some b) children).1 = some b ∧
      (BuildPlanChildren heap (some b) children).2.length =
        heap.length + planSizeAll children ∧
      (∀ i, i < heap.length → i ≠ b →
        (BuildPlanChildren heap (some b) children).2[i]? = heap[i]?) ∧
      (BuildPlanChildren heap (some b) children).2[b]? =
        some { e with children_ := e.children_ ++ offsets heap.length children } ∧
      LaidOutAll (BuildPlanChildren heap (some b) children).2 heap.length children := by
  induction children with
  | nil =>
    intro heap b e hb
    simp [BuildPlanChildren, planSizeAll, offsets, LaidOutAll, hb]
  | cons child rest ihr =>
    intro heap b e hb
    simp only [allExecutableAll, Bool.and_eq_true] at hexec
    have hblt : b < heap.length := by
      rcases Nat.lt_or_ge b heap.length with h | h
      · exact h
      · rw [List.getElem?_eq_none h] at hb; cases hb
    obtain ⟨h1, h2, h3, h4⟩ := ih child (List.mem_cons_self _ _) hexec.1 heap (some b)
      (fun r hr => by cases hr; exact hblt)
    simp only [Option.getD_some] at h1
    have hb1 : (BuildPlanNode heap (some b) child).2[b]? =
        some { e with children_ := e.children_ ++ [heap.length] } := by
      rw [h3 b hblt, AddChild_lookup]
      simp [hb]
    obtain ⟨r1, r2, r3, r4, r5⟩ := ihr (fun c hc => ih c (List.mem_cons_of_mem _ hc)) hexec.2
      (BuildPlanNode heap (some b) child).2 b _ hb1
    rw [BuildPlanChildren, h1]
    refine ⟨r1, ?_, ?_, ?_, ?_⟩
    · rw [r2, h2]; simp only [planSizeAll]; omega
    · intro i hi hne
      rw [r3 i (by omega) hne, h3 i hi, AddChild_lookup]
      simp [hne]
    · rw [r4, h2]
      simp [offsets]
    · simp only [LaidOutAll]
      rw [h2] at r5
      refine ⟨?_, r5⟩
      refine LaidOut_congr child _ _ heap.length ?_ h4
      intro i hi hlt
      exact r3 i (by omega) (by omega)

/-- On a plan tree all of whose nodes get an operator, `BuildExecutorTree`
allocates the executors in visiting order, each with its children attached in
order, and changes no executor allocated before except `root`, which gets the
new executor as a further child. -/
theorem BuildPlanNode_layout :
    ∀ plan : AbstractPlanNode, allExecutable plan = true → BuildsLayout plan := by
  intro plan
  induction plan using plan_induction with
  | step plan_node_type children ih =>
    intro hexec heap root hroot
    simp only [allExecutable, Bool.and_eq_true, Option.isSome_iff_exists] at hexec
    obtain ⟨⟨c, hclass⟩, hall⟩ := hexec
    have hloop := BuildPlanChildren_layout children ih hall
    rw [BuildPlanNode]
    simp only [hclass]
    cases root with
    | none =>
      obtain ⟨r1, r2, r3, r4, r5⟩ := hloop
        (heap ++ [{ class_ := c
                    node_ := some (AbstractPlanNode.mk plan_node_type children)
                    children_ := [] }]) heap.length
        { class_ := c
          node_ := some (AbstractPlanNode.mk plan_node_type children)
          children_ := [] } (by simp)
      simp only [List.length_append, List.length_singleton] at r2 r3 r4 r5
      refine ⟨by simp, ?_, ?_, ?_⟩
      · simp only [r2, planSize]; omega
      · intro i hi
        simp only
        rw [r3 i (by omega) (by omega), List.getElem?_append_left hi]
      · simp only [LaidOut]
        refine ⟨_, r4, by simp [hclass], rfl, by simp, ?_⟩
        exact r5
    | some r =>
      have hr := hroot r rfl
      obtain ⟨r1, r2, r3, r4, r5⟩ := hloop
        (AddChild (heap ++ [{ class_ := c
                              node_ := some (AbstractPlanNode.mk plan_node_type children)
                              children_ := [] }]) r heap.length) heap.length
        { class_ := c
          node_ := some (AbstractPlanNode.mk plan_node_type children)
          children_ := [] }
        (by rw [AddChild_lookup]; simp; omega)
      simp only [AddChild_length, List.length_append, List.length_singleton] at r2 r3 r4 r5
      refine ⟨by simp, ?_, ?_, ?_⟩
      · simp only [r2, planSize]; omega
      · intro i hi
        simp only
        rw [r3 i (by omega) (by omega), AddChild_lookup, AddChild_lookup,
          List.getElem?_append_left hi]
      · simp only [LaidOut]
        refine ⟨_, r4, by simp [hclass], rfl, by simp, ?_⟩
        exact r5

/-- C11 (counterexample): a MergeJoin plan node gets no operator; the switch has
no case for it and `BuildExecutorTree` allocates nothing. -/
theorem BuildExecutorTree_mergejoin_no_operator :
    BuildExecutorTree [] none
        (some (AbstractPlanNode.mk PlanNodeType.PLAN_NODE_TYPE_MERGEJOIN [])) =
      (none, []) :=
  rfl

/-- C11 (amended): the executors `BuildExecutorTree` allocates are, in order of
allocation, one per visited plan node whose kind has a case in the switch, each
constructed with its node and of the class of that case; and the nine kinds
SeqScan, IndexScan, Insert, Delete, Update, Limit, NestedLoop, Projection and
Materialize have the case of the matching class. -/
theorem BuildExecutorTree_operators (heap : ExecutorHeap) (root : Option Nat)
    (plan : AbstractPlanNode) :
    allocations (BuildExecutorTree heap root (some plan)).2 =
        allocations heap ++ (preorder plan).filterMap (fun node =>
          (executorClassFor node.GetPlanNodeType).map fun c => (c, some node)) ∧
      executorClassFor PlanNodeType.PLAN_NODE_TYPE_SEQSCAN =
        some ExecutorClass.SeqScanExecutor ∧
      executorClassFor PlanNodeType.PLAN_NODE_TYPE_INDEXSCAN =
        some ExecutorClass.IndexScanExecutor ∧
      executorClassFor PlanNodeType.PLAN_NODE_TYPE_INSERT =
        some ExecutorClass.InsertExecutor ∧
      executorClassFor PlanNodeType.PLAN_NODE_TYPE_DELETE =
        some ExecutorClass.DeleteExecutor ∧
      executorClassFor PlanNodeType.PLAN_NODE_TYPE_UPDATE =
        some ExecutorClass.UpdateExecutor ∧
      executorClassFor PlanNodeType.PLAN_NODE_TYPE_LIMIT =
        some ExecutorClass.LimitExecutor ∧
      executorClassFor PlanNodeType.PLAN_NODE_TYPE_NESTLOOP =
        some ExecutorClass.NestedLoopJoinExecutor ∧
      executorClassFor PlanNodeType.PLAN_NODE_TYPE_PROJECTION =
        some ExecutorClass.ProjectionExecutor ∧
      executorClassFor PlanNodeType.PLAN_NODE_TYPE_MATERIALIZE =
        some ExecutorClass.MaterializationExecutor :=
  ⟨BuildPlanNode_allocations plan heap root, rfl, rfl, rfl, rfl, rfl, rfl, rfl, rfl, rfl⟩

/-- The walk over children laid out one after the other visits the pointers from
the first one on, each once. -/
theorem LaidOutAll_pointers (heap : ExecutorHeap) (children : List AbstractPlanNode)
    (ih : ∀ child ∈ children, ∀ p depth, LaidOut heap p child → planSize child ≤ depth →
      executorPointers heap depth p = List.range' p (planSize child)) :
    ∀ p depth, LaidOutAll heap p children → planSizeAll children ≤ depth →
      (offsets p children).flatMap (executorPointers heap depth) =
        List.range' p (planSizeAll children) := by
  induction children with
  | nil => intro p depth _ _; simp [offsets, planSizeAll]
  | cons child rest ihr =>
    intro p depth hlaid hdepth
    simp only [LaidOutAll] at hlaid
    simp only [planSizeAll] at hdepth
    simp only [offsets, planSizeAll, List.flatMap_cons]
    rw [ih child (List.mem_cons_self _ _) p depth hlaid.1 (by omega),
      ihr (fun c hc => ih c (List.mem_cons_of_mem _ hc)) _ depth hlaid.2 (by omega),
      List.range'_append_1, Nat.add_comm]

/-- The walk over executors laid out in visiting order visits the pointers from
the root's on, each once, as many as the plan tree has nodes. -/
theorem LaidOut_pointers (heap : ExecutorHeap) :
    ∀ (plan : AbstractPlanNode) (p depth : Nat), LaidOut heap p plan →
      planSize plan ≤ depth →
      executorPointers heap depth p = List.range' p (planSize plan) := by
  intro plan
  induction plan using plan_induction with
  | step plan_node_type children ih =>
    intro p depth hlaid hdepth
    simp only [LaidOut] at hlaid
    obtain ⟨executor, hget, -, -, hchildren, hall⟩ := hlaid
    simp only [planSize] at hdepth
    obtain ⟨d, rfl⟩ : ∃ d, depth = d + 1 := ⟨depth - 1, by omega⟩
    simp only [executorPointers, hget, hchildren, planSize]
    rw [LaidOutAll_pointers heap children ih (p + 1) d hall (by omega), Nat.add_comm 1,
      List.range'_succ]

/-- C12: for every plan tree all of whose nodes are of a kind for which
`BuildExecutorTree` creates an operator, `BuildExecutorTree(nullptr, plan)`
returns an executor tree isomorphic to the plan tree.  The returned executor
corresponds to the plan root, the children of the operator of each plan node
being, in the same order, the operators of that node's children; and the walk
over the returned tree meets pairwise different executors, as many as the plan
has nodes, namely the ones allocated by this call, which are laid out in
visiting order while the executors allocated before are left as they were. -/
theorem BuildExecutorTree_mirrors_plan (heap : ExecutorHeap) (plan : AbstractPlanNode)
    (hexec : allExecutable plan = true) :
    ∃ root_executor : Nat,
      (BuildExecutorTree heap none (some plan)).1 = some root_executor ∧
        Mirrors (BuildExecutorTree heap none (some plan)).2 root_executor plan ∧
        (∀ depth : Nat, planSize plan ≤ depth →
          executorPointers (BuildExecutorTree heap none (some plan)).2 depth root_executor =
              List.range' heap.length (planSize plan) ∧
            (executorPointers (BuildExecutorTree heap none (some plan)).2 depth
              root_executor).Nodup) ∧
        (BuildExecutorTree heap none (some plan)).2.length = heap.length + planSize plan ∧
        (∀ i : Nat, i < heap.length →
          (BuildExecutorTree heap none (some plan)).2[i]? = heap[i]?) ∧
        LaidOut (BuildExecutorTree heap none (some plan)).2 root_executor plan := by
  obtain ⟨h1, h2, h3, h4⟩ := BuildPlanNode_layout plan hexec heap none (fun r hr => by cases hr)
  refine ⟨heap.length, h1, LaidOut_mirrors _ plan heap.length h4, ?_, h2, h3, h4⟩
  intro depth hdepth
  have hwalk := LaidOut_pointers (BuildExecutorTree heap none (some plan)).2 plan heap.length
    depth h4 hdepth
  refine ⟨hwalk, ?_⟩
  rw [hwalk]
  exact List.nodup_range' _ _

/-- C12 (witness): the plan `NestLoop → [Limit → SeqScan, IndexScan]` built on
the empty heap: the walk over the returned tree meets the four executors 0, 1, 2
and 3. -/
theorem BuildExecutorTree_mirrors_plan_witness :
    allExecutable joinPlan = true ∧
      ∃ root_executor : Nat,
        (BuildExecutorTree [] none (some joinPlan)).1 = some root_executor ∧
          Mirrors (BuildExecutorTree [] none (some joinPlan)).2 root_executor joinPlan ∧
          executorPointers (BuildExecutorTree [] none (some joinPlan)).2 4 root_executor =
            [0, 1, 2, 3] :=
  ⟨by decide,
    match BuildExecutorTree_mirrors_plan [] joinPlan (by decide) with
    | ⟨root_executor, hroot, hmirrors, hwalk, _⟩ =>
      ⟨root_executor, hroot, hmirrors, (hwalk 4 (by decide)).1⟩⟩

/-- C13 (code at the failing input): for the plan `Limit → Invalid → SeqScan` the
returned tree is the Limit executor alone, with no child; the SeqScan executor
built for the descendant of the Invalid node is attached to nothing. -/
theorem BuildExecutorTree_drops_descendants :
    BuildExecutorTree [] none (some brokenPlan) =
      (some 0,
        [{ class_ := ExecutorClass.LimitExecutor, node_ := some brokenPlan, children_ := [] },
         { class_ := ExecutorClass.SeqScanExecutor
           node_ := some (AbstractPlanNode.mk PlanNodeType.PLAN_NODE_TYPE_SEQSCAN [])
           children_ := [] }]) :=
  rfl

/-- C14: for a root whose plan node is of kind SeqScan, IndexScan, NestedLoop or
Limit, `AddMaterialization` returns a new Materialization executor whose single
child is the root; for a root of any other kind it returns the root itself and
allocates nothing; so does it for a null root. -/
theorem AddMaterialization_wraps (heap : ExecutorHeap) (root : Nat)
    (executor : AbstractExecutor) (node : AbstractPlanNode)
    (hroot : heap[root]? = some executor) (hnode : executor.node_ = some node) :
    (node.GetPlanNodeType ∈
        [PlanNodeType.PLAN_NODE_TYPE_SEQSCAN, PlanNodeType.PLAN_NODE_TYPE_INDEXSCAN,
          PlanNodeType.PLAN_NODE_TYPE_NESTLOOP, PlanNodeType.PLAN_NODE_TYPE_LIMIT] →
      AddMaterialization heap (some root) =
        some (some heap.length,
          heap ++
            [{ class_ := ExecutorClass.MaterializationExecutor
               node_ := none
               children_ := [root] }])) ∧
    (node.GetPlanNodeType ∉
        [PlanNodeType.PLAN_NODE_TYPE_SEQSCAN, PlanNodeType.PLAN_NODE_TYPE_INDEXSCAN,
          PlanNodeType.PLAN_NODE_TYPE_NESTLOOP, PlanNodeType.PLAN_NODE_TYPE_LIMIT] →
      AddMaterialization heap (some root) = some (some root, heap)) ∧
    AddMaterialization heap none = some (none, heap) := by
  refine ⟨?_, ?_, rfl⟩
  · intro h
    simp only [AddMaterialization, hroot, hnode]
    split <;> simp_all
  · intro h
    simp only [AddMaterialization, hroot, hnode]
    split <;> simp_all

/-- C14 (witness): the executor of a sequential scan is wrapped. -/
theorem AddMaterialization_wraps_witness :
    AddMaterialization scanHeap (some 0) =
      some (some 1,
        scanHeap ++
          [{ class_ := ExecutorClass.MaterializationExecutor
             node_ := none
             children_ := [0] }]) :=
  (AddMaterialization_wraps scanHeap 0 _ scanPlan rfl rfl).1 (by decide)

/-- The calls the pull loop adds are `Execute` and `GetOutput` only. -/
theorem pullLoop_events {Tuple Slot : Type} (GetPostgresTuple : Tuple → Option Slot)
    (last_set_result : Option Result) (pulls : List (Pull Tuple)) :
    ∀ (txn : Transaction) (slots : List Slot) (events : List Event),
      (pullLoop GetPostgresTuple last_set_result pulls txn slots events).2.2 =
        events ++ (pulls.flatMap fun _ => [Event.Execute, Event.GetOutput]) ++
          [Event.Execute] := by
  induction pulls with
  | nil => intro txn slots events; simp [pullLoop]
  | cons pull rest ih =>
    intro txn slots events
    unfold pullLoop
    split <;> simp [ih]

/-- The slots the pull loop appends: per pulled tile, in order, the converted
tuples of its base tile 0. -/
theorem pullLoop_slots {Tuple Slot : Type} (GetPostgresTuple : Tuple → Option Slot)
    (last_set_result : Option Result) (pulls : List (Pull Tuple)) :
    ∀ (txn : Transaction) (slots : List Slot) (events : List Event),
      (pullLoop GetPostgresTuple last_set_result pulls txn slots events).2.1 =
        slots ++ pulls.flatMap fun pull =>
          match pull.output with
          | some base_tile => base_tile.filterMap GetPostgresTuple
          | none => [] := by
  induction pulls with
  | nil => intro txn slots events; simp [pullLoop]
  | cons pull rest ih =>
    intro txn slots events
    unfold pullLoop
    split <;> rename_i h <;> simp [ih, h]

/-- The calls of the pull loop hold no call on the transaction manager and no
teardown. -/
theorem pull_calls_count {Tuple : Type} (pulls : List (Pull Tuple)) (event : Event)
    (h1 : event ≠ Event.Execute) (h2 : event ≠ Event.GetOutput) :
    List.count event (pulls.flatMap fun _ => [Event.Execute, Event.GetOutput]) = 0 := by
  rw [List.count_eq_zero]
  intro hmem
  rw [List.mem_flatMap] at hmem
  obtain ⟨_, _, h⟩ := hmem
  simp at h
  rcases h with h | h
  · exact h1 h
  · exact h2 h

/-- A run of `ExecutePlan` that ends is the init-failure path or the pull loop,
followed by the cleanup. -/
theorem ExecutePlan_end {Tuple Slot : Type} (plan : AbstractPlanNode)
    (pstatus : Peloton_Status Slot) (registered : Option Transaction) (started : Transaction)
    (run : TreeRun Tuple) (GetPostgresTuple : Tuple → Option Slot) (finish : PlanEnd Slot)
    (hrun : ExecutePlan plan pstatus registered started run GetPostgresTuple = some finish) :
    finish =
      if run.init_status = false then
        cleanup registered.isNone true pstatus
          (((registered.getD started).SetResult run.init_set_result).SetResult
            (some Result.RESULT_FAILURE))
          ((if registered.isNone then [Event.StartPGTransaction] else []) ++ [Event.Init])
      else
        cleanup registered.isNone false
          { pstatus with
            m_result_slots :=
              (pullLoop GetPostgresTuple run.last_set_result run.pulls
                ((registered.getD started).SetResult run.init_set_result) []
                ((if registered.isNone then [Event.StartPGTransaction] else []) ++
                  [Event.Init])).2.1 }
          (pullLoop GetPostgresTuple run.last_set_result run.pulls
            ((registered.getD started).SetResult run.init_set_result) []
            ((if registered.isNone then [Event.StartPGTransaction] else []) ++
              [Event.Init])).1
          (pullLoop GetPostgresTuple run.last_set_result run.pulls
            ((registered.getD started).SetResult run.init_set_result) []
            ((if registered.isNone then [Event.StartPGTransaction] else []) ++
              [Event.Init])).2.2 := by
  unfold ExecutePlan at hrun
  rcases hmat : AddMaterialization (BuildExecutorTree [] none (some plan)).2
      (BuildExecutorTree [] none (some plan)).1 with _ | ⟨_ | _, _⟩
  · simp [hmat] at hrun
  · simp [hmat] at hrun
  · cases registered <;> cases hinit : run.init_status <;>
      simp [hmat, hinit] at hrun <;> simp [← hrun]

/-- C15: in every run of `ExecutePlan` that gets an executor tree, if
`ExecutePlan` started the transaction itself it makes exactly one call of
`CommitTransaction` or `AbortTransaction`, and that call is the commit exactly
when the result of the transaction is Success when the cleanup is reached; if
the transaction existed and `Init` succeeds it makes neither call. -/
theorem ExecutePlan_commit_or_abort {Tuple Slot : Type} (plan : AbstractPlanNode)
    (pstatus : Peloton_Status Slot) (registered : Option Transaction) (started : Transaction)
    (run : TreeRun Tuple) (GetPostgresTuple : Tuple → Option Slot) (finish : PlanEnd Slot)
    (hrun : ExecutePlan plan pstatus registered started run GetPostgresTuple = some finish) :
    (registered = none →
      finish.events.count Event.CommitTransaction +
          finish.events.count Event.AbortTransaction = 1 ∧
        (Event.CommitTransaction ∈ finish.events ↔
          finish.txn.result_ = Result.RESULT_SUCCESS)) ∧
    (registered ≠ none → run.init_status = true →
      Event.CommitTransaction ∉ finish.events ∧ Event.AbortTransaction ∉ finish.events) := by
  have hend := ExecutePlan_end plan pstatus registered started run GetPostgresTuple finish hrun
  subst hend
  have hcommit := pull_calls_count run.pulls Event.CommitTransaction (by decide) (by decide)
  have habort := pull_calls_count run.pulls Event.AbortTransaction (by decide) (by decide)
  have hcommit_mem := List.count_eq_zero.1 hcommit
  have habort_mem := List.count_eq_zero.1 habort
  cases registered <;> cases hinit : run.init_status <;>
    simp [cleanup, pullLoop_events, List.count_append, Transaction.SetResult, hcommit,
      habort, hcommit_mem, habort_mem]
  split <;> simp_all

/-- C15 (witness): a run that starts its own transaction and succeeds commits
it once. -/
theorem ExecutePlan_commit_or_abort_witness :
    ∃ finish : PlanEnd Nat,
      ExecutePlan scanPlan callerStatus none startedTxn threePulls skipTwo = some finish ∧
        finish.events.count Event.CommitTransaction +
            finish.events.count Event.AbortTransaction = 1 ∧
        (Event.CommitTransaction ∈ finish.events ↔
          finish.txn.result_ = Result.RESULT_SUCCESS) :=
  ⟨_, rfl,
    (ExecutePlan_commit_or_abort scanPlan callerStatus none startedTxn threePulls skipTwo _
      rfl).1 rfl⟩

/-- C16: if `Init` returns false, `ExecutePlan` never calls `Execute`, leaves the
transaction with the result Failure, aborts it exactly once and never commits
it (whether or not it started the transaction), tears the tree down, reports
Failure in the status and leaves the rows of the status as the caller passed
them. -/
theorem ExecutePlan_init_failure {Tuple Slot : Type} (plan : AbstractPlanNode)
    (pstatus : Peloton_Status Slot) (registered : Option Transaction) (started : Transaction)
    (run : TreeRun Tuple) (GetPostgresTuple : Tuple → Option Slot) (finish : PlanEnd Slot)
    (hrun : ExecutePlan plan pstatus registered started run GetPostgresTuple = some finish)
    (hinit : run.init_status = false) :
    Event.Execute ∉ finish.events ∧
      finish.txn.result_ = Result.RESULT_FAILURE ∧
      finish.events.count Event.AbortTransaction = 1 ∧
      Event.CommitTransaction ∉ finish.events ∧
      Event.CleanExecutorTree ∈ finish.events ∧
      finish.pstatus.m_result = Result.RESULT_FAILURE ∧
      finish.pstatus.m_result_slots = pstatus.m_result_slots := by
  have hend := ExecutePlan_end plan pstatus registered started run GetPostgresTuple finish hrun
  subst hend
  cases registered <;> simp [hinit, cleanup, Transaction.SetResult, List.count_append]

/-- C16 (witness): a run whose `Init` fails. -/
theorem ExecutePlan_init_failure_witness :
    ∃ finish : PlanEnd Nat,
      ExecutePlan scanPlan callerStatus none startedTxn failedInit skipTwo = some finish ∧
        failedInit.init_status = false ∧
        Event.Execute ∉ finish.events ∧
        finish.txn.result_ = Result.RESULT_FAILURE ∧
        finish.events.count Event.AbortTransaction = 1 ∧
        Event.CommitTransaction ∉ finish.events ∧
        Event.CleanExecutorTree ∈ finish.events ∧
        finish.pstatus.m_result = Result.RESULT_FAILURE ∧
        finish.pstatus.m_result_slots = callerStatus.m_result_slots :=
  ⟨_, rfl, rfl,
    ExecutePlan_init_failure scanPlan callerStatus none startedTxn failedInit skipTwo _ rfl
      rfl⟩

/-- C19: when `Init` succeeds, the rows `ExecutePlan` writes to the status are,
in order, the concatenation over the pulled tiles of the converted tuples of
base tile 0, a pull without a tile contributing nothing and a tuple whose
conversion yields no slot being left out. -/
theorem ExecutePlan_output_rows {Tuple Slot : Type} (plan : AbstractPlanNode)
    (pstatus : Peloton_Status Slot) (registered : Option Transaction) (started : Transaction)
    (run : TreeRun Tuple) (GetPostgresTuple : Tuple → Option Slot) (finish : PlanEnd Slot)
    (hrun : ExecutePlan plan pstatus registered started run GetPostgresTuple = some finish)
    (hinit : run.init_status = true) :
    finish.pstatus.m_result_slots =
      run.pulls.flatMap fun pull =>
        match pull.output with
        | some base_tile => base_tile.filterMap GetPostgresTuple
        | none => [] := by
  have hend := ExecutePlan_end plan pstatus registered started run GetPostgresTuple finish hrun
  subst hend
  simp [hinit, cleanup, pullLoop_slots]

/-- C19 (witness): the tiles `[1, 2]`, null and `[3]` under a transformer that
yields no slot for 2 give the rows `[1, 3]`. -/
theorem ExecutePlan_output_rows_witness :
    ∃ finish : PlanEnd Nat,
      ExecutePlan scanPlan callerStatus none startedTxn threePulls skipTwo = some finish ∧
        threePulls.init_status = true ∧
        finish.pstatus.m_result_slots = [1, 3] :=
  ⟨_, rfl, rfl,
    (ExecutePlan_output_rows scanPlan callerStatus none startedTxn threePulls skipTwo _ rfl
      rfl).trans rfl⟩

/-- C17: `ReMapPgFunc` returns the equality comparison over `lc` and `rc` exactly
for the identifiers 63, 65, 67, 158, 159, the inequality comparison over `lc`
and `rc` exactly for 84, 144, 145, 157, 164, 165, and no expression exactly for
every other identifier. -/
theorem ReMapPgFunc_table {V : Type} (func_id : Nat) (lc rc : Option (AbstractExpression V)) :
    (ReMapPgFunc func_id lc rc =
        some (AbstractExpression.Comparison ExpressionType.EXPRESSION_TYPE_COMPARE_EQ lc rc) ↔
      func_id ∈ [63, 65, 67, 158, 159]) ∧
    (ReMapPgFunc func_id lc rc =
        some (AbstractExpression.Comparison ExpressionType.EXPRESSION_TYPE_COMPARE_NE lc rc) ↔
      func_id ∈ [84, 144, 145, 157, 164, 165]) ∧
    (ReMapPgFunc func_id lc rc = none ↔
      func_id ∉ [63, 65, 67, 158, 159] ∧ func_id ∉ [84, 144, 145, 157, 164, 165]) := by
  unfold ReMapPgFunc
  split <;> simp_all [ComparisonFactory]

/-- C18 (code at the failing input): a Var that refers to the outer input
(`varno = OUTER_VAR`) with attribute number 1 becomes the column reference with
tuple index 1, and a Var with another `varno` the one with tuple index 0. -/
theorem TransformVar_outer (V : Type) (OUTER_VAR oid_bits : Nat) :
    (TransformVar OUTER_VAR oid_bits { varno := OUTER_VAR, varattno := 1 } :
        AbstractExpression V) = AbstractExpression.TupleValue 1 0 ∧
      (TransformVar OUTER_VAR oid_bits { varno := OUTER_VAR + 1, varattno := 1 } :
        AbstractExpression V) = AbstractExpression.TupleValue 0 0 := by
  simp [TransformVar, TupleValueFactory]

/-- C25 (code at the failing input): for the operator 65 (an equality) over a
constant and a node of a tag other than Const, OpExpr or Var, `TransformExpr`
returns an expression: the equality comparison whose right child is missing. -/
theorem TransformExpr_keeps_broken_comparison {V : Type} (vf : ValueFactory V)
    (OUTER_VAR oid_bits : Nat) :
    TransformExpr vf OUTER_VAR oid_bits
        (some (ExprState.T_OpExpr 65
          [ExprState.T_Const true false 7 23, ExprState.other 0])) =
      some (AbstractExpression.Comparison ExpressionType.EXPRESSION_TYPE_COMPARE_EQ
        (some (AbstractExpression.ConstantValue (vf.GetValue 7 23))) none) := by
  simp [TransformExpr, TransformExprState, TransformOp, TransformArgs, ReMapPgFunc,
    ComparisonFactory, TransformConstant, ConstantValueFactory]

end bridge
end peloton
